import Mathlib

/-!
# HTTPRequest: a shallow embedding of `include/HTTPRequest.h`

The development models the URL decomposition done by the constructor
`http::Request::Request`, the request serialisation and the socket driving of
`http::Request::send`, and the incremental response parser that lives in the
receive loop of `send`.

Conventions.
* `std::string` and `std::vector<uint8_t>` are lists of characters (`Bytes`).
* `std::string::npos` and an end iterator returned by a search are `none`.
* `size_t` values are natural numbers; `int` values are integers; the places
  where the C++ types wrap or overflow are written out explicitly
  (`INT_MAX`, `SIZE_MOD`).
* The POSIX branch of every `#ifdef` is the one that is modelled.
* Loops that C++ writes as `for (;;)` or `while` are given an explicit
  iteration budget; running out of budget is a distinct result, `outOfFuel`,
  so that a theorem stating a result also states that the budget sufficed.
* The operating system is a script: the values that `close`, `socket`,
  `getaddrinfo`, `connect`, `send` and `recv` return, in order.
-/

namespace http

/-- A `std::string` or a `std::vector<uint8_t>`. -/
abbrev Bytes := List Char

/-! ## Library functions used by the source -/

/-- `std::search(first, last, pFirst, pLast)` and `std::string::find(str)` from
position 0: the offset of the first occurrence of `pat` in `s`, `none` when
there is none (the end iterator, `npos`). -/
def search : Bytes → Bytes → Option Nat
  | [], pat => if pat = [] then some 0 else none
  | c :: t, pat =>
    if pat.isPrefixOf (c :: t) then some 0
    else (search t pat).map (· + 1)

/-- `s.find(pat, pos)`: the lowest index `i ≥ pos` at which `pat` occurs. -/
def find (s pat : Bytes) (pos : Nat) : Option Nat :=
  if pos ≤ s.length then (search (s.drop pos) pat).map (· + pos) else none

/-- `s.substr(pos, len)`. -/
def substr (s : Bytes) (pos len : Nat) : Bytes := (s.drop pos).take len

/-- `s.substr(pos)`: everything from `pos` on. -/
def substrFrom (s : Bytes) (pos : Nat) : Bytes := s.drop pos

/-- `::tolower` in the "C" locale: the letters `A` to `Z` become `a` to `z`,
every other character is left as it is. -/
def tolower (c : Char) : Char :=
  if 65 ≤ c.toNat ∧ c.toNat ≤ 90 then Char.ofNat (c.toNat + 32) else c

/-- `std::isspace` in the "C" locale: space, `\t`, `\n`, `\v`, `\f`, `\r`, and
no other character. -/
def isspace (c : Char) : Bool :=
  c.toNat = 32 || (9 ≤ c.toNat && c.toNat ≤ 13)

/-- The exceptions `std::stoi` and `std::stoul` throw. -/
inductive ParseError where
  | invalid_argument
  | out_of_range
  deriving DecidableEq, Repr

/-- The result of a piece of code that may throw, or whose model may exhaust
its iteration budget. -/
inductive Res (α : Type) where
  | ok (a : α)
  | threw (e : ParseError)
  | outOfFuel
  deriving DecidableEq, Repr

/-- `INT_MAX` for a 32-bit `int`. -/
def INT_MAX : Int := 2147483647

/-- `INT_MIN` for a 32-bit `int`. -/
def INT_MIN : Int := -2147483648

/-- The modulus of `size_t` and `unsigned long` arithmetic (LP64). -/
def SIZE_MOD : Nat := 18446744073709551616

/-- The value of a character as a digit, as `strtol` reads it: `0`-`9`,
then letters of either case for 10 to 35. -/
def digitVal (c : Char) : Option Nat :=
  if 48 ≤ c.toNat ∧ c.toNat ≤ 57 then some (c.toNat - 48)
  else if 97 ≤ c.toNat ∧ c.toNat ≤ 122 then some (c.toNat - 97 + 10)
  else if 65 ≤ c.toNat ∧ c.toNat ≤ 90 then some (c.toNat - 65 + 10)
  else none

/-- Whether `c` is a digit in the given base. -/
def isDigitIn (base : Nat) (c : Char) : Bool :=
  match digitVal c with
  | some d => decide (d < base)
  | none => false

/-- The value of a run of digits, most significant first. -/
def digitsValue (base : Nat) (ds : Bytes) : Nat :=
  ds.foldl (fun a c => a * base + (digitVal c).getD 0) 0

/-- The longest run of digits at the head of `s` and its value; `none` when
`s` does not start with a digit (no conversion can be performed). -/
def magnitude (base : Nat) (s : Bytes) : Option Nat :=
  let ds := s.takeWhile (isDigitIn base)
  if ds = [] then none else some (digitsValue base ds)

/-- The optional sign `strtol` accepts: whether it is a minus, and the rest. -/
def takeSign : Bytes → Bool × Bytes
  | '-' :: t => (true, t)
  | '+' :: t => (false, t)
  | s => (false, s)

/-- The optional `0x` or `0X` that `strtoul` skips in base 16. When no
hexadecimal digit follows it, the subject sequence is the `0` alone. -/
def skipHexPrefix : Bytes → Bytes
  | '0' :: x :: d :: t =>
    if (x = 'x' ∨ x = 'X') ∧ isDigitIn 16 d = true then d :: t else '0' :: x :: d :: t
  | s => s

/-- `std::stoi(str)`: `strtol` in base 10 (leading white space, an optional
sign, a run of decimal digits, the rest ignored), `std::invalid_argument`
when there is no digit, `std::out_of_range` when the value is no `int`. -/
def stoi (str : Bytes) : Res Int :=
  let (neg, s) := takeSign (str.dropWhile isspace)
  match magnitude 10 s with
  | none => .threw .invalid_argument
  | some v =>
    let r : Int := if neg then -(v : Int) else (v : Int)
    if r < INT_MIN ∨ INT_MAX < r then .threw .out_of_range else .ok r

/-- `std::stoul(str, 0, 16)`: `strtoul` in base 16 (leading white space, an
optional sign, an optional `0x`, a run of hexadecimal digits, the rest
ignored), `std::invalid_argument` when there is no digit,
`std::out_of_range` when the digits exceed `ULONG_MAX`; a minus sign negates
in `unsigned long` arithmetic. -/
def stoul16 (str : Bytes) : Res Nat :=
  let (neg, s) := takeSign (str.dropWhile isspace)
  match magnitude 16 (skipHexPrefix s) with
  | none => .threw .invalid_argument
  | some v =>
    if SIZE_MOD ≤ v then .threw .out_of_range
    else .ok (if neg then (SIZE_MOD - v) % SIZE_MOD else v)

/-- `std::to_string(n)` for an unsigned `n`: its decimal digits. -/
def to_string (n : Nat) : Bytes := Nat.toDigits 10 n

/-! ## The data model -/

/-- `struct Response`. -/
structure Response where
  succeeded : Bool := false
  code : Int := 0
  headers : List Bytes := []
  body : Bytes := []
  deriving DecidableEq, Repr

/-- The locals of `send` that the receive loop reads and writes, together with
the `response` under construction. -/
structure ParseState where
  response : Response := {}
  responseData : Bytes := []
  firstLine : Bool := true
  parsedHeaders : Bool := false
  contentSize : Int := -1
  chunkedResponse : Bool := false
  expectedChunkSize : Nat := 0
  removeCLRFAfterChunk : Bool := false
  deriving DecidableEq, Repr

/-- The size of `TEMP_BUFFER`, the array one `recv` fills: no read gives more
bytes than this. -/
def TEMP_BUFFER_SIZE : Nat := 65536

/-- The constant `clrf = {'\r', '\n'}` of `send`. -/
def clrf : Bytes := ['\r', '\n']

/-! ## The receive loop of `send`: the header phase -/

/-- The `while (lastPos < length + 1)` loop that tokenizes the first line. -/
def tokenizeLoop (line : Bytes) : Nat → Nat → List Bytes → Res (List Bytes)
  | 0, _, _ => .outOfFuel
  | fuel + 1, lastPos, parts =>
    if lastPos < line.length + 1 then
      let pos := (find line [' '] lastPos).getD line.length
      let parts := if pos ≠ lastPos then parts ++ [substr line lastPos (pos - lastPos)] else parts
      tokenizeLoop line fuel (pos + 1) parts
    else .ok parts

/-- The `else if (firstLine)` branch: tokenize the status line and, when
there are at least two tokens, convert the second with `std::stoi`. -/
def parseFirstLine (line : Bytes) (st : ParseState) : Res ParseState :=
  let st := { st with firstLine := false }
  match tokenizeLoop line (line.length + 2) 0 [] with
  | .ok parts =>
    if 2 ≤ parts.length then
      match stoi (parts.getD 1 []) with
      | .ok code => .ok { st with response := { st.response with code := code } }
      | .threw e => .threw e
      | .outOfFuel => .outOfFuel
    else .ok st
  | .threw e => .threw e
  | .outOfFuel => .outOfFuel

/-- The `// ltrim` statement. -/
def ltrim (s : Bytes) : Bytes := s.dropWhile isspace

/-- The `// rtrim` statement: erase from just after the last character that
is not white space to the end. -/
def rtrim (s : Bytes) : Bytes := (s.reverse.dropWhile isspace).reverse

/-- The `else // headers` branch: record the line, and when it has a colon
look at its name and trimmed value. -/
def parseHeaderLine (line : Bytes) (st : ParseState) : Res ParseState :=
  let st := { st with response := { st.response with headers := st.response.headers ++ [line] } }
  match find line [':'] 0 with
  | none => .ok st
  | some pos =>
    let headerName := substr line 0 pos
    let headerValue := rtrim (ltrim (substrFrom line (pos + 1)))
    if headerName = "Content-Length".toList then
      match stoi headerValue with
      | .ok v => .ok { st with contentSize := v }
      | .threw e => .threw e
      | .outOfFuel => .outOfFuel
    else if headerName = "Transfer-Encoding".toList ∧ headerValue = "chunked".toList then
      .ok { st with chunkedResponse := true }
    else .ok st

/-- The `for (;;)` loop under `if (!parsedHeaders)`. -/
def headerLoop : Nat → ParseState → Res ParseState
  | 0, _ => .outOfFuel
  | fuel + 1, st =>
    match search st.responseData clrf with
    | none => .ok st
    | some i =>
      let line := st.responseData.take i
      let st := { st with responseData := st.responseData.drop (i + 2) }
      if line = [] then .ok { st with parsedHeaders := true }
      else if st.firstLine then
        match parseFirstLine line st with
        | .ok st => headerLoop fuel st
        | .threw e => .threw e
        | .outOfFuel => .outOfFuel
      else
        match parseHeaderLine line st with
        | .ok st => headerLoop fuel st
        | .threw e => .threw e
        | .outOfFuel => .outOfFuel

/-! ## The receive loop of `send`: the body phase -/

/-- The `for (;;)` loop under `if (chunkedResponse)`; the Boolean of the
result is `dataReceived`. -/
def chunkedLoop : Nat → ParseState → Res (ParseState × Bool)
  | 0, _ => .outOfFuel
  | fuel + 1, st =>
    if 0 < st.expectedChunkSize then
      let toWrite := min st.expectedChunkSize st.responseData.length
      let st := { st with
        response := { st.response with body := st.response.body ++ st.responseData.take toWrite }
        responseData := st.responseData.drop toWrite
        expectedChunkSize := st.expectedChunkSize - toWrite }
      let st := if st.expectedChunkSize = 0 then { st with removeCLRFAfterChunk := true } else st
      if st.responseData = [] then .ok (st, false) else chunkedLoop fuel st
    else
      if st.removeCLRFAfterChunk = true ∧ st.responseData.length < 2 then .ok (st, false)
      else
        let st := if st.removeCLRFAfterChunk then
            { st with removeCLRFAfterChunk := false, responseData := st.responseData.drop 2 }
          else st
        match search st.responseData clrf with
        | none => .ok (st, false)
        | some i =>
          let line := st.responseData.take i
          let st := { st with responseData := st.responseData.drop (i + 2) }
          match stoul16 line with
          | .ok n =>
            let st := { st with expectedChunkSize := n }
            if n = 0 then .ok (st, true) else chunkedLoop fuel st
          | .threw e => .threw e
          | .outOfFuel => .outOfFuel

/-- The `else` branch of `if (chunkedResponse)`: flush the pending bytes to
the body and test for completion. The comparison `body.size() >= contentSize`
converts the `int` to `size_t`. The Boolean of the result says whether the
`break` was taken. -/
def fixedBody (st : ParseState) : ParseState × Bool :=
  let st := { st with
    response := { st.response with body := st.response.body ++ st.responseData }
    responseData := [] }
  (st, decide (st.contentSize = -1 ∨
    (st.contentSize % (SIZE_MOD : Int)).toNat ≤ st.response.body.length))

/-- The `if (parsedHeaders)` block; the Boolean says whether the receive loop
is left by a `break`. -/
def bodyPhase (st : ParseState) : Res (ParseState × Bool) :=
  if st.parsedHeaders then
    if st.chunkedResponse then chunkedLoop (st.responseData.length + 1) st
    else .ok (fixedBody st)
  else .ok (st, false)

/-- One iteration of the receive loop after a `recv` that returned
`size > 0`: append the bytes read to `responseData`, parse header lines when
the headers are not complete, then handle the body. -/
def processRead (st : ParseState) (data : Bytes) : Res (ParseState × Bool) :=
  let st := { st with responseData := st.responseData ++ data }
  if st.parsedHeaders then bodyPhase st
  else
    match headerLoop (st.responseData.length + 1) st with
    | .ok st => bodyPhase st
    | .threw e => .threw e
    | .outOfFuel => .outOfFuel

/-- What one call of `recv` gives: a negative return value, or the bytes it
stored (none when it returned 0, the peer having closed the connection). -/
inductive RecvResult where
  | error
  | bytes (data : Bytes)
  deriving DecidableEq, Repr

/-- How a call of `send` ends: it returns a `Response`, an exception leaves
it, or it waits for ever in a socket call that never returns (the script of
the peer is exhausted). -/
inductive Outcome where
  | returned (r : Response)
  | threw (e : ParseError)
  | blocked
  | outOfFuel
  deriving DecidableEq, Repr

/-- The `do ... while (size > 0)` receive loop with the two statements after
it (`response.succeeded = true; return response;`), run against the script of
`recv` results; the second component is what is left of the script. A
negative `size` returns the response as it stands, `size == 0` leaves the
loop by `break`, and after a read with `size > 0` the loop condition holds,
so the loop goes on unless the body phase took a `break`. -/
def recvLoop : List RecvResult → ParseState → Outcome × List RecvResult
  | [], _ => (.blocked, [])
  | .error :: rest, st => (.returned st.response, rest)
  | .bytes data :: rest, st =>
    if data = [] then (.returned { st.response with succeeded := true }, rest)
    else
      match processRead st data with
      | .ok (st, true) => (.returned { st.response with succeeded := true }, rest)
      | .ok (st, false) => recvLoop rest st
      | .threw e => (.threw e, rest)
      | .outOfFuel => (.outOfFuel, rest)

/-- The state of the locals when the receive loop is entered. -/
def initialState : ParseState := {}

/-! ## The constructor -/

/-- `INVALID_SOCKET` on POSIX. -/
def INVALID_SOCKET : Int := -1

/-- The private fields of `class Request`, with their default member
initializers. -/
structure Request where
  protocol : Bytes := []
  domain : Bytes := []
  port : Bytes := "80".toList
  path : Bytes := []
  socketFd : Int := INVALID_SOCKET
  deriving DecidableEq, Repr

/-- The constructor `Request::Request(const std::string& url)`. -/
def Request.ctor (url : Bytes) : Request :=
  let r : Request := {}
  match find url "://".toList 0 with
  | none => r
  | some protocolEndPosition =>
    let protocol := (substr url 0 protocolEndPosition).map tolower
    let r := { r with protocol := protocol }
    let r :=
      match find url ['/'] (protocolEndPosition + 3) with
      | none => { r with domain := substrFrom url (protocolEndPosition + 3) }
      | some pathPosition =>
        { r with
          domain := substr url (protocolEndPosition + 3) (pathPosition - protocolEndPosition - 3)
          path := substrFrom url pathPosition }
    match find r.domain [':'] 0 with
    | none => r
    | some portPosition =>
      { r with port := substrFrom r.domain (portPosition + 1), domain := r.domain.take portPosition }

/-! ## `send`: serialisation and the socket calls -/

/-- The `requestData` string that `send` builds for transmission. -/
def requestData (r : Request) (method body : Bytes) (headers : List Bytes) : Bytes :=
  let requestData := method ++ " ".toList ++ r.path ++ " HTTP/1.1\r\n".toList
  let requestData := headers.foldl (fun acc header => acc ++ (header ++ "\r\n".toList)) requestData
  let requestData := requestData ++ ("Host: ".toList ++ r.domain ++ "\r\n".toList)
  let requestData := requestData ++ ("Content-Length: ".toList ++ to_string body.length ++ "\r\n".toList)
  let requestData := requestData ++ "\r\n".toList
  requestData ++ body

/-- What the operating system answers to the socket calls of one `send`: the
return values of `close`, `socket`, `getaddrinfo` and `connect`, then those
of the successive `::send` and `recv` calls. -/
structure Env where
  closeResult : Int
  socketResult : Int
  getaddrinfoResult : Int
  connectResult : Int
  sendResults : List Int
  recvResults : List RecvResult

/-- A socket call made by `send`. -/
inductive SockOp where
  | close (fd : Int)
  | socket
  | getaddrinfo (node : Bytes) (service : Option Bytes)
  | connect (fd : Int)
  | send (fd : Int) (buf : Bytes)
  | recv (fd : Int)
  deriving DecidableEq, Repr

/-- How the transmit loop ends. -/
inductive SendLoopEnd where
  | failed
  | completed
  | blocked
  deriving DecidableEq, Repr

/-- The `do ... while (remaining > 0)` loop around `::send`, run against the
script of its return values; it also gives the calls made. -/
def sendLoop (fd : Int) (requestData : Bytes) :
    List Int → Int → Int → List SockOp → SendLoopEnd × List SockOp
  | [], remaining, sent, trace =>
    (.blocked, trace ++ [.send fd (substr requestData sent.toNat remaining.toNat)])
  | size :: rest, remaining, sent, trace =>
    let trace := trace ++ [.send fd (substr requestData sent.toNat remaining.toNat)]
    if size < 0 then (.failed, trace)
    else
      let remaining := remaining - size
      let sent := sent + size
      if 0 < remaining then sendLoop fd requestData rest remaining sent trace
      else (.completed, trace)

/-- What a call of `send` amounts to: how it ends, the socket calls it made,
in order, and the descriptor left in `socketFd`. -/
structure SendResult where
  outcome : Outcome
  trace : List SockOp
  socketFd : Int
  deriving DecidableEq, Repr

/-- The method `Request::send(method, body, headers)`. -/
def Request.send (r : Request) (env : Env) (method body : Bytes) (headers : List Bytes) :
    SendResult :=
  let response : Response := {}
  if r.protocol ≠ "http".toList then ⟨.returned response, [], r.socketFd⟩
  else
    let trace : List SockOp := if r.socketFd ≠ INVALID_SOCKET then [.close r.socketFd] else []
    if r.socketFd ≠ INVALID_SOCKET ∧ env.closeResult < 0 then
      ⟨.returned response, trace, INVALID_SOCKET⟩
    else
      let trace := trace ++ [.socket]
      let socketFd := env.socketResult
      if socketFd = INVALID_SOCKET then ⟨.returned response, trace, socketFd⟩
      else
        let trace := trace ++ [.getaddrinfo r.domain (if r.port = [] then none else some r.port)]
        if env.getaddrinfoResult ≠ 0 then ⟨.returned response, trace, socketFd⟩
        else
          let trace := trace ++ [.connect socketFd]
          if env.connectResult < 0 then ⟨.returned response, trace, socketFd⟩
          else
            let data := requestData r method body headers
            match sendLoop socketFd data env.sendResults (data.length : Int) 0 trace with
            | (.failed, trace) => ⟨.returned response, trace, socketFd⟩
            | (.blocked, trace) => ⟨.blocked, trace, socketFd⟩
            | (.completed, trace) =>
              let (outcome, rest) := recvLoop env.recvResults initialState
              let calls := env.recvResults.length - rest.length +
                (if outcome = .blocked then 1 else 0)
              ⟨outcome, trace ++ List.replicate calls (.recv socketFd), socketFd⟩

/-! ## Definitions used to state and prove the properties -/

/-- Replace the pending buffer. -/
def ParseState.setData (st : ParseState) (d : Bytes) : ParseState := { st with responseData := d }

/-- Apply a function to a successful result. -/
def Res.map {α β : Type} (f : α → β) : Res α → Res β
  | .ok a => .ok (f a)
  | .threw e => .threw e
  | .outOfFuel => .outOfFuel

/-- The treatment of one non-empty line in the header loop. -/
def lineStep (line : Bytes) (st : ParseState) : Res ParseState :=
  if st.firstLine then parseFirstLine line st else parseHeaderLine line st

/-- Mark the headers as complete. -/
def ParseState.endHeaders (st : ParseState) : ParseState := { st with parsedHeaders := true }

/-- The tokens of a line, read off character by character: `cur` is the
token being collected. -/
def tokensFrom : Bytes → Bytes → List Bytes
  | [], cur => if cur = [] then [] else [cur]
  | c :: t, cur =>
    if c = ' ' then (if cur = [] then tokensFrom t [] else cur :: tokensFrom t [])
    else tokensFrom t (cur ++ [c])

/-- The maximal runs of characters other than the space. -/
def tokens (line : Bytes) : List Bytes := tokensFrom line []

/-- Append bytes at the tail of the pending buffer. -/
def ParseState.append (st : ParseState) (b : Bytes) : ParseState :=
  st.setData (st.responseData ++ b)

/-- The statements of the chunked loop that move chunk data to the body. -/
def chunkWrite (st : ParseState) : ParseState :=
  let toWrite := min st.expectedChunkSize st.responseData.length
  let st := { st with
    response := { st.response with body := st.response.body ++ st.responseData.take toWrite }
    responseData := st.responseData.drop toWrite
    expectedChunkSize := st.expectedChunkSize - toWrite }
  if st.expectedChunkSize = 0 then { st with removeCLRFAfterChunk := true } else st

/-- The statements of the chunked loop that drop the two bytes after a chunk. -/
def chunkSkip (st : ParseState) : ParseState :=
  if st.removeCLRFAfterChunk then
    { st with removeCLRFAfterChunk := false, responseData := st.responseData.drop 2 }
  else st

/-- Record a chunk size. -/
def ParseState.setChunk (st : ParseState) (n : Nat) : ParseState :=
  { st with expectedChunkSize := n }

/-- The statements of the chunked loop that read a chunk-size line, and the
rest of the loop. -/
def chunkLine (f : Nat) (st : ParseState) : Res (ParseState × Bool) :=
  match search st.responseData clrf with
  | none => .ok (st, false)
  | some i =>
    match stoul16 (st.responseData.take i) with
    | .ok n =>
      if n = 0 then .ok ((st.setData (st.responseData.drop (i + 2))).setChunk n, true)
      else chunkedLoop f ((st.setData (st.responseData.drop (i + 2))).setChunk n)
    | .threw e => .threw e
    | .outOfFuel => .outOfFuel

/-- The state in which the receive loop is left when it completed and more
bytes had come with the same read: a chunked body leaves them pending, a
fixed-length body takes them. -/
def doneExt (st : ParseState) (b : Bytes) : ParseState :=
  if st.chunkedResponse then st.append b
  else { st with response := { st.response with body := st.response.body ++ b } }

/-- The fields the body phase never writes. -/
def ParseState.sameHeaderFields (s t : ParseState) : Prop :=
  s.parsedHeaders = t.parsedHeaders ∧ s.chunkedResponse = t.chunkedResponse ∧
  s.contentSize = t.contentSize ∧ s.firstLine = t.firstLine ∧
  s.response.code = t.response.code ∧ s.response.headers = t.response.headers ∧
  s.response.succeeded = t.response.succeeded

/-- A spelling `h` of the number `n` in hexadecimal digits of either case. -/
abbrev IsHex (h : Bytes) (n : Nat) : Prop :=
  h ≠ [] ∧ (∀ c ∈ h, isDigitIn 16 c = true) ∧ digitsValue 16 h = n

/-- The text of a header line before its first colon, when it has a colon. -/
def headerName (h : Bytes) : Option Bytes :=
  if ':' ∈ h then some (h.takeWhile (fun c => c != ':')) else none

/-- The text of a header line after its first colon, with the white space at
both ends removed. -/
def headerValue (h : Bytes) : Bytes :=
  rtrim (ltrim ((h.dropWhile (fun c => c != ':')).drop 1))

/-- A header line that the parser reads as `Content-Length`. -/
abbrev IsContentLength (h : Bytes) : Prop := headerName h = some "Content-Length".toList

/-- A header line that the parser reads as `Transfer-Encoding: chunked`. -/
abbrev IsChunked (h : Bytes) : Prop :=
  headerName h = some "Transfer-Encoding".toList ∧ headerValue h = "chunked".toList

/-- Record a header line. -/
def ParseState.pushHeader (st : ParseState) (h : Bytes) : ParseState :=
  { st with response := { st.response with headers := st.response.headers ++ [h] } }

/-- The line steps applied to a list of lines in turn. -/
def foldLines : List Bytes → ParseState → Res ParseState
  | [], st => .ok st
  | l :: ls, st =>
    match lineStep l st with
    | .ok s => foldLines ls s
    | .threw e => .threw e
    | .outOfFuel => .outOfFuel

/-- Every line followed by CR LF. -/
def encodeLines (ls : List Bytes) : Bytes := (ls.map (fun l => l ++ clrf)).flatten

/-- A status line `HTTP/1.1 <decimal code> <reason>`. -/
def statusLine (code : Nat) (reason : Bytes) : Bytes :=
  "HTTP/1.1 ".toList ++ to_string code ++ ' ' :: reason

/-- The header line `Content-Length: n`. -/
def contentLengthHeader (n : Nat) : Bytes := "Content-Length: ".toList ++ to_string n

/-- The header line `Transfer-Encoding: chunked`. -/
def chunkedHeader : Bytes := "Transfer-Encoding: chunked".toList

/-- The bytes of a response: the status line, the header lines, an empty
line, the body. -/
def responseBytes (status : Bytes) (headers : List Bytes) (body : Bytes) : Bytes :=
  status ++ clrf ++ encodeLines headers ++ clrf ++ body

/-- The state of the receive loop when the headers of a fixed-length response
have been parsed and `body` has been moved to the response. -/
def fixedFinal (code : Int) (headers : List Bytes) (n : Int) (body : Bytes) : ParseState :=
  { response := { succeeded := false, code := code, headers := headers, body := body }
    responseData := []
    firstLine := false
    parsedHeaders := true
    contentSize := n
    chunkedResponse := false
    expectedChunkSize := 0
    removeCLRFAfterChunk := false }

/-- Record several header lines. -/
def ParseState.pushHeaders (st : ParseState) (hs : List Bytes) : ParseState :=
  { st with response := { st.response with headers := st.response.headers ++ hs } }

/-- One chunk on the wire: the size line `h`, the data `d`, each followed by
CR LF. -/
def encodeChunk (h d : Bytes) : Bytes := h ++ '\r' :: '\n' :: (d ++ ['\r', '\n'])

/-- The chunks on the wire, in order; each chunk is given as its size line
and its data. -/
def encodeChunks (cs : List (Bytes × Bytes)) : Bytes :=
  (cs.map (fun c => encodeChunk c.1 c.2)).flatten

/-- The data of the chunks, concatenated. -/
def chunksData (cs : List (Bytes × Bytes)) : Bytes := (cs.map (fun c => c.2)).flatten

/-- A chunked body on the wire: the chunks, then the terminal `0` CR LF CR LF. -/
def chunkedBody (cs : List (Bytes × Bytes)) : Bytes := encodeChunks cs ++ "0\r\n\r\n".toList

/-- A chunk is well formed when its data is not empty and its size line
spells the length of its data in hexadecimal. -/
abbrev WellFormedChunk (c : Bytes × Bytes) : Prop :=
  c.2 ≠ [] ∧ c.2.length < SIZE_MOD ∧ IsHex c.1 c.2.length

/-- The complete lines of a byte stream, cut at each first CR LF; `cur` is
the line being collected, and an unterminated tail is no line. -/
def linesFrom : Bytes → Bytes → List Bytes
  | [], _ => []
  | [_], _ => []
  | a :: b :: t, cur =>
    if a = '\r' ∧ b = '\n' then cur :: linesFrom t []
    else linesFrom (b :: t) (cur ++ [a])

/-- The CR LF terminated lines of a byte stream, in order. -/
def completeLines (s : Bytes) : List Bytes := linesFrom s []

/-- The lines strictly between the first line and the first empty line. -/
def headerLinesOf (s : Bytes) : List Bytes :=
  ((completeLines s).takeWhile (fun l => decide (l ≠ []))).tail

/-- The bytes that a sequence of `recv` calls delivered. -/
def receivedBytes : List RecvResult → Bytes
  | [] => []
  | .error :: t => receivedBytes t
  | .bytes d :: t => d ++ receivedBytes t

/-- What the header loop has established after some reads: `R` is what was
received, and the lines found so far are non-empty, free of CR LF, and
recorded but for the first. -/
def HeaderInv (st : ParseState) (R : Bytes) : Prop :=
  ∃ L : List Bytes, (∀ l ∈ L, l ≠ [] ∧ search l clrf = none) ∧
    st.response.headers = L.tail ∧
    ((st.parsedHeaders = false ∧ (st.firstLine = true ↔ L = []) ∧
        R = encodeLines L ++ st.responseData ∧ search st.responseData clrf = none) ∨
     (st.parsedHeaders = true ∧ ∃ tail, R = encodeLines L ++ '\r' :: '\n' :: tail))

/-- Replace the expected body size. -/
def ParseState.setContentSize (st : ParseState) (c : Int) : ParseState :=
  { st with contentSize := c }

/-- Carry a change of the expected body size through a result of the body
phase. -/
def withContentSize (c : Int) : Res (ParseState × Bool) → Res (ParseState × Bool)
  | .ok (s, d) => .ok (s.setContentSize c, d)
  | .threw e => .threw e
  | .outOfFuel => .outOfFuel

/-- The states of the receive loop after each of the successive reads, for as
long as the loop goes on: the list ends with the state in which the loop was
left by `break`, or before a read that throws. -/
def readStates : ParseState → List Bytes → List ParseState
  | _, [] => []
  | st, d :: ds =>
    match processRead st d with
    | .ok (s, true) => [s]
    | .ok (s, false) => s :: readStates s ds
    | .threw _ => []
    | .outOfFuel => []

/-- After the white space and the sign that `strtol` skips, `s` does not go
on with a digit of the base: it holds no leading number. -/
abbrev NoLeadingNumber (base : Nat) (s : Bytes) : Prop :=
  ∀ c ∈ (takeSign (s.dropWhile isspace)).2.head?, isDigitIn base c = false

/-- The expected body size that header lines lead to: -1 when none of them
is a `Content-Length` line, else what `std::stoi` makes of the trimmed value
of the last `Content-Length` line among them. -/
def declaredSize (hs : List Bytes) : Res Int :=
  match (hs.filter (fun h => decide (IsContentLength h))).getLast? with
  | none => .ok (-1)
  | some h => stoi (headerValue h)

/-- The state in which the body phase starts on a chunked response: the
status code and the header lines are recorded, `b` is pending, and the
expected body size is `c`. -/
def chunkedStart (code : Int) (hs : List Bytes) (c : Int) (b : Bytes) : ParseState :=
  { response := { succeeded := false, code := code, headers := hs, body := [] }
    responseData := b
    firstLine := false
    parsedHeaders := true
    contentSize := c
    chunkedResponse := true
    expectedChunkSize := 0
    removeCLRFAfterChunk := false }

/-- How the receive loop goes on after a read, given the result of the body
phase of that read. -/
def afterRead (tail : List RecvResult) : Res (ParseState × Bool) → Outcome
  | .ok (s, true) => .returned { s.response with succeeded := true }
  | .ok (s, false) => (recvLoop tail s).1
  | .threw e => .threw e
  | .outOfFuel => .outOfFuel

/-! ## Lemmas -/

/-! ## Facts about `search` -/

theorem search_nil_pat (s : Bytes) : search s [] = some 0 := by
  cases s <;> simp [search]

theorem search_some_bound : ∀ (s pat : Bytes) (i : Nat),
    search s pat = some i → i + pat.length ≤ s.length := by
  intro s
  induction s with
  | nil =>
    intro pat i h
    by_cases hp : pat = []
    · subst hp; simp [search] at h; subst h; simp
    · simp [search, hp] at h
  | cons c t ih =>
    intro pat i h
    unfold search at h
    split at h
    · rename_i hpre
      simp at h; subst h
      have := (List.isPrefixOf_iff_prefix.mp hpre).length_le
      simpa using this
    · cases hs : search t pat with
      | none => simp [hs] at h
      | some j =>
        simp [hs] at h; subst h
        have := ih pat j hs
        simp; omega

theorem search_some_drop : ∀ (s pat : Bytes) (i : Nat),
    search s pat = some i → s.drop i = pat ++ s.drop (i + pat.length) := by
  intro s
  induction s with
  | nil =>
    intro pat i h
    by_cases hp : pat = []
    · subst hp; simp
    · simp [search, hp] at h
  | cons c t ih =>
    intro pat i h
    unfold search at h
    split at h
    · rename_i hpre
      simp at h; subst h
      obtain ⟨r, hr⟩ := List.isPrefixOf_iff_prefix.mp hpre
      rw [← hr]; simp
    · cases hs : search t pat with
      | none => simp [hs] at h
      | some j =>
        simp [hs] at h; subst h
        have := ih pat j hs
        simpa [Nat.add_right_comm] using this

theorem search_some_take (s pat : Bytes) (i : Nat) (h : search s pat = some i) :
    s = s.take i ++ pat ++ s.drop (i + pat.length) := by
  have := search_some_drop s pat i h
  conv_lhs => rw [← List.take_append_drop i s, this]
  simp

theorem search_append_some : ∀ (s pat t : Bytes) (i : Nat),
    search s pat = some i → search (s ++ t) pat = some i := by
  intro s
  induction s with
  | nil =>
    intro pat t i h
    by_cases hp : pat = []
    · subst hp; simp [search] at h; subst h; simp [search_nil_pat]
    · simp [search, hp] at h
  | cons c u ih =>
    intro pat t i h
    unfold search at h
    split at h
    · rename_i hpre
      simp at h; subst h
      have hp := List.isPrefixOf_iff_prefix.mp hpre
      have : pat.isPrefixOf (c :: (u ++ t)) = true :=
        List.isPrefixOf_iff_prefix.mpr (hp.trans (List.prefix_append (c :: u) t))
      simp [search, this]
    · rename_i hpre
      cases hs : search u pat with
      | none => simp [hs] at h
      | some j =>
        simp [hs] at h; subst h
        have hb := search_some_bound u pat j hs
        have hnp : ¬ pat.isPrefixOf (c :: (u ++ t)) = true := by
          intro hq
          have hq := List.isPrefixOf_iff_prefix.mp hq
          apply hpre
          apply List.isPrefixOf_iff_prefix.mpr
          have hl : pat.length ≤ (c :: u).length := by simp; omega
          have h2 : pat <+: (c :: u) ++ t := by simpa using hq
          exact List.prefix_of_prefix_length_le h2 (List.prefix_append _ _) hl
        simp [search, hnp, ih pat t j hs]

theorem search_none_iff : ∀ (s pat : Bytes), search s pat = none ↔ ¬ pat <:+: s := by
  intro s
  induction s with
  | nil =>
    intro pat
    by_cases hp : pat = []
    · subst hp; simp [search]
    · simp [search, hp]
  | cons c t ih =>
    intro pat
    unfold search
    split
    · rename_i hpre
      have hp := List.isPrefixOf_iff_prefix.mp hpre
      simp
      exact hp.isInfix
    · rename_i hpre
      have hnp : ¬ pat <+: c :: t := fun h => hpre (List.isPrefixOf_iff_prefix.mpr h)
      simp only [Option.map_eq_none', ih pat, List.infix_cons_iff, not_or, hnp, not_false_eq_true, true_and]

@[simp] theorem endHeaders_responseData (st : ParseState) :
    st.endHeaders.responseData = st.responseData := rfl

@[simp] theorem endHeaders_parsedHeaders (st : ParseState) :
    st.endHeaders.parsedHeaders = true := rfl

@[simp] theorem endHeaders_response (st : ParseState) :
    st.endHeaders.response = st.response := rfl

@[simp] theorem endHeaders_chunkedResponse (st : ParseState) :
    st.endHeaders.chunkedResponse = st.chunkedResponse := rfl

@[simp] theorem endHeaders_contentSize (st : ParseState) :
    st.endHeaders.contentSize = st.contentSize := rfl

@[simp] theorem endHeaders_firstLine (st : ParseState) :
    st.endHeaders.firstLine = st.firstLine := rfl

@[simp] theorem endHeaders_expectedChunkSize (st : ParseState) :
    st.endHeaders.expectedChunkSize = st.expectedChunkSize := rfl

@[simp] theorem endHeaders_removeCLRFAfterChunk (st : ParseState) :
    st.endHeaders.removeCLRFAfterChunk = st.removeCLRFAfterChunk := rfl

@[simp] theorem setData_responseData (st : ParseState) (d : Bytes) :
    (st.setData d).responseData = d := rfl

@[simp] theorem setData_response (st : ParseState) (d : Bytes) :
    (st.setData d).response = st.response := rfl

@[simp] theorem setData_firstLine (st : ParseState) (d : Bytes) :
    (st.setData d).firstLine = st.firstLine := rfl

@[simp] theorem setData_parsedHeaders (st : ParseState) (d : Bytes) :
    (st.setData d).parsedHeaders = st.parsedHeaders := rfl

@[simp] theorem setData_contentSize (st : ParseState) (d : Bytes) :
    (st.setData d).contentSize = st.contentSize := rfl

@[simp] theorem setData_chunkedResponse (st : ParseState) (d : Bytes) :
    (st.setData d).chunkedResponse = st.chunkedResponse := rfl

@[simp] theorem setData_expectedChunkSize (st : ParseState) (d : Bytes) :
    (st.setData d).expectedChunkSize = st.expectedChunkSize := rfl

@[simp] theorem setData_removeCLRFAfterChunk (st : ParseState) (d : Bytes) :
    (st.setData d).removeCLRFAfterChunk = st.removeCLRFAfterChunk := rfl

@[simp] theorem setData_setData (st : ParseState) (d e : Bytes) :
    (st.setData d).setData e = st.setData e := rfl

@[simp] theorem setData_self (st : ParseState) : st.setData st.responseData = st := rfl

theorem parseFirstLine_setData (line : Bytes) (st : ParseState) (d : Bytes) :
    parseFirstLine line (st.setData d) = (parseFirstLine line st).map (fun s => s.setData d) := by
  unfold parseFirstLine
  cases tokenizeLoop line (line.length + 2) 0 [] with
  | ok parts =>
    simp only
    split
    · cases stoi (parts.getD 1 []) <;> rfl
    · rfl
  | threw e => rfl
  | outOfFuel => rfl

theorem parseHeaderLine_setData (line : Bytes) (st : ParseState) (d : Bytes) :
    parseHeaderLine line (st.setData d) = (parseHeaderLine line st).map (fun s => s.setData d) := by
  unfold parseHeaderLine
  cases find line [':'] 0 with
  | none => rfl
  | some pos =>
    simp only
    split
    · cases stoi (rtrim (ltrim (substrFrom line (pos + 1)))) <;> rfl
    · split <;> rfl

theorem lineStep_setData (line : Bytes) (st : ParseState) (d : Bytes) :
    lineStep line (st.setData d) = (lineStep line st).map (fun s => s.setData d) := by
  unfold lineStep
  simp only [setData_firstLine]
  split
  · exact parseFirstLine_setData line st d
  · exact parseHeaderLine_setData line st d

/-- What a line step leaves alone. -/
theorem parseFirstLine_frame (line : Bytes) (st st1 : ParseState)
    (h : parseFirstLine line st = .ok st1) :
    st1.responseData = st.responseData ∧ st1.parsedHeaders = st.parsedHeaders ∧
    st1.firstLine = false ∧ st1.response.headers = st.response.headers ∧
    st1.response.body = st.response.body ∧ st1.contentSize = st.contentSize ∧
    st1.chunkedResponse = st.chunkedResponse ∧
    st1.expectedChunkSize = st.expectedChunkSize ∧
    st1.removeCLRFAfterChunk = st.removeCLRFAfterChunk ∧
    st1.response.succeeded = st.response.succeeded := by
  unfold parseFirstLine at h
  cases ht : tokenizeLoop line (line.length + 2) 0 [] with
  | ok parts =>
    simp only [ht] at h
    split at h
    · cases hs : stoi (parts.getD 1 []) with
      | ok v => simp only [hs, Res.ok.injEq] at h; subst h; simp
      | threw e => simp only [hs, reduceCtorEq] at h
      | outOfFuel => simp only [hs, reduceCtorEq] at h
    · simp only [Res.ok.injEq] at h; subst h; simp
  | threw e => simp [ht] at h
  | outOfFuel => simp [ht] at h

theorem parseHeaderLine_frame (line : Bytes) (st st1 : ParseState)
    (h : parseHeaderLine line st = .ok st1) :
    st1.responseData = st.responseData ∧ st1.parsedHeaders = st.parsedHeaders ∧
    st1.firstLine = st.firstLine ∧ st1.response.headers = st.response.headers ++ [line] ∧
    st1.response.body = st.response.body ∧ st1.response.code = st.response.code ∧
    st1.expectedChunkSize = st.expectedChunkSize ∧
    st1.removeCLRFAfterChunk = st.removeCLRFAfterChunk ∧
    st1.response.succeeded = st.response.succeeded := by
  unfold parseHeaderLine at h
  cases hf : find line [':'] 0 with
  | none => simp only [hf, Res.ok.injEq] at h; subst h; simp
  | some pos =>
    simp only [hf] at h
    split at h
    · cases hs : stoi (rtrim (ltrim (substrFrom line (pos + 1)))) with
      | ok v => simp only [hs, Res.ok.injEq] at h; subst h; simp
      | threw e => simp [hs] at h
      | outOfFuel => simp [hs] at h
    · split at h <;> (simp only [Res.ok.injEq] at h; subst h; simp)

theorem lineStep_frame (line : Bytes) (st st1 : ParseState) (h : lineStep line st = .ok st1) :
    st1.responseData = st.responseData ∧ st1.parsedHeaders = st.parsedHeaders ∧
    st1.response.body = st.response.body ∧
    st1.expectedChunkSize = st.expectedChunkSize ∧
    st1.removeCLRFAfterChunk = st.removeCLRFAfterChunk ∧
    st1.response.succeeded = st.response.succeeded := by
  unfold lineStep at h
  split at h
  · have := parseFirstLine_frame line st st1 h; tauto
  · have := parseHeaderLine_frame line st st1 h; tauto

theorem search_char_none : ∀ (s : Bytes) (c : Char), search s [c] = none ↔ c ∉ s := by
  intro s c
  induction s with
  | nil => simp [search]
  | cons d t ih =>
    unfold search
    by_cases h : c = d
    · subst h; simp
    · simp [h, ih]

theorem search_char_some : ∀ (s : Bytes) (c : Char) (j : Nat), search s [c] = some j →
    s = s.take j ++ c :: s.drop (j + 1) ∧ c ∉ s.take j := by
  intro s c
  induction s with
  | nil => intro j h; simp [search] at h
  | cons d t ih =>
    intro j h
    unfold search at h
    by_cases hcd : c = d
    · subst hcd
      simp at h; subst h; simp
    · simp [hcd] at h
      obtain ⟨k, hk, rfl⟩ := h
      obtain ⟨h1, h2⟩ := ih k hk
      constructor
      · simp only [List.take_succ_cons, List.drop_succ_cons, List.cons_append]
        rw [← h1]
      · simp only [List.take_succ_cons, List.mem_cons, not_or]
        exact ⟨hcd, h2⟩

theorem search_char_append (t r : Bytes) (c : Char) (h : c ∉ t) :
    search (t ++ c :: r) [c] = some t.length := by
  induction t with
  | nil => simp [search]
  | cons d t ih =>
    simp only [List.mem_cons, not_or] at h
    simp [search, h.1, ih h.2]

theorem tokensFrom_nospace : ∀ (s cur : Bytes), ' ' ∉ s →
    tokensFrom s cur = if cur ++ s = [] then [] else [cur ++ s] := by
  intro s
  induction s with
  | nil => intro cur _; simp [tokensFrom]
  | cons c t ih =>
    intro cur h
    simp only [List.mem_cons, not_or] at h
    have hc : c ≠ ' ' := fun e => h.1 e.symm
    simp [tokensFrom, hc, ih (cur ++ [c]) h.2]

theorem tokensFrom_append_space : ∀ (t r cur : Bytes), ' ' ∉ t →
    tokensFrom (t ++ ' ' :: r) cur
      = (if cur ++ t = [] then [] else [cur ++ t]) ++ tokensFrom r [] := by
  intro t
  induction t with
  | nil =>
    intro r cur _
    by_cases hc : cur = [] <;> simp [tokensFrom, hc]
  | cons c t ih =>
    intro r cur h
    simp only [List.mem_cons, not_or] at h
    have hc : c ≠ ' ' := fun e => h.1 e.symm
    simp [tokensFrom, hc, ih r (cur ++ [c]) h.2]

theorem tokens_append_space (t r : Bytes) (h : ' ' ∉ t) :
    tokens (t ++ ' ' :: r) = (if t = [] then [] else [t]) ++ tokens r := by
  simpa [tokens] using tokensFrom_append_space t r [] h

theorem tokens_nospace (s : Bytes) (h : ' ' ∉ s) : tokens s = if s = [] then [] else [s] := by
  simpa [tokens] using tokensFrom_nospace s [] h

/-- The tokenizer loop computes `tokens`, and its budget suffices. -/
theorem tokenizeLoop_eq (line : Bytes) : ∀ (n lastPos fuel : Nat) (parts : List Bytes),
    line.length - lastPos = n → lastPos ≤ line.length → n + 2 ≤ fuel →
    tokenizeLoop line fuel lastPos parts = .ok (parts ++ tokens (line.drop lastPos)) := by
  intro n
  induction n using Nat.strong_induction_on with
  | _ n ih =>
    intro lastPos fuel parts hn hle hfuel
    obtain ⟨f, rfl⟩ : ∃ f, fuel = f + 1 := ⟨fuel - 1, by omega⟩
    unfold tokenizeLoop
    have hlt : lastPos < line.length + 1 := by omega
    simp only [hlt, if_true, find, hle]
    cases hs : search (List.drop lastPos line) [' '] with
    | none =>
      have hno := (search_char_none _ _).mp hs
      simp only [Option.map_none', Option.getD_none]
      obtain ⟨f2, rfl⟩ : ∃ f2, f = f2 + 1 := ⟨f - 1, by omega⟩
      unfold tokenizeLoop
      simp only [lt_self_iff_false, if_false, Res.ok.injEq]
      rw [tokens_nospace _ hno]
      by_cases hl : line.length = lastPos
      · have : List.drop lastPos line = [] := by simp [← hl]
        simp [hl]
      · have : List.drop lastPos line ≠ [] := by
          simp only [ne_eq, List.drop_eq_nil_iff, not_le]; omega
        simp [hl, this, substr]
    | some j =>
      obtain ⟨h1, h2⟩ := search_char_some _ _ _ hs
      have hb := search_some_bound _ _ _ hs
      simp only [List.length_drop, List.length_singleton] at hb
      simp only [Option.map_some', Option.getD_some]
      have hdrop : List.drop (j + lastPos + 1) line = List.drop (j + 1) (List.drop lastPos line) := by
        rw [List.drop_drop]; congr 1; omega
      rw [ih (line.length - (j + lastPos + 1)) (by omega) (j + lastPos + 1) f _ rfl (by omega) (by omega)]
      rw [hdrop]
      conv_rhs => rw [h1, tokens_append_space _ _ h2]
      simp only [Res.ok.injEq]
      by_cases hj : j = 0
      · subst hj; simp
      · have hne : List.take j (List.drop lastPos line) ≠ [] := by
          intro h0
          have := congrArg List.length h0
          simp at this
          omega
        have hjl : j + lastPos ≠ lastPos := by omega
        simp [hjl, hne, substr]

theorem tokenizeLoop_line (line : Bytes) :
    tokenizeLoop line (line.length + 2) 0 [] = .ok (tokens line) := by
  simpa using tokenizeLoop_eq line line.length 0 (line.length + 2) [] rfl (Nat.zero_le _) (le_refl _)

theorem stoi_ne_outOfFuel (s : Bytes) : stoi s ≠ .outOfFuel := by
  unfold stoi
  split
  split
  · simp
  · simp only
    split <;> split <;> simp

theorem stoul16_ne_outOfFuel (s : Bytes) : stoul16 s ≠ .outOfFuel := by
  unfold stoul16
  split
  split
  · simp
  · split <;> simp

theorem parseFirstLine_ne_outOfFuel (line : Bytes) (st : ParseState) :
    parseFirstLine line st ≠ .outOfFuel := by
  unfold parseFirstLine
  rw [tokenizeLoop_line]
  simp only
  split
  · cases hs : stoi ((tokens line).getD 1 []) with
    | ok v => simp
    | threw e => simp
    | outOfFuel => exact absurd hs (stoi_ne_outOfFuel _)
  · simp

theorem parseHeaderLine_ne_outOfFuel (line : Bytes) (st : ParseState) :
    parseHeaderLine line st ≠ .outOfFuel := by
  unfold parseHeaderLine
  cases find line [':'] 0 with
  | none => simp
  | some pos =>
    simp only
    split
    · cases hs : stoi (rtrim (ltrim (substrFrom line (pos + 1)))) with
      | ok v => simp
      | threw e => simp
      | outOfFuel => exact absurd hs (stoi_ne_outOfFuel _)
    · split <;> simp

theorem lineStep_ne_outOfFuel (line : Bytes) (st : ParseState) :
    lineStep line st ≠ .outOfFuel := by
  unfold lineStep
  split
  · exact parseFirstLine_ne_outOfFuel line st
  · exact parseHeaderLine_ne_outOfFuel line st

/-- One unfolding of the header loop. -/
theorem headerLoop_succ (f : Nat) (st : ParseState) :
    headerLoop (f + 1) st =
      match search st.responseData clrf with
      | none => .ok st
      | some i =>
        if st.responseData.take i = [] then
          .ok (st.setData (st.responseData.drop (i + 2))).endHeaders
        else
          match lineStep (st.responseData.take i) (st.setData (st.responseData.drop (i + 2))) with
          | .ok s => headerLoop f s
          | .threw e => .threw e
          | .outOfFuel => .outOfFuel := by
  rw [headerLoop]
  cases search st.responseData clrf with
  | none => rfl
  | some i =>
    simp only [lineStep, ParseState.setData, ParseState.endHeaders]
    split
    · rfl
    · split <;> rfl

/-- The result of the header loop does not depend on the budget once the
budget exceeds the length of the pending buffer, and it is never `outOfFuel`. -/
theorem headerLoop_fuel : ∀ (f1 f2 : Nat) (st : ParseState),
    st.responseData.length < f1 → st.responseData.length < f2 →
    headerLoop f1 st = headerLoop f2 st ∧ headerLoop f1 st ≠ .outOfFuel := by
  intro f1
  induction f1 with
  | zero => intro f2 st h; omega
  | succ f ih =>
    intro f2 st h1 h2
    obtain ⟨g, rfl⟩ : ∃ g, f2 = g + 1 := ⟨f2 - 1, by omega⟩
    rw [headerLoop_succ, headerLoop_succ]
    cases hs : search st.responseData clrf with
    | none => simp
    | some i =>
      have hb := search_some_bound _ _ _ hs
      simp only [clrf, List.length_cons, List.length_nil] at hb
      simp only
      split
      · simp
      · cases hl : lineStep (List.take i st.responseData)
            (st.setData (List.drop (i + 2) st.responseData)) with
        | ok s =>
          have hfr := (lineStep_frame _ _ _ hl).1
          simp only [setData_responseData] at hfr
          have hlen : s.responseData.length = st.responseData.length - (i + 2) := by
            rw [hfr]; simp
          exact ih g s (by omega) (by omega)
        | threw e => simp
        | outOfFuel => exact absurd hl (lineStep_ne_outOfFuel _ _)

theorem headerLoop_len : ∀ (f : Nat) (st st1 : ParseState),
    headerLoop f st = .ok st1 → st1.responseData.length ≤ st.responseData.length := by
  intro f
  induction f with
  | zero => intro st st1 h; simp [headerLoop] at h
  | succ f ih =>
    intro st st1 h
    rw [headerLoop_succ] at h
    cases hs : search st.responseData clrf with
    | none => simp only [hs, Res.ok.injEq] at h; subst h; exact le_refl _
    | some i =>
      simp only [hs] at h
      split at h
      · simp only [Res.ok.injEq] at h; subst h; simp
      · cases hl : lineStep (List.take i st.responseData)
            (st.setData (List.drop (i + 2) st.responseData)) with
        | ok s =>
          simp only [hl] at h
          have hfr := (lineStep_frame _ _ _ hl).1
          simp only [setData_responseData] at hfr
          have := ih s st1 h
          rw [hfr] at this
          simp at this
          omega
        | threw e => simp [hl] at h
        | outOfFuel => simp [hl] at h

/-- The header loop on a buffer extended at its tail: the lines it found are
found again, a throw is thrown again, and where it stopped for want of a
line end it resumes. -/
theorem headerLoop_append (b : Bytes) : ∀ (f : Nat) (st : ParseState) (f2 : Nat),
    st.responseData.length < f → st.responseData.length + b.length < f2 →
    st.parsedHeaders = false →
    (∀ st1, headerLoop f st = .ok st1 → st1.parsedHeaders = true →
      headerLoop f2 (st.append b) = .ok (st1.append b)) ∧
    (∀ st1, headerLoop f st = .ok st1 → st1.parsedHeaders = false →
      ∀ f3, st1.responseData.length + b.length < f3 →
      headerLoop f2 (st.append b) = headerLoop f3 (st1.append b)) ∧
    (∀ e, headerLoop f st = .threw e → headerLoop f2 (st.append b) = .threw e) := by
  intro f
  induction f with
  | zero => intro st f2 h; omega
  | succ f ih =>
    intro st f2 h1 h2 hp
    obtain ⟨g, rfl⟩ : ∃ g, f2 = g + 1 := ⟨f2 - 1, by omega⟩
    rw [headerLoop_succ]
    cases hs : search st.responseData clrf with
    | none =>
      simp only [Res.ok.injEq, reduceCtorEq, false_implies, implies_true, and_true]
      constructor
      · intro st1 h; subst h; intro h; rw [hp] at h; cases h
      · intro st1 h; subst h; intro _ f3 h3
        exact (headerLoop_fuel _ _ _ (by simp [ParseState.append]; omega)
          (by simp [ParseState.append]; omega)).1
    | some i =>
      have hb := search_some_bound _ _ _ hs
      simp only [clrf, List.length_cons, List.length_nil] at hb
      have hs2 : search (st.append b).responseData clrf = some i := by
        simp only [ParseState.append, setData_responseData]
        exact search_append_some _ _ _ _ hs
      have htake : List.take i (st.responseData ++ b) = List.take i st.responseData := by
        rw [List.take_append_of_le_length (by omega)]
      have hdrop : List.drop (i + 2) (st.responseData ++ b)
          = List.drop (i + 2) st.responseData ++ b := by
        rw [List.drop_append_of_le_length (by omega)]
      rw [headerLoop_succ, hs2]
      simp only [ParseState.append, setData_responseData, setData_setData, htake, hdrop]
      by_cases hline : List.take i st.responseData = []
      · simp only [hline, if_true, Res.ok.injEq, reduceCtorEq, false_implies, implies_true,
          and_true]
        constructor
        · intro st1 h _; subst h; rfl
        · intro st1 h hf; subst h; simp at hf
      · simp only [hline, if_false]
        rw [lineStep_setData, lineStep_setData (d := List.drop (i + 2) st.responseData ++ b)]
        cases hl : lineStep (List.take i st.responseData) st with
        | ok s =>
          simp only [Res.map]
          have hfr := lineStep_frame _ _ _ hl
          have := ih (s.setData (List.drop (i + 2) st.responseData)) g
            (by simp; omega) (by simp; omega) (by simp [hfr.2.1, hp])
          simpa [ParseState.append] using this
        | threw e => simp [Res.map]
        | outOfFuel => exact absurd hl (lineStep_ne_outOfFuel _ _)

theorem chunkedLoop_succ (f : Nat) (st : ParseState) :
    chunkedLoop (f + 1) st =
      if 0 < st.expectedChunkSize then
        (if (chunkWrite st).responseData = [] then .ok (chunkWrite st, false)
         else chunkedLoop f (chunkWrite st))
      else if st.removeCLRFAfterChunk = true ∧ st.responseData.length < 2 then .ok (st, false)
      else chunkLine f (chunkSkip st) := by
  rw [chunkedLoop]
  split
  · rfl
  · split
    · rfl
    · simp only [chunkLine, chunkSkip, ParseState.setData, ParseState.setChunk]

theorem chunkWrite_data (st : ParseState) :
    (chunkWrite st).responseData
      = st.responseData.drop (min st.expectedChunkSize st.responseData.length) := by
  unfold chunkWrite; simp only; split <;> rfl

theorem chunkWrite_expected (st : ParseState) :
    (chunkWrite st).expectedChunkSize
      = st.expectedChunkSize - min st.expectedChunkSize st.responseData.length := by
  unfold chunkWrite; simp only; split <;> rfl

theorem chunkWrite_append_ge (st : ParseState) (b : Bytes)
    (h : st.expectedChunkSize ≤ st.responseData.length) :
    chunkWrite (st.append b) = (chunkWrite st).append b := by
  rcases st with ⟨⟨s, c, hd, bo⟩, d, fl, ph, cs, ch, e, rm⟩
  simp only at h
  have h1 : min e (d ++ b).length = e := by simp; omega
  have h2 : min e d.length = e := by simp; omega
  simp only [chunkWrite, ParseState.append, ParseState.setData, h1, h2,
    List.take_append_of_le_length h, List.drop_append_of_le_length h]
  split <;> rfl

theorem chunkWrite_append_lt (st : ParseState) (b : Bytes)
    (h : st.responseData.length < st.expectedChunkSize) :
    chunkWrite (st.append b) = chunkWrite ((chunkWrite st).append b) := by
  rcases st with ⟨⟨s, c, hd, bo⟩, d, fl, ph, cs, ch, e, rm⟩
  simp only at h
  have h2 : min e d.length = d.length := by simp; omega
  have h3 : e - d.length ≠ 0 := by omega
  have h4 : min e (d.length + b.length) = d.length + min (e - d.length) b.length := by
    simp only [Nat.min_def]; split <;> split <;> omega
  have h5 : e - (d.length + min (e - d.length) b.length)
      = e - d.length - min (e - d.length) b.length := by omega
  simp only [chunkWrite, ParseState.append, ParseState.setData, h2, h3, if_false,
    List.take_length, List.drop_length, List.nil_append, List.length_append, h4,
    List.take_append, List.drop_append, h5, List.append_assoc]

theorem chunkSkip_append (st : ParseState) (b : Bytes)
    (h : st.removeCLRFAfterChunk = true → 2 ≤ st.responseData.length) :
    chunkSkip (st.append b) = (chunkSkip st).append b := by
  rcases st with ⟨⟨s, c, hd, bo⟩, d, fl, ph, cs, ch, e, rm⟩
  simp only at h
  cases rm with
  | false => rfl
  | true =>
    have := h rfl
    simp only [chunkSkip, ParseState.append, ParseState.setData, if_true,
      List.drop_append_of_le_length this]

theorem chunkSkip_len (st : ParseState) :
    (chunkSkip st).responseData.length ≤ st.responseData.length := by
  unfold chunkSkip; split <;> simp

theorem chunkSkip_flag (st : ParseState) : (chunkSkip st).removeCLRFAfterChunk = false := by
  unfold chunkSkip; split
  · rfl
  · rename_i h; simpa using h

theorem chunkSkip_expected (st : ParseState) :
    (chunkSkip st).expectedChunkSize = st.expectedChunkSize := by
  unfold chunkSkip; split <;> rfl

theorem chunkSkip_of_not_flag (st : ParseState) (h : st.removeCLRFAfterChunk = false) :
    chunkSkip st = st := by
  unfold chunkSkip; simp [h]

@[simp] theorem append_responseData (st : ParseState) (b : Bytes) :
    (st.append b).responseData = st.responseData ++ b := rfl

@[simp] theorem append_expectedChunkSize (st : ParseState) (b : Bytes) :
    (st.append b).expectedChunkSize = st.expectedChunkSize := rfl

@[simp] theorem append_removeCLRFAfterChunk (st : ParseState) (b : Bytes) :
    (st.append b).removeCLRFAfterChunk = st.removeCLRFAfterChunk := rfl

@[simp] theorem append_parsedHeaders (st : ParseState) (b : Bytes) :
    (st.append b).parsedHeaders = st.parsedHeaders := rfl

@[simp] theorem append_chunkedResponse (st : ParseState) (b : Bytes) :
    (st.append b).chunkedResponse = st.chunkedResponse := rfl

@[simp] theorem append_contentSize (st : ParseState) (b : Bytes) :
    (st.append b).contentSize = st.contentSize := rfl

@[simp] theorem append_response (st : ParseState) (b : Bytes) :
    (st.append b).response = st.response := rfl

@[simp] theorem append_firstLine (st : ParseState) (b : Bytes) :
    (st.append b).firstLine = st.firstLine := rfl

@[simp] theorem append_nil (st : ParseState) : st.append [] = st := by
  simp [ParseState.append, ParseState.setData]

/-- The result of the chunked loop does not depend on the budget once the
budget exceeds the length of the pending buffer, and it is never `outOfFuel`. -/
theorem chunkedLoop_fuel : ∀ (f1 f2 : Nat) (st : ParseState),
    st.responseData.length < f1 → st.responseData.length < f2 →
    chunkedLoop f1 st = chunkedLoop f2 st ∧ chunkedLoop f1 st ≠ .outOfFuel := by
  intro f1
  induction f1 with
  | zero => intro f2 st h; omega
  | succ f ih =>
    intro f2 st h1 h2
    obtain ⟨g, rfl⟩ : ∃ g, f2 = g + 1 := ⟨f2 - 1, by omega⟩
    rw [chunkedLoop_succ, chunkedLoop_succ]
    by_cases he : 0 < st.expectedChunkSize
    · simp only [he, if_true]
      by_cases hd : (chunkWrite st).responseData = []
      · simp [hd]
      · simp only [hd, if_false]
        have hlen : (chunkWrite st).responseData.length < st.responseData.length := by
          rw [chunkWrite_data] at hd ⊢
          have hne : st.responseData.length ≠ 0 := by
            intro h0
            apply hd
            simp [List.length_eq_zero.mp h0]
          simp only [List.length_drop]
          have : 0 < min st.expectedChunkSize st.responseData.length := by
            simp only [Nat.lt_min]; omega
          omega
        exact ih g _ (by omega) (by omega)
    · simp only [he, if_false]
      by_cases hsm : st.removeCLRFAfterChunk = true ∧ st.responseData.length < 2
      · simp [hsm]
      · simp only [hsm, if_false]
        unfold chunkLine
        cases hs : search (chunkSkip st).responseData clrf with
        | none => simp
        | some i =>
          have hb := search_some_bound _ _ _ hs
          simp only [clrf, List.length_cons, List.length_nil] at hb
          have hsk := chunkSkip_len st
          simp only
          cases hn : stoul16 (List.take i (chunkSkip st).responseData) with
          | ok n =>
            simp only
            by_cases h0 : n = 0
            · simp [h0]
            · simp only [h0, if_false]
              exact ih g _ (by simp [ParseState.setChunk]; omega)
                (by simp [ParseState.setChunk]; omega)
          | threw e => simp
          | outOfFuel => exact absurd hn (stoul16_ne_outOfFuel _)

theorem chunkLine_fuel (f1 f2 : Nat) (st : ParseState)
    (h1 : st.responseData.length ≤ f1 + 1) (h2 : st.responseData.length ≤ f2 + 1) :
    chunkLine f1 st = chunkLine f2 st := by
  unfold chunkLine
  cases hs : search st.responseData clrf with
  | none => rfl
  | some i =>
    have hb := search_some_bound _ _ _ hs
    simp only [clrf, List.length_cons, List.length_nil] at hb
    simp only
    cases hn : stoul16 (List.take i st.responseData) with
    | ok n =>
      simp only
      by_cases h0 : n = 0
      · simp [h0]
      · simp only [h0, if_false]
        exact (chunkedLoop_fuel f1 f2 _ (by simp [ParseState.setChunk]; omega)
          (by simp [ParseState.setChunk]; omega)).1
    | threw e => rfl
    | outOfFuel => rfl

theorem chunkLine_append (g : Nat) (st : ParseState) (b : Bytes) (i : Nat)
    (hs : search st.responseData clrf = some i) :
    chunkLine g (st.append b) =
      match stoul16 (st.responseData.take i) with
      | .ok n =>
        if n = 0 then
          .ok (((st.setData (st.responseData.drop (i + 2))).setChunk n).append b, true)
        else chunkedLoop g (((st.setData (st.responseData.drop (i + 2))).setChunk n).append b)
      | .threw e => .threw e
      | .outOfFuel => .outOfFuel := by
  have hb := search_some_bound _ _ _ hs
  simp only [clrf, List.length_cons, List.length_nil] at hb
  have hs2 : search (st.append b).responseData clrf = some i := by
    simp only [append_responseData]
    exact search_append_some _ _ _ _ hs
  have htake : List.take i (st.responseData ++ b) = List.take i st.responseData := by
    rw [List.take_append_of_le_length (by omega)]
  have hdrop : List.drop (i + 2) (st.responseData ++ b)
      = List.drop (i + 2) st.responseData ++ b := by
    rw [List.drop_append_of_le_length (by omega)]
  unfold chunkLine
  rw [hs2]
  simp only [append_responseData, htake, hdrop]
  rfl

/-- The chunked loop on a buffer extended at its tail. -/
theorem chunkedLoop_append (b : Bytes) : ∀ (f : Nat) (st : ParseState) (f3 : Nat),
    st.responseData.length < f → st.responseData.length + b.length < f3 →
    (∀ st1, chunkedLoop f st = .ok (st1, false) →
      ∀ f2, st1.responseData.length + b.length < f2 →
      chunkedLoop f3 (st.append b) = chunkedLoop f2 (st1.append b)) ∧
    (∀ st1, chunkedLoop f st = .ok (st1, true) →
      chunkedLoop f3 (st.append b) = .ok (st1.append b, true)) ∧
    (∀ e, chunkedLoop f st = .threw e → chunkedLoop f3 (st.append b) = .threw e) := by
  intro f
  induction f with
  | zero => intro st f3 h; omega
  | succ f ih =>
    intro st f3 h1 h3
    obtain ⟨g, rfl⟩ : ∃ g, f3 = g + 1 := ⟨f3 - 1, by omega⟩
    rw [chunkedLoop_succ f st]
    by_cases he : 0 < st.expectedChunkSize
    · simp only [he, if_true]
      by_cases hd : (chunkWrite st).responseData = []
      · simp only [hd, if_true, Res.ok.injEq, Prod.mk.injEq, Bool.false_eq_true, and_false,
          false_implies, implies_true, reduceCtorEq, and_true, true_and]
        intro st1 hst1 f2 hf2
        subst hst1
        have hle : st.responseData.length ≤ st.expectedChunkSize := by
          rw [chunkWrite_data] at hd
          have := congrArg List.length hd
          simp only [List.length_drop, List.length_nil] at this
          have hm : min st.expectedChunkSize st.responseData.length ≤ st.expectedChunkSize :=
            Nat.min_le_left _ _
          omega
        rw [hd] at hf2
        simp only [List.length_nil, Nat.zero_add] at hf2
        obtain ⟨g2, rfl⟩ : ∃ g2, f2 = g2 + 1 := ⟨f2 - 1, by omega⟩
        rw [chunkedLoop_succ g (st.append b)]
        simp only [append_expectedChunkSize, he, if_true]
        by_cases hlt : st.responseData.length < st.expectedChunkSize
        · rw [chunkWrite_append_lt st b hlt]
          rw [chunkedLoop_succ g2 ((chunkWrite st).append b)]
          have he2 : 0 < ((chunkWrite st).append b).expectedChunkSize := by
            simp only [append_expectedChunkSize, chunkWrite_expected]
            have : min st.expectedChunkSize st.responseData.length = st.responseData.length := by
              simp; omega
            omega
          simp only [he2, if_true]
          by_cases hw : (chunkWrite ((chunkWrite st).append b)).responseData = []
          · simp [hw]
          · simp only [hw, if_false]
            have hlen : (chunkWrite ((chunkWrite st).append b)).responseData.length < b.length := by
              rw [chunkWrite_data] at hw ⊢
              simp only [append_responseData, hd, List.nil_append] at hw ⊢
              have hne : b.length ≠ 0 := by
                intro h0
                apply hw
                simp [List.length_eq_zero.mp h0]
              simp only [List.length_drop]
              have : 0 < min ((chunkWrite st).append b).expectedChunkSize b.length := by
                simp only [Nat.lt_min]; omega
              omega
            exact (chunkedLoop_fuel g g2 _ (by omega) (by omega)).1
        · have heq : st.expectedChunkSize ≤ st.responseData.length := by omega
          rw [chunkWrite_append_ge st b heq]
          simp only [append_responseData, hd, List.nil_append]
          have hS0 : (chunkWrite st).expectedChunkSize = 0 := by
            simp only [chunkWrite_expected]
            have : min st.expectedChunkSize st.responseData.length = st.expectedChunkSize := by
              simp; omega
            omega
          have hSf : (chunkWrite st).removeCLRFAfterChunk = true := by
            have h0 : (chunkWrite st).expectedChunkSize = 0 := hS0
            unfold chunkWrite at h0 ⊢
            simp only at h0 ⊢
            split
            · rfl
            · rename_i hne
              split at h0
              · rename_i h; exact absurd h hne
              · exact absurd h0 hne
          by_cases hb : b = []
          · subst hb
            rw [chunkedLoop_succ g2]
            simp [hS0, hSf, hd]
          · simp only [hb, if_false]
            have hbl : 0 < b.length := List.length_pos.mpr hb
            exact (chunkedLoop_fuel g (g2 + 1) _ (by simp [hd]; omega) (by simp [hd]; omega)).1
      · simp only [hd, if_false]
        have hle : st.expectedChunkSize ≤ st.responseData.length := by
          by_contra hc
          apply hd
          rw [chunkWrite_data]
          have : min st.expectedChunkSize st.responseData.length = st.responseData.length := by
            simp; omega
          rw [this]; simp
        have hlen : (chunkWrite st).responseData.length < st.responseData.length := by
          rw [chunkWrite_data]
          simp only [List.length_drop]
          have : min st.expectedChunkSize st.responseData.length = st.expectedChunkSize := by
            simp; omega
          omega
        rw [chunkedLoop_succ g (st.append b)]
        simp only [append_expectedChunkSize, he, if_true]
        rw [chunkWrite_append_ge st b hle]
        have hne : ((chunkWrite st).append b).responseData ≠ [] := by
          simp only [append_responseData, ne_eq, List.append_eq_nil, not_and]
          intro h; exact absurd h hd
        simp only [hne, if_false]
        exact ih (chunkWrite st) g (by omega) (by omega)
    · simp only [he, if_false]
      have he0 : st.expectedChunkSize = 0 := by omega
      by_cases hsm : st.removeCLRFAfterChunk = true ∧ st.responseData.length < 2
      · simp only [hsm, and_self, if_true, Res.ok.injEq, Prod.mk.injEq, Bool.false_eq_true,
          and_false, false_implies, implies_true, reduceCtorEq, and_true, true_and]
        intro st1 hst1 f2 hf2
        subst hst1
        exact (chunkedLoop_fuel _ _ _ (by simp; omega) (by simp; omega)).1
      · simp only [hsm, if_false]
        have hfl : st.removeCLRFAfterChunk = true → 2 ≤ st.responseData.length := by
          intro h
          by_contra hc
          exact hsm ⟨h, by omega⟩
        have hsm2 : ¬ ((st.append b).removeCLRFAfterChunk = true ∧
            (st.append b).responseData.length < 2) := by
          simp only [append_removeCLRFAfterChunk, append_responseData, List.length_append, not_and]
          intro h
          have := hfl h
          omega
        rw [chunkedLoop_succ g (st.append b)]
        simp only [append_expectedChunkSize, he, if_false, hsm2]
        rw [chunkSkip_append st b hfl]
        have hskl := chunkSkip_len st
        cases hs : search (chunkSkip st).responseData clrf with
        | none =>
          have hL : chunkLine f (chunkSkip st) = .ok (chunkSkip st, false) := by
            unfold chunkLine; rw [hs]
          rw [hL]
          simp only [Res.ok.injEq, Prod.mk.injEq, Bool.false_eq_true, and_false, false_implies,
            implies_true, reduceCtorEq, and_true, true_and]
          intro st1 hst1 f2 hf2
          subst hst1
          obtain ⟨g2, rfl⟩ : ∃ g2, f2 = g2 + 1 := ⟨f2 - 1, by omega⟩
          rw [chunkedLoop_succ g2]
          have hS0 : ¬ 0 < ((chunkSkip st).append b).expectedChunkSize := by
            simp [chunkSkip_expected, he0]
          have hSf : ((chunkSkip st).append b).removeCLRFAfterChunk = false := by
            simp [chunkSkip_flag]
          simp only [hS0, if_false, hSf, Bool.false_eq_true, false_and]
          rw [chunkSkip_of_not_flag _ hSf]
          exact chunkLine_fuel _ _ _ (by simp; omega) (by simp; omega)
        | some i =>
          have hb := search_some_bound _ _ _ hs
          simp only [clrf, List.length_cons, List.length_nil] at hb
          rw [chunkLine_append g _ b i hs]
          have hL : chunkLine f (chunkSkip st) =
              match stoul16 ((chunkSkip st).responseData.take i) with
              | .ok n =>
                if n = 0 then
                  .ok (((chunkSkip st).setData ((chunkSkip st).responseData.drop (i + 2))).setChunk n, true)
                else chunkedLoop f
                  (((chunkSkip st).setData ((chunkSkip st).responseData.drop (i + 2))).setChunk n)
              | .threw e => .threw e
              | .outOfFuel => .outOfFuel := by
            unfold chunkLine; rw [hs]
          rw [hL]
          cases hn : stoul16 (List.take i (chunkSkip st).responseData) with
          | ok n =>
            simp only
            by_cases h0 : n = 0
            · simp only [h0, if_true, Res.ok.injEq, Prod.mk.injEq, Bool.false_eq_true, and_false,
                false_implies, implies_true, reduceCtorEq, and_true, true_and]
              intro st1 hst1
              rw [hst1]
            · simp only [h0, if_false]
              exact ih _ g (by simp [ParseState.setChunk]; omega)
                (by simp [ParseState.setChunk]; omega)
          | threw e => simp
          | outOfFuel => exact absurd hn (stoul16_ne_outOfFuel _)

theorem sameHeaderFields_refl (s : ParseState) : s.sameHeaderFields s := by
  simp [ParseState.sameHeaderFields]

theorem sameHeaderFields_trans {s t u : ParseState} (h1 : s.sameHeaderFields t)
    (h2 : t.sameHeaderFields u) : s.sameHeaderFields u := by
  simp only [ParseState.sameHeaderFields] at *
  obtain ⟨a1, a2, a3, a4, a5, a6, a7⟩ := h1
  obtain ⟨b1, b2, b3, b4, b5, b6, b7⟩ := h2
  exact ⟨a1.trans b1, a2.trans b2, a3.trans b3, a4.trans b4, a5.trans b5, a6.trans b6,
    a7.trans b7⟩

theorem chunkWrite_same (st : ParseState) : (chunkWrite st).sameHeaderFields st := by
  unfold chunkWrite; simp only; split <;> simp [ParseState.sameHeaderFields]

theorem chunkSkip_same (st : ParseState) : (chunkSkip st).sameHeaderFields st := by
  unfold chunkSkip; split <;> simp [ParseState.sameHeaderFields]

theorem chunkedLoop_same : ∀ (f : Nat) (st st1 : ParseState) (d : Bool),
    chunkedLoop f st = .ok (st1, d) → st1.sameHeaderFields st := by
  intro f
  induction f with
  | zero => intro st st1 d h; simp [chunkedLoop] at h
  | succ f ih =>
    intro st st1 d h
    rw [chunkedLoop_succ] at h
    split at h
    · split at h
      · simp only [Res.ok.injEq, Prod.mk.injEq] at h
        rw [← h.1]; exact chunkWrite_same st
      · exact sameHeaderFields_trans (ih _ _ _ h) (chunkWrite_same st)
    · split at h
      · simp only [Res.ok.injEq, Prod.mk.injEq] at h
        rw [← h.1]; exact sameHeaderFields_refl st
      · unfold chunkLine at h
        split at h
        · simp only [Res.ok.injEq, Prod.mk.injEq] at h
          rw [← h.1]; exact chunkSkip_same st
        · split at h
          · split at h
            · simp only [Res.ok.injEq, Prod.mk.injEq] at h
              rw [← h.1]
              exact sameHeaderFields_trans (by simp [ParseState.sameHeaderFields,
                ParseState.setChunk, ParseState.setData]) (chunkSkip_same st)
            · exact sameHeaderFields_trans (ih _ _ _ h)
                (sameHeaderFields_trans (by simp [ParseState.sameHeaderFields,
                  ParseState.setChunk, ParseState.setData]) (chunkSkip_same st))
          · simp at h
          · simp at h

theorem fixedBody_same (st : ParseState) : (fixedBody st).1.sameHeaderFields st := by
  simp [fixedBody, ParseState.sameHeaderFields]

theorem bodyPhase_same (st st1 : ParseState) (d : Bool) (h : bodyPhase st = .ok (st1, d)) :
    st1.sameHeaderFields st := by
  unfold bodyPhase at h
  split at h
  · split at h
    · exact chunkedLoop_same _ _ _ _ h
    · simp only [Res.ok.injEq] at h
      have := fixedBody_same st
      rw [h] at this
      exact this
  · simp only [Res.ok.injEq, Prod.mk.injEq] at h
    rw [← h.1]; exact sameHeaderFields_refl st

theorem bodyPhase_ne_outOfFuel (st : ParseState) : bodyPhase st ≠ .outOfFuel := by
  unfold bodyPhase
  split
  · split
    · exact (chunkedLoop_fuel _ _ st (Nat.lt_succ_self _) (Nat.lt_succ_self _)).2
    · simp
  · simp

/-- The body phase on a buffer extended at its tail. -/
theorem bodyPhase_append (st : ParseState) (b : Bytes) (hp : st.parsedHeaders = true) :
    (∀ st1, bodyPhase st = .ok (st1, false) →
      bodyPhase (st.append b) = bodyPhase (st1.append b)) ∧
    (∀ st1, bodyPhase st = .ok (st1, true) →
      bodyPhase (st.append b) = .ok (doneExt st1 b, true)) ∧
    (∀ e, bodyPhase st = .threw e → bodyPhase (st.append b) = .threw e) := by
  by_cases hc : st.chunkedResponse = true
  · have hb : bodyPhase st = chunkedLoop (st.responseData.length + 1) st := by
      simp [bodyPhase, hp, hc]
    have hb2 : bodyPhase (st.append b)
        = chunkedLoop ((st.append b).responseData.length + 1) (st.append b) := by
      simp [bodyPhase, hp, hc]
    have key := chunkedLoop_append b (st.responseData.length + 1) st
      ((st.append b).responseData.length + 1) (Nat.lt_succ_self _) (by simp)
    rw [hb, hb2]
    refine ⟨?_, ?_, ?_⟩
    · intro st1 h
      have hs := chunkedLoop_same _ _ _ _ h
      have hb3 : bodyPhase (st1.append b)
          = chunkedLoop ((st1.append b).responseData.length + 1) (st1.append b) := by
        simp [bodyPhase, hs.1, hs.2.1, hp, hc]
      rw [hb3]
      exact key.1 st1 h _ (by simp)
    · intro st1 h
      have hs := chunkedLoop_same _ _ _ _ h
      rw [key.2.1 st1 h]
      simp [doneExt, hs.2.1, hc]
    · exact key.2.2
  · have hc2 : st.chunkedResponse = false := by simpa using hc
    have hb : bodyPhase st = .ok (fixedBody st) := by
      simp [bodyPhase, hp, hc2]
    have hb2 : bodyPhase (st.append b) = .ok (fixedBody (st.append b)) := by
      simp [bodyPhase, hp, hc2]
    rw [hb, hb2]
    refine ⟨?_, ?_, ?_⟩
    · intro st1 h
      simp only [Res.ok.injEq] at h
      have h1 : (fixedBody st).1 = st1 := by rw [h]
      have hb3 : bodyPhase (st1.append b) = .ok (fixedBody (st1.append b)) := by
        have hs := fixedBody_same st
        rw [h1] at hs
        simp [bodyPhase, hs.1, hs.2.1, hp, hc2]
      rw [hb3, ← h1]
      simp [fixedBody, ParseState.append, ParseState.setData]
    · intro st1 h
      simp only [Res.ok.injEq] at h
      have h1 : (fixedBody st).1 = st1 := by rw [h]
      have h2 : (fixedBody st).2 = true := by rw [h]
      have hs := fixedBody_same st
      rw [h1] at hs
      simp only [Res.ok.injEq]
      subst h1
      simp only [fixedBody, decide_eq_true_eq] at h2
      have h3 : (st.contentSize = -1 ∨
          (st.contentSize % (SIZE_MOD : Int)).toNat
            ≤ (st.response.body ++ (st.responseData ++ b)).length) := by
        rcases h2 with h2 | h2
        · exact Or.inl h2
        · right
          simp only [List.length_append] at h2 ⊢
          omega
      apply Prod.ext
      · simp [fixedBody, doneExt, hc2, ParseState.append, ParseState.setData]
      · exact decide_eq_true h3
    · intro e h; simp at h

/-- One read never exhausts the iteration budget. -/
theorem processRead_ne_outOfFuel (st : ParseState) (a : Bytes) :
    processRead st a ≠ .outOfFuel := by
  unfold processRead
  simp only
  split
  · exact bodyPhase_ne_outOfFuel _
  · cases h : headerLoop ((st.responseData ++ a).length + 1)
        { st with responseData := st.responseData ++ a } with
    | ok s => exact bodyPhase_ne_outOfFuel _
    | threw e => simp
    | outOfFuel =>
      exact absurd h (headerLoop_fuel _ _ _ (Nat.lt_succ_self _) (Nat.lt_succ_self _)).2

theorem processRead_eq (st : ParseState) (a : Bytes) :
    processRead st a =
      if st.parsedHeaders = true then bodyPhase (st.append a)
      else
        match headerLoop ((st.append a).responseData.length + 1) (st.append a) with
        | .ok s => bodyPhase s
        | .threw e => .threw e
        | .outOfFuel => .outOfFuel := rfl

theorem append_append (st : ParseState) (a b : Bytes) :
    (st.append a).append b = st.append (a ++ b) := by
  simp [ParseState.append, ParseState.setData]

/-- Splitting a read in two. When the first part leaves the loop running,
reading the second part afterwards gives what reading both at once gives;
when the first part throws, so does the whole; when the first part completes
the response, so does the whole, the further bytes staying pending (chunked)
or joining the body (fixed length). -/
theorem processRead_append (st : ParseState) (a b : Bytes) :
    (∀ st1, processRead st a = .ok (st1, false) →
      processRead st (a ++ b) = processRead st1 b) ∧
    (∀ st1, processRead st a = .ok (st1, true) →
      processRead st (a ++ b) = .ok (doneExt st1 b, true)) ∧
    (∀ e, processRead st a = .threw e → processRead st (a ++ b) = .threw e) := by
  rw [processRead_eq st a, processRead_eq st (a ++ b), ← append_append]
  by_cases hp : st.parsedHeaders = true
  · simp only [hp, if_true]
    have key := bodyPhase_append (st.append a) b (by simpa using hp)
    refine ⟨?_, key.2.1, key.2.2⟩
    intro st1 h
    have hs := bodyPhase_same _ _ _ h
    have hp1 : st1.parsedHeaders = true := by rw [hs.1]; simpa using hp
    rw [key.1 st1 h, processRead_eq st1 b]
    simp [hp1]
  · rw [if_neg hp, if_neg hp]
    have hpf : (st.append a).parsedHeaders = false := by simpa using hp
    have key := headerLoop_append b ((st.append a).responseData.length + 1) (st.append a)
      (((st.append a).append b).responseData.length + 1) (Nat.lt_succ_self _)
      (by simp only [append_responseData, List.length_append]; omega) hpf
    cases hh : headerLoop ((st.append a).responseData.length + 1) (st.append a) with
    | ok s =>
      simp only
      by_cases hps : s.parsedHeaders = true
      · rw [key.1 s hh hps]
        simp only
        have kb := bodyPhase_append s b hps
        refine ⟨?_, kb.2.1, kb.2.2⟩
        intro st1 h
        have hs := bodyPhase_same _ _ _ h
        have hp1 : st1.parsedHeaders = true := by rw [hs.1]; exact hps
        rw [kb.1 st1 h, processRead_eq st1 b]
        simp [hp1]
      · have hpsf : s.parsedHeaders = false := by simpa using hps
        have hbs : bodyPhase s = .ok (s, false) := by simp [bodyPhase, hpsf]
        rw [hbs]
        simp only [Res.ok.injEq, Prod.mk.injEq, Bool.false_eq_true, and_false, false_implies,
          implies_true, reduceCtorEq, and_true, true_and]
        intro st1 h
        subst h
        rw [key.2.1 s hh hpsf ((s.append b).responseData.length + 1) (by simp),
          processRead_eq s b]
        simp [hpsf]
    | threw e =>
      rw [key.2.2 e hh]
      simp
    | outOfFuel =>
      exact absurd hh (headerLoop_fuel _ _ _ (Nat.lt_succ_self _) (Nat.lt_succ_self _)).2

theorem digitVal_digitChar (d : Nat) (h : d < 16) : digitVal (Nat.digitChar d) = some d := by
  interval_cases d <;> decide

theorem digitsValue_append_single (b : Nat) (ds : Bytes) (c : Char) :
    digitsValue b (ds ++ [c]) = digitsValue b ds * b + (digitVal c).getD 0 := by
  simp [digitsValue, List.foldl_append]

theorem toDigitsCore_spec (b : Nat) (hb2 : 2 ≤ b) (hb16 : b ≤ 16) :
    ∀ (fuel n : Nat) (acc : List Char), n < fuel →
    ∃ ds, Nat.toDigitsCore b fuel n acc = ds ++ acc ∧ ds ≠ [] ∧
      (∀ c ∈ ds, isDigitIn b c = true) ∧ digitsValue b ds = n := by
  intro fuel
  induction fuel with
  | zero => intro n acc h; omega
  | succ f ih =>
    intro n acc h
    have hmod : n % b < b := Nat.mod_lt _ (by omega)
    have hdv : digitVal (Nat.digitChar (n % b)) = some (n % b) :=
      digitVal_digitChar _ (by omega)
    have hdig : isDigitIn b (Nat.digitChar (n % b)) = true := by
      simp [isDigitIn, hdv, hmod]
    unfold Nat.toDigitsCore
    simp only
    by_cases h0 : n / b = 0
    · simp only [h0, if_true]
      refine ⟨[Nat.digitChar (n % b)], rfl, by simp, ?_, ?_⟩
      · intro c hc; simp only [List.mem_singleton] at hc; subst hc; exact hdig
      · have hlt : n < b := (Nat.div_eq_zero_iff (by omega)).mp h0
        have hm : n % b = n := Nat.mod_eq_of_lt hlt
        rw [hm] at hdv ⊢
        simp [digitsValue, hdv]
    · simp only [h0, if_false]
      have hlt : n / b < f := by
        have : n / b < n := Nat.div_lt_self (by
          rcases Nat.eq_zero_or_pos n with h | h
          · subst h; simp at h0
          · exact h) (by omega)
        omega
      obtain ⟨ds, h1, h2, h3, h4⟩ := ih (n / b) (Nat.digitChar (n % b) :: acc) hlt
      refine ⟨ds ++ [Nat.digitChar (n % b)], by simp [h1], by simp, ?_, ?_⟩
      · intro c hc
        simp only [List.mem_append, List.mem_singleton] at hc
        rcases hc with hc | hc
        · exact h3 c hc
        · subst hc; exact hdig
      · rw [digitsValue_append_single, h4, hdv]
        simp only [Option.getD_some]
        have := Nat.div_add_mod n b
        rw [Nat.mul_comm]; exact this

theorem toDigits_spec (b : Nat) (hb2 : 2 ≤ b) (hb16 : b ≤ 16) (n : Nat) :
    Nat.toDigits b n ≠ [] ∧ (∀ c ∈ Nat.toDigits b n, isDigitIn b c = true) ∧
      digitsValue b (Nat.toDigits b n) = n := by
  obtain ⟨ds, h1, h2, h3, h4⟩ := toDigitsCore_spec b hb2 hb16 (n + 1) n [] (Nat.lt_succ_self _)
  simp only [List.append_nil] at h1
  unfold Nat.toDigits
  rw [h1]
  exact ⟨h2, h3, h4⟩

theorem to_string_spec (n : Nat) :
    to_string n ≠ [] ∧ (∀ c ∈ to_string n, isDigitIn 10 c = true) ∧
      digitsValue 10 (to_string n) = n :=
  toDigits_spec 10 (by decide) (by decide) n

/-- The lower-case hexadecimal digits of `n` spell `n`. -/
theorem isHex_toDigits (n : Nat) : IsHex (Nat.toDigits 16 n) n :=
  toDigits_spec 16 (by decide) (by decide) n

theorem isDigitIn_range (b : Nat) (hb : b ≤ 16) (c : Char) (h : isDigitIn b c = true) :
    (48 ≤ c.toNat ∧ c.toNat ≤ 57) ∨ (97 ≤ c.toNat ∧ c.toNat ≤ 102) ∨
      (65 ≤ c.toNat ∧ c.toNat ≤ 70) := by
  unfold isDigitIn digitVal at h
  split_ifs at h with h1 h2 h3
  · exact Or.inl h1
  · simp only [decide_eq_true_eq] at h
    right; left; omega
  · simp only [decide_eq_true_eq] at h
    right; right; omega

theorem isDigitIn_not_space (b : Nat) (hb : b ≤ 16) (c : Char) (h : isDigitIn b c = true) :
    isspace c = false := by
  have := isDigitIn_range b hb c h
  unfold isspace
  simp only [Bool.or_eq_false_iff, decide_eq_false_iff_not, Bool.and_eq_false_imp,
    decide_eq_true_eq]
  omega

theorem toNat_ne_of (c : Char) (n : Nat) (h : c.toNat ≠ n) (d : Char) (hd : d.toNat = n) :
    c ≠ d := by
  intro e; subst e; exact h hd

theorem takeWhile_all {p : Char → Bool} : ∀ (l : List Char), (∀ c ∈ l, p c = true) →
    l.takeWhile p = l := by
  intro l h
  exact List.takeWhile_eq_self_iff.mpr h

/-- The digits of a run, nothing before and nothing after, convert to its value. -/
theorem magnitude_digits (b : Nat) (ds : Bytes) (hne : ds ≠ [])
    (hd : ∀ c ∈ ds, isDigitIn b c = true) : magnitude b ds = some (digitsValue b ds) := by
  unfold magnitude
  simp only [takeWhile_all ds hd, hne, if_false]

theorem dropWhile_isspace_digits (b : Nat) (hb : b ≤ 16) (ds : Bytes)
    (hd : ∀ c ∈ ds, isDigitIn b c = true) : ds.dropWhile isspace = ds := by
  cases ds with
  | nil => rfl
  | cons c t =>
    have := isDigitIn_not_space b hb c (hd c (List.mem_cons_self _ _))
    simp [List.dropWhile, this]

theorem takeSign_digits (b : Nat) (hb : b ≤ 16) (ds : Bytes)
    (hd : ∀ c ∈ ds, isDigitIn b c = true) : takeSign ds = (false, ds) := by
  cases ds with
  | nil => rfl
  | cons c t =>
    have hr := isDigitIn_range b hb c (hd c (List.mem_cons_self _ _))
    have h1 : c ≠ '-' := toNat_ne_of c 45 (by omega) '-' (by decide)
    have h2 : c ≠ '+' := toNat_ne_of c 43 (by omega) '+' (by decide)
    unfold takeSign
    split
    · rename_i heq; simp only [List.cons.injEq] at heq; exact absurd heq.1 h1
    · rename_i heq; simp only [List.cons.injEq] at heq; exact absurd heq.1 h2
    · rfl

theorem skipHexPrefix_digits (ds : Bytes) (hd : ∀ c ∈ ds, isDigitIn 16 c = true) :
    skipHexPrefix ds = ds := by
  unfold skipHexPrefix
  split
  · rename_i x d t
    have hx := isDigitIn_range 16 (le_refl _) x (hd x (by simp))
    have h1 : x ≠ 'x' := toNat_ne_of x 120 (by omega) 'x' (by decide)
    have h2 : x ≠ 'X' := toNat_ne_of x 88 (by omega) 'X' (by decide)
    simp [h1, h2]
  · rfl

/-- `std::stoi` on a run of decimal digits. -/
theorem stoi_digits (ds : Bytes) (hne : ds ≠ []) (hd : ∀ c ∈ ds, isDigitIn 10 c = true) :
    stoi ds = if INT_MAX < (digitsValue 10 ds : Int) then .threw .out_of_range
      else .ok (digitsValue 10 ds : Int) := by
  unfold stoi
  rw [dropWhile_isspace_digits 10 (by decide) ds hd, takeSign_digits 10 (by decide) ds hd]
  simp only [magnitude_digits 10 ds hne hd, Bool.false_eq_true, if_false]
  have : ¬ ((digitsValue 10 ds : Int) < INT_MIN) := by
    unfold INT_MIN; omega
  simp only [this, false_or]

/-- `std::stoi` undoes `std::to_string` on the numbers an `int` holds. -/
theorem stoi_to_string (n : Nat) (h : (n : Int) ≤ INT_MAX) : stoi (to_string n) = .ok (n : Int) := by
  obtain ⟨h1, h2, h3⟩ := to_string_spec n
  rw [stoi_digits _ h1 h2, h3]
  simp only [not_lt.mpr h, if_false]

theorem stoi_to_string_big (n : Nat) (h : INT_MAX < (n : Int)) :
    stoi (to_string n) = .threw .out_of_range := by
  obtain ⟨h1, h2, h3⟩ := to_string_spec n
  rw [stoi_digits _ h1 h2, h3]
  simp only [h, if_true]

/-- `std::stoul` in base 16 on a spelling of `n`. -/
theorem stoul16_isHex (h : Bytes) (n : Nat) (hh : IsHex h n) (hn : n < SIZE_MOD) :
    stoul16 h = .ok n := by
  obtain ⟨h1, h2, h3⟩ := hh
  unfold stoul16
  rw [dropWhile_isspace_digits 16 (le_refl _) h h2, takeSign_digits 16 (le_refl _) h h2]
  simp only [skipHexPrefix_digits h h2, magnitude_digits 16 h h1 h2, h3, Bool.false_eq_true,
    if_false, not_le.mpr hn]

theorem find_zero (s pat : Bytes) : find s pat 0 = search s pat := by
  simp [find]

theorem takeWhile_ne_append (t r : Bytes) (c : Char) (h : c ∉ t) :
    (t ++ c :: r).takeWhile (fun x => x != c) = t ∧
    (t ++ c :: r).dropWhile (fun x => x != c) = c :: r := by
  induction t with
  | nil => simp
  | cons d t ih =>
    simp only [List.mem_cons, not_or] at h
    have hd : (d != c) = true := by simp; exact fun e => h.1 e.symm
    simp [List.takeWhile, List.dropWhile, hd, (ih h.2).1, (ih h.2).2]

theorem search_char_takeWhile (s : Bytes) (c : Char) (j : Nat) (h : search s [c] = some j) :
    s.take j = s.takeWhile (fun x => x != c) ∧
    s.drop (j + 1) = (s.dropWhile (fun x => x != c)).drop 1 := by
  obtain ⟨h1, h2⟩ := search_char_some s c j h
  have := takeWhile_ne_append (s.take j) (s.drop (j + 1)) c h2
  rw [← h1] at this
  rw [this.1, this.2]
  simp

/-- The header branch in terms of the name and the value of the line. -/
theorem parseHeaderLine_spec (h : Bytes) (st : ParseState) :
    parseHeaderLine h st =
      if IsContentLength h then
        (stoi (headerValue h)).map (fun v => { st.pushHeader h with contentSize := v })
      else if IsChunked h then .ok { st.pushHeader h with chunkedResponse := true }
      else .ok (st.pushHeader h) := by
  unfold parseHeaderLine
  rw [find_zero]
  cases hs : search h [':'] with
  | none =>
    have hno := (search_char_none _ _).mp hs
    simp [IsContentLength, IsChunked, headerName, hno, ParseState.pushHeader]
  | some pos =>
    obtain ⟨h1, h2⟩ := search_char_takeWhile h ':' pos hs
    have hmem : ':' ∈ h := by
      by_contra hc
      rw [(search_char_none _ _).mpr hc] at hs
      cases hs
    have hname : headerName h = some (h.take pos) := by
      simp [headerName, hmem, h1]
    have hval : headerValue h = rtrim (ltrim (substrFrom h (pos + 1))) := by
      simp [headerValue, substrFrom, h2]
    simp only [substr, List.drop_zero, IsContentLength, IsChunked, hname, hval, Option.some.injEq]
    split
    · cases stoi (rtrim (ltrim (substrFrom h (pos + 1)))) <;> rfl
    · rfl

theorem search_clrf_line : ∀ (line rest : Bytes), search line clrf = none →
    search (line ++ '\r' :: '\n' :: rest) clrf = some line.length := by
  intro line
  induction line with
  | nil => intro rest _; simp [search, clrf]
  | cons c l ih =>
    intro rest h
    unfold search at h
    split at h
    · simp at h
    · rename_i hpre
      simp only [Option.map_eq_none'] at h
      have hnp : ¬ clrf.isPrefixOf (c :: (l ++ '\r' :: '\n' :: rest)) = true := by
        cases l with
        | nil =>
          simp only [clrf, List.nil_append, List.isPrefixOf, Bool.and_eq_true, beq_iff_eq,
            not_and]
          intro _ h2
          exact absurd h2 (by decide)
        | cons d l2 =>
          simpa [clrf, List.isPrefixOf] using hpre
      rw [List.cons_append]
      unfold search
      rw [if_neg hnp, ih rest h]
      simp

theorem search_clrf_absent (line : Bytes) (h : ¬ clrf <:+: line) :
    search line clrf = none := (search_none_iff line clrf).mpr h

theorem encodeLines_cons (l : Bytes) (ls : List Bytes) :
    encodeLines (l :: ls) = l ++ '\r' :: '\n' :: encodeLines ls := by
  simp [encodeLines, clrf]

theorem encodeLines_append (l1 l2 : List Bytes) :
    encodeLines (l1 ++ l2) = encodeLines l1 ++ encodeLines l2 := by
  simp [encodeLines]

/-- The header loop on a buffer that holds complete non-empty lines, then
an empty line: the lines are stepped through in order and what follows the
empty line stays pending. -/
theorem headerLoop_lines : ∀ (ls : List Bytes) (st : ParseState) (rest : Bytes) (f : Nat),
    (∀ l ∈ ls, l ≠ [] ∧ search l clrf = none) →
    (encodeLines ls ++ '\r' :: '\n' :: rest).length < f →
    headerLoop f (st.setData (encodeLines ls ++ '\r' :: '\n' :: rest)) =
      match foldLines ls st with
      | .ok s => .ok (s.setData rest).endHeaders
      | .threw e => .threw e
      | .outOfFuel => .outOfFuel := by
  intro ls
  induction ls with
  | nil =>
    intro st rest f _ hf
    obtain ⟨g, rfl⟩ : ∃ g, f = g + 1 := ⟨f - 1, by omega⟩
    rw [headerLoop_succ]
    simp [encodeLines, search, clrf, foldLines]
  | cons l ls ih =>
    intro st rest f hl hf
    obtain ⟨g, rfl⟩ : ∃ g, f = g + 1 := ⟨f - 1, by omega⟩
    obtain ⟨hne, hnone⟩ := hl l (List.mem_cons_self _ _)
    rw [headerLoop_succ]
    simp only [setData_responseData, encodeLines_cons, List.append_assoc, List.cons_append]
    rw [search_clrf_line l _ hnone]
    simp only [List.take_left', hne, if_false, setData_setData]
    have hdrop : List.drop (l.length + 2) (l ++ '\r' :: '\n' :: (encodeLines ls ++ '\r' :: '\n' :: rest))
        = encodeLines ls ++ '\r' :: '\n' :: rest := by
      rw [List.drop_append_eq_append_drop]
      simp
    rw [hdrop, lineStep_setData]
    simp only [foldLines]
    cases hls : lineStep l st with
    | ok s =>
      simp only [Res.map]
      have hlen : (encodeLines ls ++ '\r' :: '\n' :: rest).length < g := by
        simp only [encodeLines_cons, List.append_assoc, List.cons_append, List.length_append,
          List.length_cons] at hf ⊢
        omega
      exact ih s rest g (fun x hx => hl x (List.mem_cons_of_mem _ hx)) hlen
    | threw e => rfl
    | outOfFuel => rfl

theorem doneExt_chunkedResponse (st : ParseState) (b : Bytes) :
    (doneExt st b).chunkedResponse = st.chunkedResponse := by
  unfold doneExt; split <;> rfl

theorem doneExt_contentSize (st : ParseState) (b : Bytes) :
    (doneExt st b).contentSize = st.contentSize := by
  unfold doneExt; split <;> rfl

theorem doneExt_response_chunked (st : ParseState) (b : Bytes) (h : st.chunkedResponse = true) :
    (doneExt st b).response = st.response := by
  unfold doneExt; simp [h]

theorem doneExt_body_fixed (st : ParseState) (b : Bytes) (h : st.chunkedResponse = false) :
    (doneExt st b).response.body = st.response.body ++ b := by
  unfold doneExt; simp [h]

/-- When a read completes a response that is not chunked, the completion test
of the fixed-length branch holds in the state it leaves. -/
theorem processRead_done_fixed (st st1 : ParseState) (a : Bytes)
    (h : processRead st a = .ok (st1, true)) (hc : st1.chunkedResponse = false) :
    st1.contentSize = -1 ∨
      (st1.contentSize % (SIZE_MOD : Int)).toNat ≤ st1.response.body.length := by
  have key : ∀ s : ParseState, bodyPhase s = .ok (st1, true) →
      st1.contentSize = -1 ∨
        (st1.contentSize % (SIZE_MOD : Int)).toNat ≤ st1.response.body.length := by
    intro s hb
    have hs := bodyPhase_same _ _ _ hb
    unfold bodyPhase at hb
    split at hb
    · split at hb
      · rename_i hch
        rw [← hs.2.1, hc] at hch
        cases hch
      · simp only [Res.ok.injEq] at hb
        have h1 : (fixedBody s).1 = st1 := by rw [hb]
        have h2 : (fixedBody s).2 = true := by rw [hb]
        subst h1
        simpa [fixedBody] using h2
    · simp at hb
  rw [processRead_eq] at h
  split at h
  · exact key _ h
  · split at h
    · exact key _ h
    · cases h
    · cases h

/-- Reads that, taken together, leave the loop running: delivering them one
after the other leads the receive loop to the same state. -/
theorem recvLoop_reads_continue : ∀ (rs : List Bytes) (st stf : ParseState)
    (tail : List RecvResult), (∀ r ∈ rs, r ≠ []) → rs ≠ [] →
    processRead st rs.flatten = .ok (stf, false) →
    recvLoop (rs.map RecvResult.bytes ++ tail) st = recvLoop tail stf := by
  intro rs
  induction rs with
  | nil => intro st stf tail _ h; exact absurd rfl h
  | cons r rs ih =>
    intro st stf tail hne _ hp
    have hr : r ≠ [] := hne r (List.mem_cons_self _ _)
    simp only [List.map_cons, List.cons_append, recvLoop, hr, if_false]
    by_cases hrs : rs = []
    · subst hrs
      simp only [List.flatten_cons, List.flatten_nil, List.append_nil] at hp
      simp [hp]
    · simp only [List.flatten_cons] at hp
      have key := processRead_append st r rs.flatten
      cases h1 : processRead st r with
      | ok p =>
        obtain ⟨st1, d⟩ := p
        cases d with
        | false =>
          simp only
          rw [key.1 st1 h1] at hp
          exact ih st1 stf tail (fun x hx => hne x (List.mem_cons_of_mem _ hx)) hrs hp
        | true =>
          rw [key.2.1 st1 h1] at hp
          simp at hp
      | threw e =>
        rw [key.2.2 e h1] at hp
        cases hp
      | outOfFuel => exact absurd h1 (processRead_ne_outOfFuel _ _)

/-- Reads that, taken together, throw: delivering them one after the other
throws as well. -/
theorem recvLoop_reads_threw : ∀ (rs : List Bytes) (st : ParseState) (e : ParseError)
    (tail : List RecvResult), (∀ r ∈ rs, r ≠ []) → rs ≠ [] →
    processRead st rs.flatten = .threw e →
    (recvLoop (rs.map RecvResult.bytes ++ tail) st).1 = .threw e := by
  intro rs
  induction rs with
  | nil => intro st e tail _ h; exact absurd rfl h
  | cons r rs ih =>
    intro st e tail hne _ hp
    have hr : r ≠ [] := hne r (List.mem_cons_self _ _)
    simp only [List.map_cons, List.cons_append, recvLoop, hr, if_false]
    by_cases hrs : rs = []
    · subst hrs
      simp only [List.flatten_cons, List.flatten_nil, List.append_nil] at hp
      simp [hp]
    · simp only [List.flatten_cons] at hp
      have key := processRead_append st r rs.flatten
      cases h1 : processRead st r with
      | ok p =>
        obtain ⟨st1, d⟩ := p
        cases d with
        | false =>
          simp only
          rw [key.1 st1 h1] at hp
          exact ih st1 e tail (fun x hx => hne x (List.mem_cons_of_mem _ hx)) hrs hp
        | true =>
          rw [key.2.1 st1 h1] at hp
          simp at hp
      | threw e2 =>
        rw [key.2.2 e2 h1] at hp
        cases hp
        rfl
      | outOfFuel => exact absurd h1 (processRead_ne_outOfFuel _ _)

/-- Reads that, taken together, complete a fixed-length response whose body
is no longer than declared: delivering them one after the other completes it
in the last read, with the same response. -/
theorem recvLoop_reads_done_fixed : ∀ (rs : List Bytes) (st stf : ParseState)
    (tail : List RecvResult), (∀ r ∈ rs, r ≠ []) → rs ≠ [] →
    processRead st rs.flatten = .ok (stf, true) →
    stf.chunkedResponse = false → stf.contentSize ≠ -1 →
    stf.response.body.length ≤ (stf.contentSize % (SIZE_MOD : Int)).toNat →
    recvLoop (rs.map RecvResult.bytes ++ tail) st
      = (.returned { stf.response with succeeded := true }, tail) := by
  intro rs
  induction rs with
  | nil => intro st stf tail _ h; exact absurd rfl h
  | cons r rs ih =>
    intro st stf tail hne _ hp hc hcs hlen
    have hr : r ≠ [] := hne r (List.mem_cons_self _ _)
    simp only [List.map_cons, List.cons_append, recvLoop, hr, if_false]
    by_cases hrs : rs = []
    · subst hrs
      simp only [List.flatten_cons, List.flatten_nil, List.append_nil] at hp
      simp [hp]
    · simp only [List.flatten_cons] at hp
      have key := processRead_append st r rs.flatten
      cases h1 : processRead st r with
      | ok p =>
        obtain ⟨st1, d⟩ := p
        cases d with
        | false =>
          simp only
          rw [key.1 st1 h1] at hp
          exact ih st1 stf tail (fun x hx => hne x (List.mem_cons_of_mem _ hx)) hrs hp hc hcs hlen
        | true =>
          exfalso
          rw [key.2.1 st1 h1] at hp
          simp only [Res.ok.injEq, Prod.mk.injEq, and_true] at hp
          have hc1 : st1.chunkedResponse = false := by
            rw [← doneExt_chunkedResponse st1 rs.flatten, hp]; exact hc
          have hcs1 : st1.contentSize = stf.contentSize := by
            rw [← doneExt_contentSize st1 rs.flatten, hp]
          have hb1 : stf.response.body = st1.response.body ++ rs.flatten := by
            rw [← doneExt_body_fixed st1 rs.flatten hc1, hp]
          have hdone := processRead_done_fixed st st1 r h1 hc1
          rw [hcs1] at hdone
          rcases hdone with hd | hd
          · exact hcs hd
          · rw [hb1] at hlen
            simp only [List.length_append] at hlen
            have hq : rs.flatten ≠ [] := by
              obtain ⟨x, xs, rfl⟩ := List.exists_cons_of_ne_nil hrs
              have hx : x ≠ [] := hne x (by simp)
              simp [hx]
            have := List.length_pos.mpr hq
            omega
      | threw e =>
        rw [key.2.2 e h1] at hp
        cases hp
      | outOfFuel => exact absurd h1 (processRead_ne_outOfFuel _ _)

/-- Reads that, taken together, complete a chunked response: delivering them
one after the other completes it with the same response (possibly before
the last read). -/
theorem recvLoop_reads_done_chunked : ∀ (rs : List Bytes) (st stf : ParseState)
    (tail : List RecvResult), (∀ r ∈ rs, r ≠ []) → rs ≠ [] →
    processRead st rs.flatten = .ok (stf, true) →
    stf.chunkedResponse = true →
    (recvLoop (rs.map RecvResult.bytes ++ tail) st).1
      = .returned { stf.response with succeeded := true } := by
  intro rs
  induction rs with
  | nil => intro st stf tail _ h; exact absurd rfl h
  | cons r rs ih =>
    intro st stf tail hne _ hp hc
    have hr : r ≠ [] := hne r (List.mem_cons_self _ _)
    simp only [List.map_cons, List.cons_append, recvLoop, hr, if_false]
    by_cases hrs : rs = []
    · subst hrs
      simp only [List.flatten_cons, List.flatten_nil, List.append_nil] at hp
      simp [hp]
    · simp only [List.flatten_cons] at hp
      have key := processRead_append st r rs.flatten
      cases h1 : processRead st r with
      | ok p =>
        obtain ⟨st1, d⟩ := p
        cases d with
        | false =>
          simp only
          rw [key.1 st1 h1] at hp
          exact ih st1 stf tail (fun x hx => hne x (List.mem_cons_of_mem _ hx)) hrs hp hc
        | true =>
          rw [key.2.1 st1 h1] at hp
          simp only [Res.ok.injEq, Prod.mk.injEq, and_true] at hp
          have hc1 : st1.chunkedResponse = true := by
            rw [← doneExt_chunkedResponse st1 rs.flatten, hp]; exact hc
          have hresp : stf.response = st1.response := by
            rw [← hp]; exact doneExt_response_chunked st1 rs.flatten hc1
          simp [hresp]
      | threw e =>
        rw [key.2.2 e h1] at hp
        cases hp
      | outOfFuel => exact absurd h1 (processRead_ne_outOfFuel _ _)

theorem isDigitIn_ne (b : Nat) (hb : b ≤ 16) (c : Char) (h : isDigitIn b c = true) (d : Char)
    (hd : d.toNat < 48) : c ≠ d := by
  have := isDigitIn_range b hb c h
  intro e; subst e; omega

theorem not_mem_digits (b : Nat) (hb : b ≤ 16) (ds : Bytes) (h : ∀ c ∈ ds, isDigitIn b c = true)
    (d : Char) (hd : d.toNat < 48) : d ∉ ds := by
  intro hm
  exact isDigitIn_ne b hb d (h d hm) d hd rfl

theorem search_clrf_of_no_cr : ∀ (p r : Bytes), '\r' ∉ p → search r clrf = none →
    search (p ++ r) clrf = none := by
  intro p
  induction p with
  | nil => intro r _ h; simpa using h
  | cons c p ih =>
    intro r hc h
    simp only [List.mem_cons, not_or] at hc
    rw [List.cons_append]
    unfold search
    have hnp : ¬ clrf.isPrefixOf (c :: (p ++ r)) = true := by
      have : c ≠ '\r' := fun e => hc.1 e.symm
      simp only [clrf, List.isPrefixOf, Bool.and_eq_true, beq_iff_eq, not_and]
      intro e
      exact absurd e.symm this
    rw [if_neg hnp, ih r hc.2 h]
    rfl

theorem search_clrf_no_cr (p : Bytes) (h : '\r' ∉ p) : search p clrf = none := by
  have := search_clrf_of_no_cr p [] h (by simp [search, clrf])
  simpa using this

theorem statusLine_no_clrf (code : Nat) (reason : Bytes) (h : ¬ clrf <:+: reason) :
    search (statusLine code reason) clrf = none := by
  obtain ⟨_, h2, _⟩ := to_string_spec code
  have hcr : '\r' ∉ "HTTP/1.1 ".toList ++ to_string code ++ [' '] := by
    simp only [List.mem_append, List.mem_singleton, not_or]
    exact ⟨⟨by decide, not_mem_digits 10 (by decide) _ h2 '\r' (by decide)⟩, by decide⟩
  have := search_clrf_of_no_cr _ reason hcr (search_clrf_absent reason h)
  simpa [statusLine] using this

theorem statusLine_ne_nil (code : Nat) (reason : Bytes) : statusLine code reason ≠ [] := by
  simp [statusLine]

theorem tokens_statusLine (code : Nat) (reason : Bytes) :
    tokens (statusLine code reason) = "HTTP/1.1".toList :: to_string code :: tokens reason := by
  obtain ⟨h1, h2, _⟩ := to_string_spec code
  have e : statusLine code reason
      = "HTTP/1.1".toList ++ ' ' :: (to_string code ++ ' ' :: reason) := by
    simp [statusLine]
  rw [e, tokens_append_space _ _ (by decide),
    tokens_append_space _ _ (not_mem_digits 10 (by decide) _ h2 ' ' (by decide))]
  simp [h1]

/-- The first-line branch on a status line of the standard form. -/
theorem parseFirstLine_statusLine (code : Nat) (reason : Bytes) (st : ParseState) :
    parseFirstLine (statusLine code reason) st =
      if (code : Int) ≤ INT_MAX then
        .ok { st with firstLine := false, response := { st.response with code := (code : Int) } }
      else .threw .out_of_range := by
  unfold parseFirstLine
  rw [tokenizeLoop_line, tokens_statusLine]
  simp only [List.length_cons, Nat.le_add_left, if_true, List.getD_cons_succ, List.getD_cons_zero]
  by_cases h : (code : Int) ≤ INT_MAX
  · rw [stoi_to_string code h]; simp [h]
  · rw [stoi_to_string_big code (not_le.mp h)]; simp [h]

theorem dropWhile_all {p : Char → Bool} : ∀ (w x : Bytes), (∀ c ∈ w, p c = true) →
    (w ++ x).dropWhile p = x.dropWhile p := by
  intro w
  induction w with
  | nil => intro x _; rfl
  | cons c w ih =>
    intro x h
    have hc := h c (List.mem_cons_self _ _)
    simp only [List.cons_append, List.dropWhile, hc]
    exact ih x (fun d hd => h d (List.mem_cons_of_mem _ hd))

theorem dropWhile_head {p : Char → Bool} (x : Bytes)
    (h : ∀ c, x.head? = some c → p c = false) : x.dropWhile p = x := by
  cases x with
  | nil => rfl
  | cons c t => simp [List.dropWhile, h c rfl]

/-- Trimming removes exactly the white space around a value that neither
starts nor ends with white space. -/
theorem trim_spec (w1 v w2 : Bytes) (hw1 : ∀ c ∈ w1, isspace c = true)
    (hw2 : ∀ c ∈ w2, isspace c = true) (hv1 : ∀ c, v.head? = some c → isspace c = false)
    (hv2 : ∀ c, v.getLast? = some c → isspace c = false) :
    rtrim (ltrim (w1 ++ v ++ w2)) = v := by
  unfold ltrim rtrim
  rw [List.append_assoc, dropWhile_all w1 _ hw1]
  by_cases hv : v = []
  · subst hv
    simp only [List.nil_append]
    have : w2.dropWhile isspace = [] := by
      have := dropWhile_all w2 [] hw2
      simpa using this
    rw [this]; rfl
  · have h1 : (v ++ w2).dropWhile isspace = v ++ w2 := by
      apply dropWhile_head
      intro c hc
      apply hv1
      cases v with
      | nil => exact absurd rfl hv
      | cons a t => simpa using hc
    rw [h1, List.reverse_append, dropWhile_all w2.reverse _ (by simpa using hw2)]
    rw [dropWhile_head v.reverse (by
      intro c hc
      apply hv2
      simpa [List.head?_reverse] using hc)]
    simp

theorem digits_head_not_space (b : Nat) (hb : b ≤ 16) (ds : Bytes)
    (hd : ∀ c ∈ ds, isDigitIn b c = true) : ∀ c, ds.head? = some c → isspace c = false := by
  intro c hc
  exact isDigitIn_not_space b hb c (hd c (List.mem_of_mem_head? hc))

theorem digits_last_not_space (b : Nat) (hb : b ≤ 16) (ds : Bytes)
    (hd : ∀ c ∈ ds, isDigitIn b c = true) : ∀ c, ds.getLast? = some c → isspace c = false := by
  intro c hc
  exact isDigitIn_not_space b hb c (hd c (List.mem_of_mem_getLast? hc))

/-- The name and the value the parser sees in `Content-Length:` followed by
white space, the decimal digits of `n`, and white space. -/
theorem contentLength_padded (n : Nat) (w1 w2 : Bytes) (hw1 : ∀ c ∈ w1, isspace c = true)
    (hw2 : ∀ c ∈ w2, isspace c = true) :
    headerName ("Content-Length:".toList ++ w1 ++ to_string n ++ w2)
      = some "Content-Length".toList ∧
    headerValue ("Content-Length:".toList ++ w1 ++ to_string n ++ w2) = to_string n := by
  obtain ⟨_, h2, _⟩ := to_string_spec n
  have e : "Content-Length:".toList ++ w1 ++ to_string n ++ w2
      = "Content-Length".toList ++ ':' :: (w1 ++ to_string n ++ w2) := by simp
  have hk := takeWhile_ne_append "Content-Length".toList (w1 ++ to_string n ++ w2) ':' (by decide)
  constructor
  · unfold headerName
    rw [e, hk.1]
    simp
  · unfold headerValue
    rw [e, hk.2]
    simp only [List.drop_succ_cons, List.drop_zero]
    exact trim_spec w1 _ w2 hw1 hw2 (digits_head_not_space 10 (by decide) _ h2)
      (digits_last_not_space 10 (by decide) _ h2)

theorem contentLengthHeader_eq (n : Nat) :
    contentLengthHeader n = "Content-Length:".toList ++ [' '] ++ to_string n ++ [] := by
  simp [contentLengthHeader]

/-- The header branch on `Content-Length: n`. -/
theorem parseHeaderLine_contentLength (n : Nat) (st : ParseState) :
    parseHeaderLine (contentLengthHeader n) st =
      if (n : Int) ≤ INT_MAX then
        .ok { st.pushHeader (contentLengthHeader n) with contentSize := (n : Int) }
      else .threw .out_of_range := by
  have hk := contentLength_padded n [' '] [] (by decide) (by simp)
  rw [← contentLengthHeader_eq] at hk
  rw [parseHeaderLine_spec]
  simp only [IsContentLength, hk.1, if_true, hk.2]
  by_cases h : (n : Int) ≤ INT_MAX
  · rw [stoi_to_string n h]; simp [h, Res.map]
  · rw [stoi_to_string_big n (not_le.mp h)]; simp [h, Res.map]

theorem contentLengthHeader_wf (n : Nat) :
    contentLengthHeader n ≠ [] ∧ search (contentLengthHeader n) clrf = none := by
  obtain ⟨_, h2, _⟩ := to_string_spec n
  constructor
  · simp [contentLengthHeader]
  · apply search_clrf_no_cr
    simp only [contentLengthHeader, List.mem_append, not_or]
    exact ⟨by decide, not_mem_digits 10 (by decide) _ h2 '\r' (by decide)⟩

/-- Header lines that are neither `Content-Length` nor chunked
`Transfer-Encoding` are recorded and nothing else happens. -/
theorem foldLines_plain : ∀ (hs : List Bytes) (st : ParseState), st.firstLine = false →
    (∀ h ∈ hs, ¬ IsContentLength h ∧ ¬ IsChunked h) →
    foldLines hs st = .ok (st.pushHeaders hs) := by
  intro hs
  induction hs with
  | nil => intro st _ _; simp [foldLines, ParseState.pushHeaders]
  | cons h hs ih =>
    intro st hf hp
    obtain ⟨h1, h2⟩ := hp h (List.mem_cons_self _ _)
    simp only [foldLines, lineStep, hf, Bool.false_eq_true, if_false]
    rw [parseHeaderLine_spec, if_neg h1, if_neg h2]
    simp only
    rw [ih _ (by simp [ParseState.pushHeader, hf]) (fun x hx => hp x (List.mem_cons_of_mem _ hx))]
    simp [ParseState.pushHeaders, ParseState.pushHeader]

theorem foldLines_append : ∀ (l1 l2 : List Bytes) (st : ParseState),
    foldLines (l1 ++ l2) st =
      match foldLines l1 st with
      | .ok s => foldLines l2 s
      | .threw e => .threw e
      | .outOfFuel => .outOfFuel := by
  intro l1
  induction l1 with
  | nil => intro l2 st; rfl
  | cons l l1 ih =>
    intro l2 st
    simp only [List.cons_append, foldLines]
    cases lineStep l st with
    | ok s => exact ih l2 s
    | threw e => rfl
    | outOfFuel => rfl

theorem responseBytes_eq (status : Bytes) (headers : List Bytes) (body : Bytes) :
    responseBytes status headers body
      = encodeLines (status :: headers) ++ '\r' :: '\n' :: body := by
  simp [responseBytes, encodeLines, clrf]

theorem initialState_append (s : Bytes) : initialState.append s = initialState.setData s := by
  simp [ParseState.append, initialState]

theorem int_size_mod (n : Nat) (h : (n : Int) ≤ INT_MAX) :
    ((n : Int) % (SIZE_MOD : Int)).toNat = n := by
  have h1 : (n : Int) < (SIZE_MOD : Int) := by
    unfold INT_MAX at h; unfold SIZE_MOD; omega
  rw [Int.emod_eq_of_lt (by omega) h1]
  simp

/-- The processing of a whole fixed-length response that arrives in one read:
the headers are parsed, the bytes after the empty line go to the body, and
the loop is left exactly when the body has the declared length. -/
theorem processRead_fixed (code n : Nat) (reason : Bytes) (pre post : List Bytes) (b : Bytes)
    (hreason : ¬ clrf <:+: reason)
    (hpre : ∀ h ∈ pre, h ≠ [] ∧ ¬ clrf <:+: h ∧ ¬ IsContentLength h ∧ ¬ IsChunked h)
    (hpost : ∀ h ∈ post, h ≠ [] ∧ ¬ clrf <:+: h ∧ ¬ IsContentLength h ∧ ¬ IsChunked h)
    (hcode : (code : Int) ≤ INT_MAX) (hn : (n : Int) ≤ INT_MAX) :
    processRead initialState
        (responseBytes (statusLine code reason) (pre ++ contentLengthHeader n :: post) b)
      = .ok (fixedFinal code (pre ++ contentLengthHeader n :: post) n b,
          decide (n ≤ b.length)) := by
  rw [processRead_eq, initialState_append, responseBytes_eq]
  have hp0 : initialState.parsedHeaders = false := rfl
  simp only [hp0, Bool.false_eq_true, if_false, setData_responseData]
  have hwf : ∀ l ∈ statusLine code reason :: (pre ++ contentLengthHeader n :: post),
      l ≠ [] ∧ search l clrf = none := by
    intro l hl
    simp only [List.mem_cons, List.mem_append] at hl
    rcases hl with rfl | hl | rfl | hl
    · exact ⟨statusLine_ne_nil _ _, statusLine_no_clrf _ _ hreason⟩
    · exact ⟨(hpre l hl).1, search_clrf_absent _ (hpre l hl).2.1⟩
    · exact contentLengthHeader_wf n
    · exact ⟨(hpost l hl).1, search_clrf_absent _ (hpost l hl).2.1⟩
  rw [headerLoop_lines _ _ _ _ hwf (Nat.lt_succ_self _)]
  have hfold : foldLines (statusLine code reason :: (pre ++ contentLengthHeader n :: post))
      initialState
      = .ok { response := { succeeded := false, code := code,
                            headers := pre ++ contentLengthHeader n :: post, body := [] }
              responseData := []
              firstLine := false
              parsedHeaders := false
              contentSize := n
              chunkedResponse := false
              expectedChunkSize := 0
              removeCLRFAfterChunk := false } := by
    have hfl : initialState.firstLine = true := rfl
    simp only [foldLines, lineStep, hfl, if_true]
    rw [parseFirstLine_statusLine, if_pos hcode]
    simp only
    rw [foldLines_append, foldLines_plain pre _ rfl (fun h hh => (hpre h hh).2.2)]
    simp only [foldLines, lineStep, ParseState.pushHeaders, Bool.false_eq_true, if_false]
    rw [parseHeaderLine_contentLength, if_pos hn]
    simp only
    rw [foldLines_plain post _ rfl (fun h hh => (hpost h hh).2.2)]
    simp [ParseState.pushHeaders, ParseState.pushHeader, initialState]
  rw [hfold]
  simp only [bodyPhase, ParseState.endHeaders, ParseState.setData, if_true, Bool.false_eq_true,
    if_false, Res.ok.injEq]
  apply Prod.ext
  · simp [fixedBody, fixedFinal]
  · simp only [fixedBody, int_size_mod n hn, List.nil_append]
    have : ¬ ((n : Int) = -1) := by omega
    simp [this]

/-- `Content-Length: n` with `n` too large for an `int` makes the header loop
throw, whatever the body. -/
theorem processRead_fixed_big (code n : Nat) (reason : Bytes) (pre post : List Bytes)
    (b : Bytes) (hreason : ¬ clrf <:+: reason)
    (hpre : ∀ h ∈ pre, h ≠ [] ∧ ¬ clrf <:+: h ∧ ¬ IsContentLength h ∧ ¬ IsChunked h)
    (hpost : ∀ h ∈ post, h ≠ [] ∧ ¬ clrf <:+: h ∧ ¬ IsContentLength h ∧ ¬ IsChunked h)
    (hbig : INT_MAX < (code : Int) ∨ INT_MAX < (n : Int)) :
    processRead initialState
        (responseBytes (statusLine code reason) (pre ++ contentLengthHeader n :: post) b)
      = .threw .out_of_range := by
  rw [processRead_eq, initialState_append, responseBytes_eq]
  have hp0 : initialState.parsedHeaders = false := rfl
  simp only [hp0, Bool.false_eq_true, if_false, setData_responseData]
  have hwf : ∀ l ∈ statusLine code reason :: (pre ++ contentLengthHeader n :: post),
      l ≠ [] ∧ search l clrf = none := by
    intro l hl
    simp only [List.mem_cons, List.mem_append] at hl
    rcases hl with rfl | hl | rfl | hl
    · exact ⟨statusLine_ne_nil _ _, statusLine_no_clrf _ _ hreason⟩
    · exact ⟨(hpre l hl).1, search_clrf_absent _ (hpre l hl).2.1⟩
    · exact contentLengthHeader_wf n
    · exact ⟨(hpost l hl).1, search_clrf_absent _ (hpost l hl).2.1⟩
  rw [headerLoop_lines _ _ _ _ hwf (Nat.lt_succ_self _)]
  have hfold : foldLines (statusLine code reason :: (pre ++ contentLengthHeader n :: post))
      initialState = .threw .out_of_range := by
    have hfl : initialState.firstLine = true := rfl
    simp only [foldLines, lineStep, hfl, if_true]
    rw [parseFirstLine_statusLine]
    by_cases hcode : (code : Int) ≤ INT_MAX
    · have hn : ¬ ((n : Int) ≤ INT_MAX) := by
        rcases hbig with h | h
        · omega
        · omega
      rw [if_pos hcode]
      simp only
      rw [foldLines_append, foldLines_plain pre _ rfl (fun h hh => (hpre h hh).2.2)]
      simp only [foldLines, lineStep, ParseState.pushHeaders, Bool.false_eq_true, if_false]
      rw [parseHeaderLine_contentLength, if_neg hn]
    · rw [if_neg hcode]
  rw [hfold]

theorem stoul16_zero : stoul16 ['0'] = .ok 0 := by decide

theorem isHex_no_cr (h : Bytes) (n : Nat) (hh : IsHex h n) : search h clrf = none :=
  search_clrf_no_cr h (not_mem_digits 16 (le_refl _) h hh.2.1 '\r' (by decide))

/-- The chunk-size step of the chunked loop on a buffer that holds
well-formed chunks and the terminal chunk: the data of the chunks goes to the
body and the loop reports completion, leaving what follows the terminal
size line pending. -/
theorem chunkLine_chunks : ∀ (cs : List (Bytes × Bytes)) (st : ParseState) (f : Nat)
    (trail : Bytes), (∀ c ∈ cs, WellFormedChunk c) →
    st.responseData = encodeChunks cs ++ '0' :: '\r' :: '\n' :: trail →
    st.removeCLRFAfterChunk = false → st.responseData.length ≤ f + 1 →
    chunkLine f st = .ok ({ st with
      response := { st.response with body := st.response.body ++ chunksData cs }
      responseData := trail
      expectedChunkSize := 0 }, true) := by
  intro cs
  induction cs with
  | nil =>
    intro st f trail _ hd hfl _
    rcases st with ⟨⟨s, c, hdrs, bo⟩, d, fl, ph, cs, ch, e, rm⟩
    simp only [encodeChunks, List.map_nil, List.flatten_nil, List.nil_append] at hd
    simp only at hfl
    subst hd hfl
    have hs : search ('0' :: '\r' :: '\n' :: trail) clrf = some 1 := by
      simp [search, clrf, List.isPrefixOf]
    unfold chunkLine
    simp only [hs, List.take_succ_cons, List.take_zero, stoul16_zero, if_true]
    simp [ParseState.setData, ParseState.setChunk, chunksData]
  | cons c cs ih =>
    intro st f trail hwf hd hfl hlen
    obtain ⟨h, d⟩ := c
    obtain ⟨hdne, hdlt, hhex⟩ := hwf (h, d) (List.mem_cons_self _ _)
    simp only at hdne hdlt hhex
    rcases st with ⟨⟨s, c, hdrs, bo⟩, buf, fl, ph, csz, ch, e, rm⟩
    simp only at hd hfl hlen
    have hbuf : buf = h ++ '\r' :: '\n' ::
        (d ++ '\r' :: '\n' :: (encodeChunks cs ++ '0' :: '\r' :: '\n' :: trail)) := by
      rw [hd]; simp [encodeChunks, encodeChunk]
    subst hfl
    have hdpos : 0 < d.length := List.length_pos.mpr hdne
    have hhne : h ≠ [] := hhex.1
    have hhpos : 0 < h.length := List.length_pos.mpr hhne
    have hblen : buf.length = h.length + 2 + (d.length + 2 +
        (encodeChunks cs ++ '0' :: '\r' :: '\n' :: trail).length) := by
      rw [hbuf]; simp only [List.length_append, List.length_cons]; omega
    have hs : search buf clrf = some h.length := by
      rw [hbuf]; exact search_clrf_line h _ (isHex_no_cr h _ hhex)
    have htake : List.take h.length buf = h := by rw [hbuf]; simp
    have hdrop : List.drop (h.length + 2) buf
        = d ++ '\r' :: '\n' :: (encodeChunks cs ++ '0' :: '\r' :: '\n' :: trail) := by
      rw [hbuf, List.drop_append_eq_append_drop]; simp
    have hd0 : d.length ≠ 0 := by omega
    unfold chunkLine
    simp only [hs, htake, stoul16_isHex h d.length hhex hdlt, hd0, if_false, hdrop]
    obtain ⟨g, rfl⟩ : ∃ g, f = g + 1 := ⟨f - 1, by omega⟩
    rw [chunkedLoop_succ]
    have he : 0 < ((ParseState.setData ⟨⟨s, c, hdrs, bo⟩, buf, fl, ph, csz, ch, e, false⟩
        (d ++ '\r' :: '\n' :: (encodeChunks cs ++ '0' :: '\r' :: '\n' :: trail))).setChunk
        d.length).expectedChunkSize := hdpos
    rw [if_pos he]
    have hmin : min d.length (d ++ '\r' :: '\n' ::
        (encodeChunks cs ++ '0' :: '\r' :: '\n' :: trail)).length = d.length := by
      simp
    have hw : chunkWrite ((ParseState.setData ⟨⟨s, c, hdrs, bo⟩, buf, fl, ph, csz, ch, e, false⟩
        (d ++ '\r' :: '\n' :: (encodeChunks cs ++ '0' :: '\r' :: '\n' :: trail))).setChunk
        d.length)
        = ⟨⟨s, c, hdrs, bo ++ d⟩,
            '\r' :: '\n' :: (encodeChunks cs ++ '0' :: '\r' :: '\n' :: trail),
            fl, ph, csz, ch, 0, true⟩ := by
      simp only [chunkWrite, ParseState.setData, ParseState.setChunk, hmin, List.take_left',
        List.drop_left', Nat.sub_self, if_true]
    rw [hw]
    simp only [List.cons_ne_nil, if_false, reduceCtorEq]
    obtain ⟨g2, rfl⟩ : ∃ g2, g = g2 + 1 := ⟨g - 1, by omega⟩
    rw [chunkedLoop_succ]
    simp only [lt_self_iff_false, if_false, List.length_cons, true_and]
    have hnot : ¬ ((encodeChunks cs ++ '0' :: '\r' :: '\n' :: trail).length + 1 + 1 < 2) := by
      omega
    rw [if_neg hnot]
    have hsk : chunkSkip ⟨⟨s, c, hdrs, bo ++ d⟩,
            '\r' :: '\n' :: (encodeChunks cs ++ '0' :: '\r' :: '\n' :: trail),
            fl, ph, csz, ch, 0, true⟩
        = ⟨⟨s, c, hdrs, bo ++ d⟩, encodeChunks cs ++ '0' :: '\r' :: '\n' :: trail,
            fl, ph, csz, ch, 0, false⟩ := by
      simp [chunkSkip]
    rw [hsk]
    rw [ih _ g2 trail (fun x hx => hwf x (List.mem_cons_of_mem _ hx)) rfl rfl
      (by simp only; omega)]
    simp [chunksData]

theorem isChunked_not_contentLength (h : Bytes) (hc : IsChunked h) : ¬ IsContentLength h := by
  intro hcl
  have := hc.1
  rw [hcl] at this
  exact absurd this (by decide)

theorem isChunked_chunkedHeader : IsChunked chunkedHeader := by decide

/-- Header lines whose `Content-Length` values, if any, convert: all are
recorded, and a chunked `Transfer-Encoding` among them turns chunked mode on. -/
theorem foldLines_benign : ∀ (hs : List Bytes) (st : ParseState), st.firstLine = false →
    (∀ h ∈ hs, IsContentLength h → ∃ v, stoi (headerValue h) = .ok v) →
    ∃ s, foldLines hs st = .ok s ∧
      s.response = { st.response with headers := st.response.headers ++ hs } ∧
      s.firstLine = false ∧ s.parsedHeaders = st.parsedHeaders ∧
      s.expectedChunkSize = st.expectedChunkSize ∧
      s.removeCLRFAfterChunk = st.removeCLRFAfterChunk ∧
      ((st.chunkedResponse = true ∨ ∃ h ∈ hs, IsChunked h) → s.chunkedResponse = true) := by
  intro hs
  induction hs with
  | nil =>
    intro st hf _
    refine ⟨st, rfl, by simp, hf, rfl, rfl, rfl, ?_⟩
    intro h
    rcases h with h | ⟨x, hx, _⟩
    · exact h
    · cases hx
  | cons h hs ih =>
    intro st hf hb
    simp only [foldLines, lineStep, hf, Bool.false_eq_true, if_false]
    rw [parseHeaderLine_spec]
    have hrest : ∀ x ∈ hs, IsContentLength x → ∃ v, stoi (headerValue x) = .ok v :=
      fun x hx => hb x (List.mem_cons_of_mem _ hx)
    by_cases hcl : IsContentLength h
    · obtain ⟨v, hv⟩ := hb h (List.mem_cons_self _ _) hcl
      rw [if_pos hcl, hv]
      simp only [Res.map]
      obtain ⟨s, h1, h2, h3, h4, h5, h6, h7⟩ :=
        ih { st.pushHeader h with contentSize := v } (by simp [ParseState.pushHeader, hf]) hrest
      refine ⟨s, h1, ?_, h3, ?_, ?_, ?_, ?_⟩
      · rw [h2]; simp [ParseState.pushHeader]
      · rw [h4]; rfl
      · rw [h5]; rfl
      · rw [h6]; rfl
      · intro hor
        apply h7
        rcases hor with hor | ⟨x, hx, hxc⟩
        · left; exact hor
        · simp only [List.mem_cons] at hx
          rcases hx with rfl | hx
          · exact absurd hcl (isChunked_not_contentLength _ hxc)
          · right; exact ⟨x, hx, hxc⟩
    · rw [if_neg hcl]
      by_cases hch : IsChunked h
      · rw [if_pos hch]
        simp only
        obtain ⟨s, h1, h2, h3, h4, h5, h6, h7⟩ :=
          ih { st.pushHeader h with chunkedResponse := true }
            (by simp [ParseState.pushHeader, hf]) hrest
        refine ⟨s, h1, ?_, h3, ?_, ?_, ?_, ?_⟩
        · rw [h2]; simp [ParseState.pushHeader]
        · rw [h4]; rfl
        · rw [h5]; rfl
        · rw [h6]; rfl
        · intro _
          exact h7 (Or.inl rfl)
      · rw [if_neg hch]
        simp only
        obtain ⟨s, h1, h2, h3, h4, h5, h6, h7⟩ :=
          ih (st.pushHeader h) (by simp [ParseState.pushHeader, hf]) hrest
        refine ⟨s, h1, ?_, h3, ?_, ?_, ?_, ?_⟩
        · rw [h2]; simp [ParseState.pushHeader]
        · rw [h4]; rfl
        · rw [h5]; rfl
        · rw [h6]; rfl
        · intro hor
          apply h7
          rcases hor with hor | ⟨x, hx, hxc⟩
          · left; exact hor
          · simp only [List.mem_cons] at hx
            rcases hx with rfl | hx
            · exact absurd hxc hch
            · right; exact ⟨x, hx, hxc⟩

/-- The processing of a whole chunked response that arrives in one read. -/
theorem processRead_chunked (code : Nat) (reason : Bytes) (hs : List Bytes)
    (cs : List (Bytes × Bytes)) (hreason : ¬ clrf <:+: reason)
    (hhs : ∀ h ∈ hs, h ≠ [] ∧ ¬ clrf <:+: h ∧
      (IsContentLength h → ∃ v, stoi (headerValue h) = .ok v))
    (hch : ∃ h ∈ hs, IsChunked h) (hcs : ∀ c ∈ cs, WellFormedChunk c)
    (hcode : (code : Int) ≤ INT_MAX) :
    ∃ stf, processRead initialState
        (responseBytes (statusLine code reason) hs (chunkedBody cs)) = .ok (stf, true) ∧
      stf.chunkedResponse = true ∧
      stf.response = { succeeded := false, code := code, headers := hs,
                       body := chunksData cs } := by
  rw [processRead_eq, initialState_append, responseBytes_eq]
  have hp0 : initialState.parsedHeaders = false := rfl
  simp only [hp0, Bool.false_eq_true, if_false, setData_responseData]
  have hwf : ∀ l ∈ statusLine code reason :: hs, l ≠ [] ∧ search l clrf = none := by
    intro l hl
    simp only [List.mem_cons] at hl
    rcases hl with rfl | hl
    · exact ⟨statusLine_ne_nil _ _, statusLine_no_clrf _ _ hreason⟩
    · exact ⟨(hhs l hl).1, search_clrf_absent _ (hhs l hl).2.1⟩
  rw [headerLoop_lines _ _ _ _ hwf (Nat.lt_succ_self _)]
  have hfl : initialState.firstLine = true := rfl
  simp only [foldLines, lineStep, hfl, if_true]
  rw [parseFirstLine_statusLine, if_pos hcode]
  simp only
  obtain ⟨s, h1, h2, h3, h4, h5, h6, h7⟩ := foldLines_benign hs
    { initialState with firstLine := false,
                        response := { initialState.response with code := (code : Int) } }
    rfl (fun h hh => (hhs h hh).2.2)
  rw [h1]
  simp only
  have hS : bodyPhase (s.setData (chunkedBody cs)).endHeaders
      = chunkLine (chunkedBody cs).length (s.setData (chunkedBody cs)).endHeaders := by
    have hc : s.chunkedResponse = true := h7 (Or.inr hch)
    have he : s.expectedChunkSize = 0 := by rw [h5]; rfl
    have hr : s.removeCLRFAfterChunk = false := by rw [h6]; rfl
    simp only [bodyPhase, endHeaders_parsedHeaders, endHeaders_chunkedResponse,
      setData_chunkedResponse, hc, if_true, endHeaders_responseData, setData_responseData]
    rw [chunkedLoop_succ]
    simp only [endHeaders_expectedChunkSize, setData_expectedChunkSize, he, lt_self_iff_false,
      if_false, endHeaders_removeCLRFAfterChunk, setData_removeCLRFAfterChunk, hr,
      Bool.false_eq_true, false_and]
    rw [chunkSkip_of_not_flag _ (by simp [hr])]
  rw [hS]
  have hbody : (s.setData (chunkedBody cs)).endHeaders.responseData
      = encodeChunks cs ++ '0' :: '\r' :: '\n' :: clrf := by
    simp [chunkedBody, clrf]
  rw [chunkLine_chunks cs _ _ clrf hcs hbody (by simp [h6]; rfl) (by simp)]
  refine ⟨_, rfl, ?_, ?_⟩
  · simp only [endHeaders_chunkedResponse, setData_chunkedResponse]
    exact h7 (Or.inr hch)
  · simp only [endHeaders_response, setData_response, h2]
    simp [initialState]

theorem search_scheme_sep : ∀ (scheme rest : Bytes), search scheme "://".toList = none →
    search (scheme ++ ':' :: '/' :: '/' :: rest) "://".toList = some scheme.length := by
  intro scheme
  induction scheme with
  | nil => intro rest _; simp [search, List.isPrefixOf]
  | cons c l ih =>
    intro rest h
    unfold search at h
    split at h
    · simp at h
    · rename_i hpre
      simp only [Option.map_eq_none'] at h
      have hnp : ¬ "://".toList.isPrefixOf (c :: (l ++ ':' :: '/' :: '/' :: rest)) = true := by
        match l, hpre with
        | [], _ =>
          simp only [String.toList, List.nil_append, List.isPrefixOf, Bool.and_eq_true,
            beq_iff_eq, not_and]
          intro _ h2
          exact absurd h2 (by decide)
        | [d], _ =>
          simp only [String.toList, List.cons_append, List.nil_append, List.isPrefixOf,
            Bool.and_eq_true, beq_iff_eq, not_and]
          intro _ _ h3
          exact absurd h3 (by decide)
        | d :: e :: l2, hpre =>
          simpa [String.toList, List.isPrefixOf] using hpre
      rw [List.cons_append]
      unfold search
      rw [if_neg hnp, ih rest h]
      simp

/-- The constructor on a URL with a scheme separator: `authority` is what
stands between the separator and the path. -/
theorem ctor_parts (scheme authority path : Bytes)
    (hs : ¬ "://".toList <:+: scheme) (ha : '/' ∉ authority)
    (hpath : path = [] ∨ ∃ p, path = '/' :: p) :
    Request.ctor (scheme ++ "://".toList ++ authority ++ path) =
      match search authority [':'] with
      | none =>
        { protocol := scheme.map tolower, domain := authority, port := "80".toList,
          path := path, socketFd := INVALID_SOCKET }
      | some j =>
        { protocol := scheme.map tolower, domain := authority.take j,
          port := authority.drop (j + 1), path := path, socketFd := INVALID_SOCKET } := by
  have hurl : scheme ++ "://".toList ++ authority ++ path
      = scheme ++ ':' :: '/' :: '/' :: (authority ++ path) := by simp
  have hfind : find (scheme ++ "://".toList ++ authority ++ path) "://".toList 0
      = some scheme.length := by
    rw [find_zero, hurl]
    exact search_scheme_sep scheme _ ((search_none_iff _ _).mpr hs)
  have hdrop : List.drop (scheme.length + 3) (scheme ++ "://".toList ++ authority ++ path)
      = authority ++ path := by
    rw [hurl, List.drop_append_eq_append_drop]
    simp
  have hlen : scheme.length + 3 ≤ (scheme ++ "://".toList ++ authority ++ path).length := by
    rw [hurl]; simp only [List.length_append, List.length_cons]; omega
  have hprot : substr (scheme ++ "://".toList ++ authority ++ path) 0 scheme.length = scheme := by
    simp [substr, List.append_assoc]
  unfold Request.ctor
  rw [hfind]
  simp only [hprot]
  rcases hpath with rfl | ⟨p, rfl⟩
  · have hf2 : find (scheme ++ "://".toList ++ authority ++ []) ['/'] (scheme.length + 3)
        = none := by
      unfold find
      rw [if_pos hlen, hdrop, List.append_nil, (search_char_none _ _).mpr ha]
      rfl
    rw [hf2]
    have hdrop2 : List.drop (scheme.length + 3) (scheme ++ "://".toList ++ authority)
        = authority := by simp
    simp only [List.append_nil, substrFrom, hdrop2, find_zero]
  · have hf2 : find (scheme ++ "://".toList ++ authority ++ '/' :: p) ['/'] (scheme.length + 3)
        = some (authority.length + (scheme.length + 3)) := by
      unfold find
      rw [if_pos hlen, hdrop, search_char_append _ _ _ ha]
      rfl
    rw [hf2]
    have hdom : substr (scheme ++ "://".toList ++ authority ++ '/' :: p) (scheme.length + 3)
        (authority.length + (scheme.length + 3) - scheme.length - 3) = authority := by
      unfold substr
      rw [hdrop]
      have : authority.length + (scheme.length + 3) - scheme.length - 3 = authority.length := by
        omega
      rw [this]
      simp
    have hp : List.drop (authority.length + (scheme.length + 3))
        (scheme ++ "://".toList ++ authority ++ '/' :: p) = '/' :: p := by
      rw [Nat.add_comm, ← List.drop_drop, hdrop]
      simp
    simp only [hdom, hp, find_zero, substrFrom]

theorem ctor_protocol (scheme rest : Bytes) (hs : ¬ "://".toList <:+: scheme) :
    (Request.ctor (scheme ++ "://".toList ++ rest)).protocol = scheme.map tolower := by
  have hurl : scheme ++ "://".toList ++ rest = scheme ++ ':' :: '/' :: '/' :: rest := by simp
  have hfind : find (scheme ++ "://".toList ++ rest) "://".toList 0 = some scheme.length := by
    rw [find_zero, hurl]
    exact search_scheme_sep scheme _ ((search_none_iff _ _).mpr hs)
  have hprot : substr (scheme ++ "://".toList ++ rest) 0 scheme.length = scheme := by
    simp [substr, List.append_assoc]
  unfold Request.ctor
  rw [hfind]
  simp only [hprot]
  split <;> split <;> rfl

theorem sendLoop_trace_ne_nil (fd : Int) (data : Bytes) : ∀ (script : List Int)
    (remaining sent : Int) (trace : List SockOp),
    (sendLoop fd data script remaining sent trace).2 ≠ [] := by
  intro script
  induction script with
  | nil => intro remaining sent trace; simp [sendLoop]
  | cons size rest ih =>
    intro remaining sent trace
    simp only [sendLoop]
    split
    · simp
    · split
      · exact ih _ _ _
      · simp

/-- The name and the value the parser sees in `Transfer-Encoding:` followed
by white space, a value without white space at its ends, and white space. -/
theorem transferEncoding_padded (v w1 w2 : Bytes) (hw1 : ∀ c ∈ w1, isspace c = true)
    (hw2 : ∀ c ∈ w2, isspace c = true) (hv1 : ∀ c, v.head? = some c → isspace c = false)
    (hv2 : ∀ c, v.getLast? = some c → isspace c = false) :
    headerName ("Transfer-Encoding:".toList ++ w1 ++ v ++ w2)
      = some "Transfer-Encoding".toList ∧
    headerValue ("Transfer-Encoding:".toList ++ w1 ++ v ++ w2) = v := by
  have e : "Transfer-Encoding:".toList ++ w1 ++ v ++ w2
      = "Transfer-Encoding".toList ++ ':' :: (w1 ++ v ++ w2) := by simp
  have hk := takeWhile_ne_append "Transfer-Encoding".toList (w1 ++ v ++ w2) ':' (by decide)
  constructor
  · unfold headerName
    rw [e, hk.1]
    simp
  · unfold headerValue
    rw [e, hk.2]
    simp only [List.drop_succ_cons, List.drop_zero]
    exact trim_spec w1 v w2 hw1 hw2 hv1 hv2

theorem linesFrom_no_clrf : ∀ (p cur : Bytes), search p clrf = none → linesFrom p cur = [] := by
  intro p
  induction p with
  | nil => intro cur _; rfl
  | cons a t ih =>
    intro cur h
    cases t with
    | nil => rfl
    | cons b t2 =>
      unfold search at h
      split at h
      · simp at h
      · rename_i hpre
        simp only [Option.map_eq_none'] at h
        have hab : ¬ (a = '\r' ∧ b = '\n') := by
          rintro ⟨rfl, rfl⟩
          exact hpre (by simp [clrf, List.isPrefixOf])
        rw [linesFrom, if_neg hab]
        exact ih _ h

theorem linesFrom_line : ∀ (l rest cur : Bytes), search l clrf = none →
    linesFrom (l ++ '\r' :: '\n' :: rest) cur = (cur ++ l) :: linesFrom rest [] := by
  intro l
  induction l with
  | nil => intro rest cur _; simp [linesFrom]
  | cons a t ih =>
    intro rest cur h
    unfold search at h
    split at h
    · simp at h
    · rename_i hpre
      simp only [Option.map_eq_none'] at h
      cases t with
      | nil =>
        have hab : ¬ (a = '\r' ∧ '\r' = '\n') := by
          intro hh; exact absurd hh.2 (by decide)
        simp only [List.cons_append, List.nil_append]
        rw [linesFrom, if_neg hab]
        have := ih rest (cur ++ [a]) h
        simpa using this
      | cons b t2 =>
        have hab : ¬ (a = '\r' ∧ b = '\n') := by
          rintro ⟨rfl, rfl⟩
          exact hpre (by simp [clrf, List.isPrefixOf])
        simp only [List.cons_append]
        rw [linesFrom, if_neg hab]
        have := ih rest (cur ++ [a]) h
        simpa using this

theorem completeLines_lines : ∀ (L : List Bytes) (p : Bytes),
    (∀ l ∈ L, l ≠ [] ∧ search l clrf = none) →
    completeLines (encodeLines L ++ p) = L ++ completeLines p := by
  intro L
  induction L with
  | nil => intro p _; simp [encodeLines]
  | cons l L ih =>
    intro p h
    have hl := (h l (List.mem_cons_self _ _)).2
    have := ih p (fun x hx => h x (List.mem_cons_of_mem _ hx))
    unfold completeLines at this ⊢
    rw [encodeLines_cons, List.append_assoc, List.cons_append, List.cons_append,
      linesFrom_line l _ [] hl, this]
    simp

theorem takeWhile_nonempty_lines (L : List Bytes) (h : ∀ l ∈ L, l ≠ [] ∧ search l clrf = none)
    (M : List Bytes) (hM : M = [] ∨ ∃ M2, M = [] :: M2) :
    (L ++ M).takeWhile (fun l => decide (l ≠ [])) = L := by
  induction L with
  | nil =>
    rcases hM with rfl | ⟨M2, rfl⟩ <;> simp
  | cons l L ih =>
    have hl := (h l (List.mem_cons_self _ _)).1
    have hd : decide (l ≠ []) = true := by simp [hl]
    rw [List.cons_append, List.takeWhile_cons, hd]
    simp only [if_true]
    rw [ih (fun x hx => h x (List.mem_cons_of_mem _ hx))]

/-- Under the invariant the recorded headers are the header lines of what was
received. -/
theorem headerInv_headers (st : ParseState) (R : Bytes) (h : HeaderInv st R) :
    st.response.headers = headerLinesOf R := by
  obtain ⟨L, hL, hh, hcase⟩ := h
  rw [hh]
  unfold headerLinesOf
  rcases hcase with ⟨_, _, hR, hp⟩ | ⟨_, tail, hR⟩
  · rw [hR, completeLines_lines L _ hL]
    have : completeLines st.responseData = [] := linesFrom_no_clrf _ _ hp
    rw [this, takeWhile_nonempty_lines L hL [] (Or.inl rfl)]
  · rw [hR, completeLines_lines L _ hL]
    have : completeLines ('\r' :: '\n' :: tail) = [] :: completeLines tail := by
      simp [completeLines, linesFrom]
    rw [this, takeWhile_nonempty_lines L hL _ (Or.inr ⟨_, rfl⟩)]

theorem headerInv_initial : HeaderInv initialState [] := by
  refine ⟨[], by simp, rfl, Or.inl ⟨rfl, by simp [initialState], by simp [encodeLines, initialState], ?_⟩⟩
  simp [initialState, search, clrf]

theorem search_take_none (s : Bytes) (i : Nat) (h : search s clrf = some i) :
    search (s.take i) clrf = none := by
  cases hs : search (s.take i) clrf with
  | none => rfl
  | some j =>
    exfalso
    have h1 := search_append_some (s.take i) clrf (s.drop i) j hs
    rw [List.take_append_drop, h] at h1
    have h2 := search_some_bound _ _ _ hs
    simp only [clrf, List.length_cons, List.length_nil, List.length_take] at h2
    simp only [Option.some.injEq] at h1
    omega

theorem lineStep_headers (line : Bytes) (st s : ParseState) (h : lineStep line st = .ok s) :
    s.response.headers = st.response.headers ++ (if st.firstLine then [] else [line]) ∧
    s.firstLine = false := by
  unfold lineStep at h
  by_cases hf : st.firstLine = true
  · rw [if_pos hf] at h
    have := parseFirstLine_frame line st s h
    simp [hf, this.2.2.1, this.2.2.2.1]
  · rw [if_neg hf] at h
    have := parseHeaderLine_frame line st s h
    have hff : st.firstLine = false := by simpa using hf
    simp [hff, this.2.2.1, this.2.2.2.1]

/-- What the header loop did to a buffer: it took complete non-empty lines
off its head, recorded them (but for the first line of the response), and
stopped either for want of a line end or at an empty line. -/
theorem headerLoop_lines_found : ∀ (f : Nat) (st st1 : ParseState),
    headerLoop f st = .ok st1 → st.parsedHeaders = false →
    ∃ ls : List Bytes, (∀ l ∈ ls, l ≠ [] ∧ search l clrf = none) ∧
      st1.response.headers = st.response.headers ++ (if st.firstLine then ls.tail else ls) ∧
      ((st1.parsedHeaders = false ∧ st.responseData = encodeLines ls ++ st1.responseData ∧
          search st1.responseData clrf = none ∧
          (st1.firstLine = true ↔ (st.firstLine = true ∧ ls = []))) ∨
       (st1.parsedHeaders = true ∧
          st.responseData = encodeLines ls ++ '\r' :: '\n' :: st1.responseData)) := by
  intro f
  induction f with
  | zero => intro st st1 h; simp [headerLoop] at h
  | succ f ih =>
    intro st st1 h hp
    rw [headerLoop_succ] at h
    cases hs : search st.responseData clrf with
    | none =>
      simp only [hs, Res.ok.injEq] at h
      subst h
      refine ⟨[], by simp, by simp, Or.inl ⟨hp, by simp [encodeLines], hs, by simp⟩⟩
    | some i =>
      simp only [hs] at h
      have hsplit := search_some_take _ _ _ hs
      simp only [clrf, List.length_cons, List.length_nil] at hsplit
      have hbuf : st.responseData
          = st.responseData.take i ++ '\r' :: '\n' :: st.responseData.drop (i + 2) := by
        conv_lhs => rw [hsplit]
        simp
      by_cases hline : st.responseData.take i = []
      · rw [if_pos hline] at h
        simp only [Res.ok.injEq] at h
        subst h
        refine ⟨[], by simp, by simp, Or.inr ⟨rfl, ?_⟩⟩
        simp only [encodeLines, List.map_nil, List.flatten_nil, List.nil_append,
          endHeaders_responseData, setData_responseData]
        rw [hline] at hbuf
        simpa using hbuf
      · rw [if_neg hline] at h
        cases hl : lineStep (st.responseData.take i)
            (st.setData (st.responseData.drop (i + 2))) with
        | ok s =>
          simp only [hl] at h
          have hfr := lineStep_frame _ _ _ hl
          have hhd := lineStep_headers _ _ _ hl
          simp only [setData_responseData, setData_parsedHeaders, setData_response,
            setData_firstLine] at hfr hhd
          obtain ⟨ls, hls, hh, hcase⟩ := ih s st1 h (by rw [hfr.2.1]; exact hp)
          refine ⟨st.responseData.take i :: ls, ?_, ?_, ?_⟩
          · intro l hl2
            simp only [List.mem_cons] at hl2
            rcases hl2 with rfl | hl2
            · exact ⟨hline, search_take_none _ _ hs⟩
            · exact hls l hl2
          · rw [hh, hhd.1, hhd.2]
            by_cases hf : st.firstLine = true
            · simp [hf]
            · have hff : st.firstLine = false := by simpa using hf
              simp [hff]
          · rcases hcase with ⟨h1, h2, h3, h4⟩ | ⟨h1, h2⟩
            · left
              refine ⟨h1, ?_, h3, ?_⟩
              · rw [encodeLines_cons, List.append_assoc, List.cons_append, List.cons_append,
                  ← h2, hfr.1]
                exact hbuf
              · rw [h4, hhd.2]
                simp
            · right
              refine ⟨h1, ?_⟩
              rw [encodeLines_cons, List.append_assoc, List.cons_append, List.cons_append,
                ← h2, hfr.1]
              exact hbuf
        | threw e => simp [hl] at h
        | outOfFuel => simp [hl] at h

theorem bodyPhase_not_parsed (st : ParseState) (h : st.parsedHeaders = false) :
    bodyPhase st = .ok (st, false) := by
  simp [bodyPhase, h]

/-- One read preserves the header invariant. -/
theorem processRead_headerInv (st st1 : ParseState) (R a : Bytes) (d : Bool)
    (hinv : HeaderInv st R) (h : processRead st a = .ok (st1, d)) :
    HeaderInv st1 (R ++ a) := by
  obtain ⟨L, hL, hh, hcase⟩ := hinv
  rw [processRead_eq] at h
  rcases hcase with ⟨hp, hfl, hR, hnone⟩ | ⟨hp, tail, hR⟩
  · rw [if_neg (by simp [hp])] at h
    cases hh2 : headerLoop ((st.append a).responseData.length + 1) (st.append a) with
    | ok s2 =>
      simp only [hh2] at h
      obtain ⟨ls, hls, hhd, hcase2⟩ := headerLoop_lines_found _ _ _ hh2 (by simpa using hp)
      simp only [append_response, append_firstLine, append_responseData] at hhd hcase2
      have hsame := bodyPhase_same _ _ _ h
      have hLall : ∀ l ∈ L ++ ls, l ≠ [] ∧ search l clrf = none := by
        intro l hl
        simp only [List.mem_append] at hl
        rcases hl with hl | hl
        · exact hL l hl
        · exact hls l hl
      have hheaders : st1.response.headers = (L ++ ls).tail := by
        rw [hsame.2.2.2.2.2.1, hhd, hh]
        by_cases hf : st.firstLine = true
        · have hL0 : L = [] := hfl.mp hf
          subst hL0
          simp [hf]
        · have hff : st.firstLine = false := by simpa using hf
          have hLne : L ≠ [] := fun e => hf (hfl.mpr e)
          obtain ⟨x, xs, rfl⟩ := List.exists_cons_of_ne_nil hLne
          simp [hff]
      refine ⟨L ++ ls, hLall, hheaders, ?_⟩
      rcases hcase2 with ⟨h1, h2, h3, h4⟩ | ⟨h1, h2⟩
      · left
        rw [bodyPhase_not_parsed s2 h1] at h
        simp only [Res.ok.injEq, Prod.mk.injEq] at h
        obtain ⟨rfl, -⟩ := h
        refine ⟨h1, ?_, ?_, h3⟩
        · rw [h4, hfl]
          simp
        · rw [hR, List.append_assoc, h2, encodeLines_append, List.append_assoc]
      · right
        refine ⟨by rw [hsame.1]; exact h1, s2.responseData, ?_⟩
        rw [hR, List.append_assoc, h2, encodeLines_append, List.append_assoc]
    | threw e => simp only [hh2, reduceCtorEq] at h
    | outOfFuel => simp only [hh2, reduceCtorEq] at h
  · rw [if_pos hp] at h
    have hsame := bodyPhase_same _ _ _ h
    refine ⟨L, hL, ?_, Or.inr ⟨?_, tail ++ a, ?_⟩⟩
    · rw [hsame.2.2.2.2.2.1]; simpa using hh
    · rw [hsame.1]; simpa using hp
    · rw [hR]; simp

theorem recvLoop_rest_length : ∀ (script : List RecvResult) (st : ParseState) (o : Outcome)
    (rest : List RecvResult), recvLoop script st = (o, rest) → rest.length ≤ script.length := by
  intro script
  induction script with
  | nil => intro st o rest h; simp [recvLoop] at h; simp [h.2]
  | cons x t ih =>
    intro st o rest h
    cases x with
    | error =>
      simp only [recvLoop, Prod.mk.injEq] at h
      rw [← h.2]; simp
    | bytes d =>
      simp only [recvLoop] at h
      split at h
      · simp only [Prod.mk.injEq] at h
        rw [← h.2]; simp
      · split at h
        · simp only [Prod.mk.injEq] at h
          rw [← h.2]; simp
        · have := ih _ _ _ h
          simp only [List.length_cons]; omega
        · simp only [Prod.mk.injEq] at h
          rw [← h.2]; simp
        · simp only [Prod.mk.injEq] at h
          rw [← h.2]; simp

/-- Whenever the receive loop returns a response, its headers are the header
lines of the bytes received up to then. -/
theorem recvLoop_headers : ∀ (script : List RecvResult) (st : ParseState) (R : Bytes)
    (r : Response) (rest : List RecvResult), HeaderInv st R →
    recvLoop script st = (.returned r, rest) →
    r.headers = headerLinesOf
      (R ++ receivedBytes (script.take (script.length - rest.length))) := by
  intro script
  induction script with
  | nil => intro st R r rest _ h; simp [recvLoop] at h
  | cons x t ih =>
    intro st R r rest hinv h
    have hlen := recvLoop_rest_length _ _ _ _ h
    cases x with
    | error =>
      simp only [recvLoop, Prod.mk.injEq, Outcome.returned.injEq] at h
      obtain ⟨rfl, rfl⟩ := h
      simp [receivedBytes, headerInv_headers st R hinv]
    | bytes d =>
      simp only [recvLoop] at h
      split at h
      · rename_i hd
        simp only [Prod.mk.injEq, Outcome.returned.injEq] at h
        obtain ⟨rfl, rfl⟩ := h
        simp [receivedBytes, hd, headerInv_headers st R hinv]
      · split at h
        · rename_i st1 hpr
          simp only [Prod.mk.injEq, Outcome.returned.injEq] at h
          obtain ⟨rfl, rfl⟩ := h
          have := headerInv_headers st1 (R ++ d) (processRead_headerInv st st1 R d _ hinv hpr)
          simp [receivedBytes, this]
        · rename_i st1 hpr
          have hle := recvLoop_rest_length _ _ _ _ h
          have := ih st1 (R ++ d) r rest (processRead_headerInv st st1 R d _ hinv hpr) h
          rw [this]
          have ht : (RecvResult.bytes d :: t).length - rest.length
              = (t.length - rest.length) + 1 := by
            simp only [List.length_cons]; omega
          rw [ht, List.take_succ_cons]
          simp [receivedBytes]
        · simp at h
        · simp at h

/-- The processing of a whole response that has neither a `Content-Length`
nor a chunked `Transfer-Encoding` header and arrives in one read: the bytes
after the empty line go to the body and the loop is left at once. -/
theorem processRead_plain (code : Nat) (reason : Bytes) (hs : List Bytes) (b : Bytes)
    (hreason : ¬ clrf <:+: reason)
    (hhs : ∀ h ∈ hs, h ≠ [] ∧ ¬ clrf <:+: h ∧ ¬ IsContentLength h ∧ ¬ IsChunked h)
    (hcode : (code : Int) ≤ INT_MAX) :
    processRead initialState (responseBytes (statusLine code reason) hs b)
      = .ok (fixedFinal code hs (-1) b, true) := by
  rw [processRead_eq, initialState_append, responseBytes_eq]
  have hp0 : initialState.parsedHeaders = false := rfl
  simp only [hp0, Bool.false_eq_true, if_false, setData_responseData]
  have hwf : ∀ l ∈ statusLine code reason :: hs, l ≠ [] ∧ search l clrf = none := by
    intro l hl
    simp only [List.mem_cons] at hl
    rcases hl with rfl | hl
    · exact ⟨statusLine_ne_nil _ _, statusLine_no_clrf _ _ hreason⟩
    · exact ⟨(hhs l hl).1, search_clrf_absent _ (hhs l hl).2.1⟩
  rw [headerLoop_lines _ _ _ _ hwf (Nat.lt_succ_self _)]
  have hfl : initialState.firstLine = true := rfl
  simp only [foldLines, lineStep, hfl, if_true]
  rw [parseFirstLine_statusLine, if_pos hcode]
  simp only
  rw [foldLines_plain hs _ rfl (fun h hh => (hhs h hh).2.2)]
  have hch : initialState.chunkedResponse = false := rfl
  simp only [bodyPhase, ParseState.endHeaders, ParseState.setData, ParseState.pushHeaders,
    if_true, hch, Bool.false_eq_true, if_false, Res.ok.injEq]
  apply Prod.ext
  · simp [fixedBody, fixedFinal, initialState]
  · simp [fixedBody, initialState]

/-- Reads of which the last one completes a response that is not chunked,
the bytes before the last read not sufficing: the receive loop goes through
all of them and returns at the last, leaving the rest of the script. -/
theorem recvLoop_reads_done_at_last (earlier : List Bytes) (last : Bytes)
    (st stf : ParseState) (rest : List RecvResult)
    (hne : ∀ r ∈ earlier, r ≠ []) (hl : last ≠ [])
    (h : processRead st (earlier.flatten ++ last) = .ok (stf, true))
    (hc : stf.chunkedResponse = false)
    (hsize : stf.response.body.length < last.length ∨
      (stf.contentSize ≠ -1 ∧
        stf.response.body.length < (stf.contentSize % (SIZE_MOD : Int)).toNat + last.length)) :
    recvLoop ((earlier ++ [last]).map RecvResult.bytes ++ rest) st
      = (.returned { stf.response with succeeded := true }, rest) := by
  by_cases he : earlier = []
  · subst he
    simp only [List.flatten_nil, List.nil_append] at h
    simp [recvLoop, hl, h]
  · have key := processRead_append st earlier.flatten last
    cases h1 : processRead st earlier.flatten with
    | ok p =>
      obtain ⟨st1, d⟩ := p
      cases d with
      | false =>
        rw [key.1 st1 h1] at h
        rw [List.map_append, List.append_assoc,
          recvLoop_reads_continue earlier st st1 _ hne he h1]
        simp [recvLoop, hl, h]
      | true =>
        exfalso
        rw [key.2.1 st1 h1] at h
        simp only [Res.ok.injEq, Prod.mk.injEq, and_true] at h
        have hc1 : st1.chunkedResponse = false := by
          rw [← doneExt_chunkedResponse st1 last, h]; exact hc
        have hcs1 : st1.contentSize = stf.contentSize := by
          rw [← doneExt_contentSize st1 last, h]
        have hb1 : stf.response.body = st1.response.body ++ last := by
          rw [← doneExt_body_fixed st1 last hc1, h]
        have hdone := processRead_done_fixed st st1 earlier.flatten h1 hc1
        rw [hcs1] at hdone
        rw [hb1] at hsize
        simp only [List.length_append] at hsize
        rcases hsize with hs | ⟨hs1, hs2⟩
        · omega
        · rcases hdone with hd | hd
          · exact hs1 hd
          · omega
    | threw e =>
      rw [key.2.2 e h1] at h
      cases h
    | outOfFuel => exact absurd h1 (processRead_ne_outOfFuel _ _)

theorem responseBytes_length (status : Bytes) (headers : List Bytes) (body : Bytes) :
    (responseBytes status headers body).length
      = (responseBytes status headers []).length + body.length := by
  simp only [responseBytes, List.length_append, List.length_nil]
  omega

theorem chunkWrite_setContentSize (st : ParseState) (c : Int) :
    chunkWrite (st.setContentSize c) = (chunkWrite st).setContentSize c := by
  unfold chunkWrite
  simp only [ParseState.setContentSize]
  split <;> rfl

theorem chunkSkip_setContentSize (st : ParseState) (c : Int) :
    chunkSkip (st.setContentSize c) = (chunkSkip st).setContentSize c := by
  unfold chunkSkip
  simp only [ParseState.setContentSize]
  split <;> rfl

/-- The chunked loop neither reads nor writes the expected body size. -/
theorem chunkedLoop_setContentSize : ∀ (f : Nat) (st : ParseState) (c : Int),
    chunkedLoop f (st.setContentSize c) = withContentSize c (chunkedLoop f st) := by
  intro f
  induction f with
  | zero => intro st c; rfl
  | succ f ih =>
    intro st c
    rw [chunkedLoop_succ, chunkedLoop_succ, chunkWrite_setContentSize, chunkSkip_setContentSize]
    have e1 : (st.setContentSize c).expectedChunkSize = st.expectedChunkSize := rfl
    have e2 : (st.setContentSize c).removeCLRFAfterChunk = st.removeCLRFAfterChunk := rfl
    have e3 : (st.setContentSize c).responseData = st.responseData := rfl
    have e4 : ((chunkWrite st).setContentSize c).responseData = (chunkWrite st).responseData :=
      rfl
    rw [e1, e2, e3, e4]
    by_cases he : 0 < st.expectedChunkSize
    · rw [if_pos he, if_pos he]
      by_cases hd : (chunkWrite st).responseData = []
      · rw [if_pos hd, if_pos hd]; rfl
      · rw [if_neg hd, if_neg hd]; exact ih _ c
    · rw [if_neg he, if_neg he]
      by_cases hsm : st.removeCLRFAfterChunk = true ∧ st.responseData.length < 2
      · rw [if_pos hsm, if_pos hsm]; rfl
      · rw [if_neg hsm, if_neg hsm]
        unfold chunkLine
        have e5 : ((chunkSkip st).setContentSize c).responseData = (chunkSkip st).responseData :=
          rfl
        rw [e5]
        cases search (chunkSkip st).responseData clrf with
        | none => rfl
        | some i =>
          simp only
          cases stoul16 (List.take i (chunkSkip st).responseData) with
          | ok n =>
            simp only
            by_cases h0 : n = 0
            · rw [if_pos h0, if_pos h0]; rfl
            · rw [if_neg h0, if_neg h0]
              exact ih (((chunkSkip st).setData
                (List.drop (i + 2) (chunkSkip st).responseData)).setChunk n) c
          | threw e => rfl
          | outOfFuel => rfl

/-- One read in chunked body mode neither reads nor writes the expected body
size. -/
theorem processRead_setContentSize (st : ParseState) (c : Int) (data : Bytes)
    (hp : st.parsedHeaders = true) (hc : st.chunkedResponse = true) :
    processRead (st.setContentSize c) data = withContentSize c (processRead st data) := by
  rw [processRead_eq, processRead_eq]
  have e1 : (st.setContentSize c).parsedHeaders = true := hp
  rw [if_pos e1, if_pos hp]
  have e2 : (st.setContentSize c).append data = (st.append data).setContentSize c := rfl
  rw [e2]
  have b1 : bodyPhase ((st.append data).setContentSize c)
      = chunkedLoop ((st.append data).responseData.length + 1)
          ((st.append data).setContentSize c) := by
    simp [bodyPhase, ParseState.setContentSize, hp, hc]
  have b2 : bodyPhase (st.append data)
      = chunkedLoop ((st.append data).responseData.length + 1) (st.append data) := by
    simp [bodyPhase, hp, hc]
  rw [b1, b2]
  exact chunkedLoop_setContentSize _ _ c

/-- In chunked body mode the receive loop ends the same way, after the same
reads, whatever the expected body size is. -/
theorem recvLoop_setContentSize : ∀ (script : List RecvResult) (st : ParseState) (c : Int),
    st.parsedHeaders = true → st.chunkedResponse = true →
    recvLoop script (st.setContentSize c) = recvLoop script st := by
  intro script
  induction script with
  | nil => intro st c _ _; rfl
  | cons x t ih =>
    intro st c hp hc
    cases x with
    | error => rfl
    | bytes d =>
      simp only [recvLoop]
      by_cases hd : d = []
      · rw [if_pos hd, if_pos hd]; rfl
      · rw [if_neg hd, if_neg hd, processRead_setContentSize st c d hp hc]
        cases hpr : processRead st d with
        | ok p =>
          obtain ⟨s, b⟩ := p
          cases b with
          | true => rfl
          | false =>
            simp only [withContentSize]
            have hpe : processRead st d = bodyPhase (st.append d) := by
              rw [processRead_eq, if_pos hp]
            have hs := bodyPhase_same _ _ _ (hpe ▸ hpr)
            exact ih s c (by rw [hs.1]; exact hp) (by rw [hs.2.1]; exact hc)
        | threw e => rfl
        | outOfFuel => rfl

theorem filter_modifyHead_nil (L : List Bytes) :
    (L.modifyHead (fun t => [] ++ t)).filter (fun t => decide (t ≠ []))
      = L.filter (fun t => decide (t ≠ [])) := by
  cases L <;> simp [List.modifyHead]

/-- The tokens read off character by character are the pieces between
spaces, the empty pieces dropped. -/
theorem tokensFrom_eq_split : ∀ (s cur : Bytes),
    tokensFrom s cur
      = ((s.splitOnP (fun c => c == ' ')).modifyHead (fun t => cur ++ t)).filter
          (fun t => decide (t ≠ [])) := by
  intro s
  induction s with
  | nil =>
    intro cur
    by_cases hc : cur = [] <;> simp [tokensFrom, List.splitOnP_nil, List.modifyHead, hc]
  | cons c t ih =>
    intro cur
    rw [List.splitOnP_cons]
    by_cases hsp : c = ' '
    · subst hsp
      have ih0 := ih []
      rw [filter_modifyHead_nil] at ih0
      by_cases hc : cur = []
      · simp [tokensFrom, List.modifyHead, hc, ih0]
      · simp [tokensFrom, List.modifyHead, hc, ih0]
    · have hb : (c == ' ') = false := by simpa using hsp
      simp only [tokensFrom, hsp, if_false, hb, Bool.false_eq_true]
      rw [ih (cur ++ [c]), List.modifyHead_modifyHead]
      congr 2
      funext x
      simp

theorem tokens_eq_split (line : Bytes) :
    tokens line = (line.splitOn ' ').filter (fun t => decide (t ≠ [])) := by
  unfold tokens List.splitOn
  rw [tokensFrom_eq_split, filter_modifyHead_nil]

theorem processRead_parsed_same (st s : ParseState) (d : Bytes) (b : Bool)
    (hp : st.parsedHeaders = true) (h : processRead st d = .ok (s, b)) :
    s.sameHeaderFields st := by
  rw [processRead_eq, if_pos hp] at h
  have := bodyPhase_same _ _ _ h
  simpa [ParseState.sameHeaderFields] using this

/-- Once the headers are parsed, every later state has the same header
fields. -/
theorem readStates_same : ∀ (ds : List Bytes) (st : ParseState), st.parsedHeaders = true →
    ∀ s ∈ readStates st ds, s.sameHeaderFields st := by
  intro ds
  induction ds with
  | nil => intro st _ s hs; simp [readStates] at hs
  | cons d ds ih =>
    intro st hp s hs
    unfold readStates at hs
    cases hpr : processRead st d with
    | ok p =>
      obtain ⟨s1, b⟩ := p
      have h1 := processRead_parsed_same st s1 d b hp hpr
      cases b with
      | true =>
        simp only [hpr, List.mem_singleton] at hs
        subst hs; exact h1
      | false =>
        simp only [hpr, List.mem_cons] at hs
        rcases hs with rfl | hs
        · exact h1
        · exact sameHeaderFields_trans (ih s1 (by rw [h1.1]; exact hp) s hs) h1
    | threw e => simp [hpr] at hs
    | outOfFuel => simp [hpr] at hs

/-- Once the headers are parsed, a response the receive loop returns has the
code and the headers of that moment. -/
theorem recvLoop_parsed_response : ∀ (script : List RecvResult) (st : ParseState)
    (r : Response) (rest : List RecvResult), st.parsedHeaders = true →
    recvLoop script st = (.returned r, rest) →
    r.code = st.response.code ∧ r.headers = st.response.headers := by
  intro script
  induction script with
  | nil => intro st r rest _ h; simp [recvLoop] at h
  | cons x t ih =>
    intro st r rest hp h
    cases x with
    | error =>
      simp only [recvLoop, Prod.mk.injEq, Outcome.returned.injEq] at h
      rw [← h.1]; exact ⟨rfl, rfl⟩
    | bytes d =>
      simp only [recvLoop] at h
      split at h
      · simp only [Prod.mk.injEq, Outcome.returned.injEq] at h
        rw [← h.1]; exact ⟨rfl, rfl⟩
      · split at h
        · rename_i s hpr
          have h1 := processRead_parsed_same st s d true hp hpr
          simp only [Prod.mk.injEq, Outcome.returned.injEq] at h
          rw [← h.1]
          exact ⟨h1.2.2.2.2.1, h1.2.2.2.2.2.1⟩
        · rename_i s hpr
          have h1 := processRead_parsed_same st s d false hp hpr
          have := ih s r rest (by rw [h1.1]; exact hp) h
          rw [this.1, this.2]
          exact ⟨h1.2.2.2.2.1, h1.2.2.2.2.2.1⟩
        · simp at h
        · simp at h

theorem headerLoop_suffix : ∀ (f : Nat) (st s : ParseState), headerLoop f st = .ok s →
    s.responseData <:+ st.responseData := by
  intro f
  induction f with
  | zero => intro st s h; simp [headerLoop] at h
  | succ f ih =>
    intro st s h
    rw [headerLoop_succ] at h
    cases hs : search st.responseData clrf with
    | none =>
      simp only [hs, Res.ok.injEq] at h
      subst h; exact List.suffix_refl _
    | some i =>
      simp only [hs] at h
      split at h
      · simp only [Res.ok.injEq] at h
        subst h
        exact List.drop_suffix _ _
      · cases hl : lineStep (List.take i st.responseData)
            (st.setData (List.drop (i + 2) st.responseData)) with
        | ok s1 =>
          simp only [hl] at h
          have hfr := (lineStep_frame _ _ _ hl).1
          simp only [setData_responseData] at hfr
          have := ih s1 s h
          rw [hfr] at this
          exact this.trans (List.drop_suffix _ _)
        | threw e => simp [hl] at h
        | outOfFuel => simp [hl] at h

theorem chunkSkip_suffix (st : ParseState) :
    (chunkSkip st).responseData <:+ st.responseData := by
  unfold chunkSkip
  split
  · exact List.drop_suffix _ _
  · exact List.suffix_refl _

theorem chunkedLoop_suffix : ∀ (f : Nat) (st s : ParseState) (d : Bool),
    chunkedLoop f st = .ok (s, d) → s.responseData <:+ st.responseData := by
  intro f
  induction f with
  | zero => intro st s d h; simp [chunkedLoop] at h
  | succ f ih =>
    intro st s d h
    rw [chunkedLoop_succ] at h
    have hw : (chunkWrite st).responseData <:+ st.responseData := by
      rw [chunkWrite_data]; exact List.drop_suffix _ _
    split at h
    · split at h
      · simp only [Res.ok.injEq, Prod.mk.injEq] at h
        rw [← h.1]; exact hw
      · exact (ih _ _ _ h).trans hw
    · split at h
      · simp only [Res.ok.injEq, Prod.mk.injEq] at h
        rw [← h.1]
      · unfold chunkLine at h
        split at h
        · simp only [Res.ok.injEq, Prod.mk.injEq] at h
          rw [← h.1]; exact chunkSkip_suffix st
        · split at h
          · have hd : ∀ (i n : Nat),
                (((chunkSkip st).setData (List.drop (i + 2) (chunkSkip st).responseData)).setChunk
                  n).responseData <:+ st.responseData :=
              fun i n => (List.drop_suffix _ _).trans (chunkSkip_suffix st)
            split at h
            · simp only [Res.ok.injEq, Prod.mk.injEq] at h
              rw [← h.1]; exact hd _ _
            · exact (ih _ _ _ h).trans (hd _ _)
          · simp at h
          · simp at h

theorem bodyPhase_suffix (st s : ParseState) (d : Bool) (h : bodyPhase st = .ok (s, d)) :
    s.responseData <:+ st.responseData := by
  unfold bodyPhase at h
  split at h
  · split at h
    · exact chunkedLoop_suffix _ _ _ _ h
    · simp only [Res.ok.injEq] at h
      have : s = (fixedBody st).1 := by rw [h]
      rw [this]
      simp [fixedBody]
  · simp only [Res.ok.injEq, Prod.mk.injEq] at h
    rw [← h.1]

/-- After a read the pending buffer is a tail of what was pending before,
followed by the bytes read. -/
theorem processRead_suffix (st s : ParseState) (data : Bytes) (d : Bool)
    (h : processRead st data = .ok (s, d)) :
    s.responseData <:+ st.responseData ++ data := by
  rw [processRead_eq] at h
  split at h
  · exact bodyPhase_suffix _ _ _ h
  · cases hh : headerLoop ((st.append data).responseData.length + 1) (st.append data) with
    | ok s1 =>
      simp only [hh] at h
      exact (bodyPhase_suffix _ _ _ h).trans (headerLoop_suffix _ _ _ hh)
    | threw e => simp only [hh, reduceCtorEq] at h
    | outOfFuel => simp only [hh, reduceCtorEq] at h

theorem suffix_append_right {l1 l2 : Bytes} (x : Bytes) (h : l1 <:+ l2) :
    l1 ++ x <:+ l2 ++ x := by
  obtain ⟨t, ht⟩ := h
  exact ⟨t, by rw [← ht, List.append_assoc]⟩

/-- After any number of reads the pending buffer is a tail of what was
pending at the start followed by the bytes read since. -/
theorem readStates_suffix : ∀ (ds : List Bytes) (st : ParseState) (k : Nat) (s : ParseState),
    (readStates st ds)[k]? = some s →
    s.responseData <:+ st.responseData ++ (ds.take (k + 1)).flatten := by
  intro ds
  induction ds with
  | nil => intro st k s h; simp [readStates] at h
  | cons d ds ih =>
    intro st k s h
    unfold readStates at h
    cases hpr : processRead st d with
    | ok p =>
      obtain ⟨s1, b⟩ := p
      have h1 := processRead_suffix st s1 d b hpr
      cases k with
      | zero =>
        have hs : s1 = s := by
          cases b <;> simpa [hpr] using h
        subst hs
        simpa using h1
      | succ k =>
        cases b with
        | true => simp [hpr] at h
        | false =>
          simp only [hpr, List.getElem?_cons_succ] at h
          have h2 := ih s1 k s h
          have h3 := suffix_append_right (List.take (k + 1) ds).flatten h1
          simp only [List.take_succ_cons, List.flatten_cons]
          rw [← List.append_assoc]
          exact h2.trans h3
    | threw e => simp [hpr] at h
    | outOfFuel => simp [hpr] at h

theorem parseHeaderLine_contentSize (h : Bytes) (st s : ParseState)
    (hok : parseHeaderLine h st = .ok s) :
    (¬ IsContentLength h → s.contentSize = st.contentSize) ∧
    (IsContentLength h → stoi (headerValue h) = .ok s.contentSize) := by
  rw [parseHeaderLine_spec] at hok
  by_cases hcl : IsContentLength h
  · rw [if_pos hcl] at hok
    refine ⟨fun hn => absurd hcl hn, fun _ => ?_⟩
    cases hst : stoi (headerValue h) with
    | ok v =>
      simp only [hst, Res.map, Res.ok.injEq] at hok
      rw [← hok]
    | threw e => simp [hst, Res.map] at hok
    | outOfFuel => simp [hst, Res.map] at hok
  · rw [if_neg hcl] at hok
    refine ⟨fun _ => ?_, fun hc => absurd hc hcl⟩
    split at hok <;> (simp only [Res.ok.injEq] at hok; rw [← hok]; rfl)

theorem magnitude_none (base : Nat) (s : Bytes)
    (h : ∀ c, s.head? = some c → isDigitIn base c = false) : magnitude base s = none := by
  unfold magnitude
  cases s with
  | nil => simp
  | cons c t => simp [List.takeWhile, h c rfl]

/-- `std::stoi` throws `std::invalid_argument` on a string without a leading
decimal number. -/
theorem stoi_no_number (s : Bytes) (h : NoLeadingNumber 10 s) :
    stoi s = .threw .invalid_argument := by
  unfold stoi
  split
  rename_i neg r heq
  have hr : r = (takeSign (s.dropWhile isspace)).2 := by rw [heq]
  rw [magnitude_none 10 r (by rw [hr]; exact h)]

theorem skipHexPrefix_no_number (s : Bytes)
    (h : ∀ c, s.head? = some c → isDigitIn 16 c = false) : skipHexPrefix s = s := by
  unfold skipHexPrefix
  split
  · rename_i x d t
    have := h '0' rfl
    exact absurd this (by decide)
  · rfl

/-- `std::stoul` in base 16 throws `std::invalid_argument` on a string
without a leading hexadecimal number. -/
theorem stoul16_no_number (s : Bytes) (h : NoLeadingNumber 16 s) :
    stoul16 s = .threw .invalid_argument := by
  unfold stoul16
  split
  rename_i neg r heq
  have hr : r = (takeSign (s.dropWhile isspace)).2 := by rw [heq]
  have hh : ∀ c, r.head? = some c → isDigitIn 16 c = false := by rw [hr]; exact h
  rw [skipHexPrefix_no_number r hh, magnitude_none 16 r hh]

/-- A first line whose second token holds no leading decimal number makes
the read that completes the line throw. -/
theorem processRead_bad_status (line t0 tok after : Bytes) (more : List Bytes)
    (hline : ¬ clrf <:+: line) (htok : tokens line = t0 :: tok :: more)
    (hbad : NoLeadingNumber 10 tok) :
    processRead initialState (line ++ '\r' :: '\n' :: after) = .threw .invalid_argument := by
  have hne : line ≠ [] := by
    intro h; rw [h] at htok; simp [tokens, tokensFrom] at htok
  rw [processRead_eq, initialState_append]
  have hp0 : initialState.parsedHeaders = false := rfl
  simp only [hp0, Bool.false_eq_true, if_false, setData_responseData]
  rw [headerLoop_succ]
  simp only [setData_responseData]
  rw [search_clrf_line line after (search_clrf_absent line hline)]
  simp only [List.take_left', hne, if_false, setData_setData]
  rw [lineStep_setData]
  have hl : lineStep line initialState = .threw .invalid_argument := by
    have hfl : initialState.firstLine = true := rfl
    simp only [lineStep, hfl, if_true]
    unfold parseFirstLine
    rw [tokenizeLoop_line, htok]
    simp only [List.length_cons, Nat.le_add_left, if_true, List.getD_cons_succ,
      List.getD_cons_zero, stoi_no_number tok hbad]
  rw [hl]
  rfl

/-- The chunk-size step of the chunked loop on a buffer that starts with
well-formed chunks: their data goes to the body and the step goes on with
what follows them. -/
theorem chunkLine_chunks_tail : ∀ (cs : List (Bytes × Bytes)) (st : ParseState) (f : Nat)
    (tail : Bytes), (∀ c ∈ cs, WellFormedChunk c) →
    st.responseData = encodeChunks cs ++ tail →
    st.removeCLRFAfterChunk = false → st.expectedChunkSize = 0 →
    st.responseData.length ≤ f + 1 →
    chunkLine f st = chunkLine f { st with
      response := { st.response with body := st.response.body ++ chunksData cs }
      responseData := tail } := by
  intro cs
  induction cs with
  | nil =>
    intro st f tail _ hd hfl he _
    rcases st with ⟨⟨s, c, hdrs, bo⟩, d, fl, ph, cs, ch, e, rm⟩
    simp only [encodeChunks, List.map_nil, List.flatten_nil, List.nil_append] at hd
    subst hd
    simp [chunksData]
  | cons c cs ih =>
    intro st f tail hwf hd hfl he0 hlen
    obtain ⟨h, d⟩ := c
    obtain ⟨hdne, hdlt, hhex⟩ := hwf (h, d) (List.mem_cons_self _ _)
    simp only at hdne hdlt hhex
    rcases st with ⟨⟨s, c, hdrs, bo⟩, buf, fl, ph, csz, ch, e, rm⟩
    simp only at hd hfl hlen he0
    have hbuf : buf = h ++ '\r' :: '\n' :: (d ++ '\r' :: '\n' :: (encodeChunks cs ++ tail)) := by
      rw [hd]; simp [encodeChunks, encodeChunk]
    subst hfl he0
    have hdpos : 0 < d.length := List.length_pos.mpr hdne
    have hhne : h ≠ [] := hhex.1
    have hhpos : 0 < h.length := List.length_pos.mpr hhne
    have hblen : buf.length = h.length + 2 + (d.length + 2 + (encodeChunks cs ++ tail).length) := by
      rw [hbuf]; simp only [List.length_append, List.length_cons]; omega
    have hs : search buf clrf = some h.length := by
      rw [hbuf]; exact search_clrf_line h _ (isHex_no_cr h _ hhex)
    have htake : List.take h.length buf = h := by rw [hbuf]; simp
    have hdrop : List.drop (h.length + 2) buf
        = d ++ '\r' :: '\n' :: (encodeChunks cs ++ tail) := by
      rw [hbuf, List.drop_append_eq_append_drop]; simp
    have hd0 : d.length ≠ 0 := by omega
    have hL : chunkLine f ⟨⟨s, c, hdrs, bo⟩, buf, fl, ph, csz, ch, 0, false⟩
        = chunkedLoop f ((ParseState.setData ⟨⟨s, c, hdrs, bo⟩, buf, fl, ph, csz, ch, 0, false⟩
            (d ++ '\r' :: '\n' :: (encodeChunks cs ++ tail))).setChunk d.length) := by
      unfold chunkLine
      simp only [hs, htake, stoul16_isHex h d.length hhex hdlt, hd0, if_false, hdrop]
    rw [hL]
    obtain ⟨g, rfl⟩ : ∃ g, f = g + 1 := ⟨f - 1, by omega⟩
    rw [chunkedLoop_succ]
    have he : 0 < ((ParseState.setData ⟨⟨s, c, hdrs, bo⟩, buf, fl, ph, csz, ch, 0, false⟩
        (d ++ '\r' :: '\n' :: (encodeChunks cs ++ tail))).setChunk
        d.length).expectedChunkSize := hdpos
    rw [if_pos he]
    have hmin : min d.length (d ++ '\r' :: '\n' :: (encodeChunks cs ++ tail)).length
        = d.length := by
      simp
    have hw : chunkWrite ((ParseState.setData ⟨⟨s, c, hdrs, bo⟩, buf, fl, ph, csz, ch, 0, false⟩
        (d ++ '\r' :: '\n' :: (encodeChunks cs ++ tail))).setChunk d.length)
        = ⟨⟨s, c, hdrs, bo ++ d⟩, '\r' :: '\n' :: (encodeChunks cs ++ tail),
            fl, ph, csz, ch, 0, true⟩ := by
      simp only [chunkWrite, ParseState.setData, ParseState.setChunk, hmin, List.take_left',
        List.drop_left', Nat.sub_self, if_true]
    rw [hw]
    simp only [List.cons_ne_nil, if_false, reduceCtorEq]
    obtain ⟨g2, rfl⟩ : ∃ g2, g = g2 + 1 := ⟨g - 1, by omega⟩
    rw [chunkedLoop_succ]
    simp only [lt_self_iff_false, if_false, List.length_cons, true_and]
    have hnot : ¬ ((encodeChunks cs ++ tail).length + 1 + 1 < 2) := by omega
    rw [if_neg hnot]
    have hsk : chunkSkip ⟨⟨s, c, hdrs, bo ++ d⟩, '\r' :: '\n' :: (encodeChunks cs ++ tail),
            fl, ph, csz, ch, 0, true⟩
        = ⟨⟨s, c, hdrs, bo ++ d⟩, encodeChunks cs ++ tail, fl, ph, csz, ch, 0, false⟩ := by
      simp [chunkSkip]
    rw [hsk]
    rw [ih _ g2 tail (fun x hx => hwf x (List.mem_cons_of_mem _ hx)) rfl rfl rfl
      (by simp only; omega)]
    have hfu := chunkLine_fuel g2 (g2 + 1 + 1)
      ⟨⟨s, c, hdrs, bo ++ d ++ chunksData cs⟩, tail, fl, ph, csz, ch, 0, false⟩
      (by simp only; simp only [List.length_append] at hblen hlen ⊢; omega)
      (by simp only; simp only [List.length_append] at hblen hlen ⊢; omega)
    simp only [chunksData, List.map_cons, List.flatten_cons, List.append_assoc] at hfu ⊢
    exact hfu

/-- A chunked response in which, after well-formed chunks, a chunk-size line
holds no leading hexadecimal number makes the read throw. -/
theorem processRead_bad_chunk (code : Nat) (reason : Bytes) (hs : List Bytes)
    (cs : List (Bytes × Bytes)) (bad after : Bytes) (hreason : ¬ clrf <:+: reason)
    (hhs : ∀ h ∈ hs, h ≠ [] ∧ ¬ clrf <:+: h ∧
      (IsContentLength h → ∃ v, stoi (headerValue h) = .ok v))
    (hch : ∃ h ∈ hs, IsChunked h) (hcs : ∀ c ∈ cs, WellFormedChunk c)
    (hcode : (code : Int) ≤ INT_MAX)
    (hline : ¬ clrf <:+: bad) (hbad : NoLeadingNumber 16 bad) :
    processRead initialState (responseBytes (statusLine code reason) hs
        (encodeChunks cs ++ (bad ++ '\r' :: '\n' :: after)))
      = .threw .invalid_argument := by
  rw [processRead_eq, initialState_append, responseBytes_eq]
  have hp0 : initialState.parsedHeaders = false := rfl
  simp only [hp0, Bool.false_eq_true, if_false, setData_responseData]
  have hwf : ∀ l ∈ statusLine code reason :: hs, l ≠ [] ∧ search l clrf = none := by
    intro l hl
    simp only [List.mem_cons] at hl
    rcases hl with rfl | hl
    · exact ⟨statusLine_ne_nil _ _, statusLine_no_clrf _ _ hreason⟩
    · exact ⟨(hhs l hl).1, search_clrf_absent _ (hhs l hl).2.1⟩
  rw [headerLoop_lines _ _ _ _ hwf (Nat.lt_succ_self _)]
  have hfl : initialState.firstLine = true := rfl
  simp only [foldLines, lineStep, hfl, if_true]
  rw [parseFirstLine_statusLine, if_pos hcode]
  simp only
  obtain ⟨s, h1, h2, h3, h4, h5, h6, h7⟩ := foldLines_benign hs
    { initialState with firstLine := false,
                        response := { initialState.response with code := (code : Int) } }
    rfl (fun h hh => (hhs h hh).2.2)
  rw [h1]
  simp only
  have hc : s.chunkedResponse = true := h7 (Or.inr hch)
  have he : s.expectedChunkSize = 0 := by rw [h5]; rfl
  have hr : s.removeCLRFAfterChunk = false := by rw [h6]; rfl
  have hS : bodyPhase (s.setData (encodeChunks cs ++ (bad ++ '\r' :: '\n' :: after))).endHeaders
      = chunkLine (encodeChunks cs ++ (bad ++ '\r' :: '\n' :: after)).length
          (s.setData (encodeChunks cs ++ (bad ++ '\r' :: '\n' :: after))).endHeaders := by
    simp only [bodyPhase, endHeaders_parsedHeaders, endHeaders_chunkedResponse,
      setData_chunkedResponse, hc, if_true, endHeaders_responseData, setData_responseData]
    rw [chunkedLoop_succ]
    simp only [endHeaders_expectedChunkSize, setData_expectedChunkSize, he, lt_self_iff_false,
      if_false, endHeaders_removeCLRFAfterChunk, setData_removeCLRFAfterChunk, hr,
      Bool.false_eq_true, false_and]
    rw [chunkSkip_of_not_flag _ (by simp [hr])]
  rw [hS, chunkLine_chunks_tail cs _ _ (bad ++ '\r' :: '\n' :: after) hcs (by simp)
    (by simp [hr]) (by simp [he]) (by simp)]
  unfold chunkLine
  simp only
  rw [search_clrf_line bad after (search_clrf_absent bad hline)]
  simp only [List.take_left', stoul16_no_number bad hbad]

/-- How the `::send` loop ends does not depend on the calls recorded before
it. -/
theorem sendLoop_end (fd : Int) (data : Bytes) : ∀ (script : List Int)
    (remaining sent : Int) (trace : List SockOp),
    (sendLoop fd data script remaining sent trace).1
      = (sendLoop fd data script remaining sent []).1 := by
  intro script
  induction script with
  | nil => intro remaining sent trace; simp [sendLoop]
  | cons size rest ih =>
    intro remaining sent trace
    simp only [sendLoop]
    split
    · rfl
    · split
      · rw [ih _ _ (trace ++ _), ih _ _ ([] ++ _)]
      · rfl

/-- When the protocol is `http`, the socket calls succeed and the request is
sent in full, `send` ends as its receive loop ends. -/
theorem send_outcome_recv (r : Request) (env : Env) (method body : Bytes)
    (headers : List Bytes) (hp : r.protocol = "http".toList)
    (hclose : r.socketFd = INVALID_SOCKET ∨ 0 ≤ env.closeResult)
    (hsock : env.socketResult ≠ INVALID_SOCKET) (haddr : env.getaddrinfoResult = 0)
    (hconn : 0 ≤ env.connectResult)
    (hsend : (sendLoop env.socketResult (requestData r method body headers) env.sendResults
      ((requestData r method body headers).length : Int) 0 []).1 = SendLoopEnd.completed) :
    (r.send env method body headers).outcome = (recvLoop env.recvResults initialState).1 := by
  unfold Request.send
  simp only [hp, ne_eq, not_true_eq_false, if_false]
  have hc : ¬ (¬ r.socketFd = INVALID_SOCKET ∧ env.closeResult < 0) := by
    intro h
    rcases hclose with h1 | h1
    · exact h.1 h1
    · omega
  rw [if_neg hc, if_neg hsock]
  simp only [haddr, not_true_eq_false, if_false]
  rw [if_neg (by omega)]
  have he := sendLoop_end env.socketResult (requestData r method body headers) env.sendResults
    ((requestData r method body headers).length : Int) 0
    ((if ¬ r.socketFd = INVALID_SOCKET then [SockOp.close r.socketFd] else [])
      ++ [SockOp.socket]
      ++ [SockOp.getaddrinfo r.domain (if r.port = [] then none else some r.port)]
      ++ [SockOp.connect env.socketResult])
  rw [hsend] at he
  split
  · rename_i tr heq
    rw [heq] at he
    exact absurd he (by simp)
  · rename_i tr heq
    rw [heq] at he
    exact absurd he (by simp)
  · rfl

/-- The receive loop never runs out of the budget of its inner loops. -/
theorem recvLoop_ne_outOfFuel : ∀ (script : List RecvResult) (st : ParseState),
    (recvLoop script st).1 ≠ Outcome.outOfFuel := by
  intro script
  induction script with
  | nil => intro st; simp [recvLoop]
  | cons r rest ih =>
    intro st
    cases r with
    | error => simp [recvLoop]
    | bytes data =>
      simp only [recvLoop]
      split
      · simp
      · cases h : processRead st data with
        | ok p =>
          obtain ⟨s, b⟩ := p
          cases b with
          | true => simp
          | false => exact ih s
        | threw e => simp
        | outOfFuel => exact absurd h (processRead_ne_outOfFuel _ _)

/-- An iteration of the header loop that goes round again has removed the
line and its CRLF from the pending buffer. -/
theorem headerLoop_step (f : Nat) (st s : ParseState) (i : Nat)
    (hs : search st.responseData clrf = some i) (hne : st.responseData.take i ≠ [])
    (hl : lineStep (st.responseData.take i) (st.setData (st.responseData.drop (i + 2)))
      = .ok s) :
    headerLoop (f + 1) st = headerLoop f s ∧
    s.responseData.length + (i + 2) = st.responseData.length := by
  rw [headerLoop_succ]
  simp only [hs, hne, if_false, hl, true_and]
  have hb := search_some_bound _ _ _ hs
  simp only [clrf, List.length_cons, List.length_nil] at hb
  rw [(lineStep_frame _ _ _ hl).1]
  simp only [setData_responseData, List.length_drop]
  omega

/-- An iteration of the chunked loop that moves chunk data and goes round
again has removed at least one byte from the pending buffer. -/
theorem chunkedLoop_step_write (f : Nat) (st : ParseState) (he : 0 < st.expectedChunkSize)
    (hd : (chunkWrite st).responseData ≠ []) :
    chunkedLoop (f + 1) st = chunkedLoop f (chunkWrite st) ∧
    (chunkWrite st).responseData.length < st.responseData.length := by
  rw [chunkedLoop_succ, if_pos he, if_neg hd]
  refine ⟨rfl, ?_⟩
  rw [chunkWrite_data] at hd ⊢
  have hpos : 0 < st.responseData.length := by
    rcases Nat.eq_zero_or_pos st.responseData.length with h | h
    · rw [List.length_eq_zero] at h
      rw [h] at hd
      simp at hd
    · exact h
  simp only [List.length_drop]
  omega

/-- An iteration of the chunked loop that reads a chunk-size line and goes
round again has removed the line and its CRLF from the pending buffer. -/
theorem chunkedLoop_step_line (f : Nat) (st : ParseState) (i n : Nat)
    (he : st.expectedChunkSize = 0)
    (hw : ¬ (st.removeCLRFAfterChunk = true ∧ st.responseData.length < 2))
    (hs : search (chunkSkip st).responseData clrf = some i)
    (hn : stoul16 ((chunkSkip st).responseData.take i) = .ok n) (hn0 : n ≠ 0) :
    chunkedLoop (f + 1) st
      = chunkedLoop f (((chunkSkip st).setData ((chunkSkip st).responseData.drop (i + 2))).setChunk n) ∧
    (((chunkSkip st).setData ((chunkSkip st).responseData.drop (i + 2))).setChunk n).responseData.length
      + (i + 2) ≤ st.responseData.length := by
  rw [chunkedLoop_succ, if_neg (by omega), if_neg hw]
  unfold chunkLine
  simp only [hs, hn, hn0, if_false, true_and]
  have hb := search_some_bound _ _ _ hs
  simp only [clrf, List.length_cons, List.length_nil] at hb
  have hk := chunkSkip_len st
  simp only [ParseState.setChunk, setData_responseData, List.length_drop]
  omega

/-- An iteration of the tokenizer loop advances the scan position. -/
theorem tokenizeLoop_step (line : Bytes) (f lastPos : Nat) (parts : List Bytes)
    (h : lastPos < line.length + 1) :
    tokenizeLoop line (f + 1) lastPos parts
      = tokenizeLoop line f ((find line [' '] lastPos).getD line.length + 1)
          (if (find line [' '] lastPos).getD line.length ≠ lastPos then
            parts ++ [substr line lastPos ((find line [' '] lastPos).getD line.length - lastPos)]
           else parts) ∧
    lastPos < (find line [' '] lastPos).getD line.length + 1 := by
  refine ⟨?_, ?_⟩
  · rw [tokenizeLoop]
    simp only [h, if_true]
  · have hle : lastPos ≤ line.length := by omega
    simp only [find, hle, if_true]
    cases search (List.drop lastPos line) [' '] with
    | none => simp only [Option.map_none', Option.getD_none]; omega
    | some k => simp only [Option.map_some', Option.getD_some]; omega

/-- A response without a `Content-Length` and without a chunked
`Transfer-Encoding` header, in non-empty reads of which the last brings the
end of the empty line: the receive loop returns at that read. -/
theorem recvLoop_plain_reads (code : Nat) (reason : Bytes)
    (hs : List Bytes) (b : Bytes) (earlier : List Bytes) (last : Bytes)
    (rest : List RecvResult)
    (hreason : ¬ clrf <:+: reason)
    (hhs : ∀ h ∈ hs, h ≠ [] ∧ ¬ clrf <:+: h ∧ ¬ IsContentLength h ∧ ¬ IsChunked h)
    (hcode : (code : Int) ≤ INT_MAX)
    (hne : ∀ r ∈ earlier, r ≠ []) (hl : last ≠ [])
    (hsplit : earlier.flatten ++ last = responseBytes (statusLine code reason) hs b)
    (hlast : earlier.flatten.length < (responseBytes (statusLine code reason) hs []).length) :
    recvLoop ((earlier ++ [last]).map RecvResult.bytes ++ rest) initialState
      = (Outcome.returned
          { succeeded := true
            code := code
            headers := hs
            body := b }, rest) := by
  have h1 := processRead_plain code reason hs b hreason hhs hcode
  rw [← hsplit] at h1
  have hlen := congrArg List.length hsplit
  rw [responseBytes_length, List.length_append] at hlen
  rw [recvLoop_reads_done_at_last earlier last initialState _ rest hne hl h1 rfl
    (Or.inl (by simp only [fixedFinal]; omega))]
  simp [fixedFinal]

theorem declaredSize_append_none (hs new : List Bytes)
    (h : ∀ x ∈ new, ¬ IsContentLength x) : declaredSize (hs ++ new) = declaredSize hs := by
  have hf : new.filter (fun h => decide (IsContentLength h)) = [] := by
    rw [List.filter_eq_nil_iff]
    intro x hx
    simpa using h x hx
  unfold declaredSize
  rw [List.filter_append, hf, List.append_nil]

theorem declaredSize_append_cl (hs : List Bytes) (h : Bytes) (hcl : IsContentLength h) :
    declaredSize (hs ++ [h]) = stoi (headerValue h) := by
  have hf : [h].filter (fun h => decide (IsContentLength h)) = [h] := by
    have hd : decide (IsContentLength h) = true := decide_eq_true hcl
    simp only [List.filter, hd]
  unfold declaredSize
  rw [List.filter_append, hf, List.getLast?_append]
  simp

/-- A line step records at most the line, changes the expected body size
only for a `Content-Length` line, and keeps the expected body size in step
with the recorded lines. -/
theorem lineStep_size (line : Bytes) (st s : ParseState) (h : lineStep line st = .ok s) :
    ∃ new, s.response.headers = st.response.headers ++ new ∧
      ((∀ x ∈ new, ¬ IsContentLength x) → s.contentSize = st.contentSize) ∧
      (declaredSize st.response.headers = .ok st.contentSize →
        declaredSize s.response.headers = .ok s.contentSize) := by
  unfold lineStep at h
  split at h
  · have hf := parseFirstLine_frame line st s h
    refine ⟨[], by rw [hf.2.2.2.1]; simp, fun _ => hf.2.2.2.2.2.1, ?_⟩
    intro hinv
    rw [hf.2.2.2.1, hf.2.2.2.2.2.1]
    exact hinv
  · have hf := parseHeaderLine_frame line st s h
    have hc := parseHeaderLine_contentSize line st s h
    refine ⟨[line], hf.2.2.2.1, ?_, ?_⟩
    · intro hn
      exact hc.1 (hn line (List.mem_singleton_self _))
    · intro hinv
      rw [hf.2.2.2.1]
      by_cases hcl : IsContentLength line
      · rw [declaredSize_append_cl _ _ hcl]
        exact hc.2 hcl
      · rw [declaredSize_append_none _ _ (by simpa using hcl), hc.1 hcl]
        exact hinv

/-- The header loop records lines at the end of the list, changes the
expected body size only when a `Content-Length` line is among them, and keeps
the expected body size in step with the recorded lines. -/
theorem headerLoop_size : ∀ (f : Nat) (st s : ParseState), headerLoop f st = .ok s →
    ∃ new, s.response.headers = st.response.headers ++ new ∧
      ((∀ x ∈ new, ¬ IsContentLength x) → s.contentSize = st.contentSize) ∧
      (declaredSize st.response.headers = .ok st.contentSize →
        declaredSize s.response.headers = .ok s.contentSize) := by
  intro f
  induction f with
  | zero => intro st s h; simp [headerLoop] at h
  | succ f ih =>
    intro st s h
    rw [headerLoop_succ] at h
    cases hs : search st.responseData clrf with
    | none =>
      simp only [hs, Res.ok.injEq] at h
      subst h
      exact ⟨[], by simp, fun _ => rfl, fun hinv => hinv⟩
    | some i =>
      simp only [hs] at h
      split at h
      · simp only [Res.ok.injEq] at h
        subst h
        exact ⟨[], by simp, fun _ => rfl, fun hinv => hinv⟩
      · cases hl : lineStep (List.take i st.responseData)
            (st.setData (List.drop (i + 2) st.responseData)) with
        | ok s1 =>
          simp only [hl] at h
          obtain ⟨n1, a1, b1, c1⟩ := lineStep_size _ _ _ hl
          obtain ⟨n2, a2, b2, c2⟩ := ih s1 s h
          simp only [setData_response, setData_contentSize] at a1 b1 c1
          refine ⟨n1 ++ n2, by rw [a2, a1, List.append_assoc], ?_, fun hinv => c2 (c1 hinv)⟩
          intro hn
          rw [b2 (fun x hx => hn x (List.mem_append_right _ hx)),
            b1 (fun x hx => hn x (List.mem_append_left _ hx))]
        | threw e => simp [hl] at h
        | outOfFuel => simp [hl] at h

/-- One read records header lines at the end of the list, none once the
headers are complete; it changes the expected body size only when a
`Content-Length` line is among them, and keeps the expected body size in step
with the recorded lines. -/
theorem processRead_size (st s : ParseState) (a : Bytes) (d : Bool)
    (h : processRead st a = .ok (s, d)) :
    ∃ new, s.response.headers = st.response.headers ++ new ∧
      ((∀ x ∈ new, ¬ IsContentLength x) → s.contentSize = st.contentSize) ∧
      (st.parsedHeaders = true → new = []) ∧
      (declaredSize st.response.headers = .ok st.contentSize →
        declaredSize s.response.headers = .ok s.contentSize) := by
  rw [processRead_eq] at h
  by_cases hp : st.parsedHeaders = true
  · rw [if_pos hp] at h
    have hsame := bodyPhase_same _ _ _ h
    simp only [ParseState.sameHeaderFields, append_contentSize, append_response] at hsame
    refine ⟨[], by rw [hsame.2.2.2.2.2.1]; simp, fun _ => hsame.2.2.1, fun _ => rfl, ?_⟩
    intro hinv
    rw [hsame.2.2.2.2.2.1, hsame.2.2.1]
    exact hinv
  · rw [if_neg hp] at h
    cases hh : headerLoop ((st.append a).responseData.length + 1) (st.append a) with
    | ok s2 =>
      simp only [hh] at h
      obtain ⟨new, a1, b1, c1⟩ := headerLoop_size _ _ _ hh
      simp only [append_response, append_contentSize] at a1 b1 c1
      have hsame := bodyPhase_same _ _ _ h
      simp only [ParseState.sameHeaderFields] at hsame
      refine ⟨new, by rw [hsame.2.2.2.2.2.1, a1], ?_, fun hp2 => absurd hp2 hp, ?_⟩
      · intro hn
        rw [hsame.2.2.1, b1 hn]
      · intro hinv
        rw [hsame.2.2.2.2.2.1, hsame.2.2.1]
        exact c1 hinv
    | threw e => simp only [hh, reduceCtorEq] at h
    | outOfFuel => simp only [hh, reduceCtorEq] at h

/-- After any number of reads the recorded headers are the header lines of
the bytes received, and the expected body size is the one they lead to. -/
theorem readStates_size : ∀ (ds : List Bytes) (st : ParseState) (R : Bytes) (k : Nat)
    (s : ParseState), HeaderInv st R →
    declaredSize st.response.headers = .ok st.contentSize →
    (readStates st ds)[k]? = some s →
    HeaderInv s (R ++ (ds.take (k + 1)).flatten) ∧
    declaredSize s.response.headers = .ok s.contentSize := by
  intro ds
  induction ds with
  | nil => intro st R k s _ _ h; simp [readStates] at h
  | cons d ds ih =>
    intro st R k s hinv hsz h
    unfold readStates at h
    cases hpr : processRead st d with
    | ok p =>
      obtain ⟨s1, b⟩ := p
      have hinv1 := processRead_headerInv st s1 R d b hinv hpr
      obtain ⟨new, -, -, -, hsz1⟩ := processRead_size st s1 d b hpr
      cases b with
      | true =>
        simp only [hpr] at h
        cases k with
        | zero =>
          simp only [List.getElem?_cons_zero, Option.some.injEq] at h
          subst h
          exact ⟨by simpa using hinv1, hsz1 hsz⟩
        | succ k => simp at h
      | false =>
        simp only [hpr] at h
        cases k with
        | zero =>
          simp only [List.getElem?_cons_zero, Option.some.injEq] at h
          subst h
          exact ⟨by simpa using hinv1, hsz1 hsz⟩
        | succ k =>
          simp only [List.getElem?_cons_succ] at h
          have := ih s1 (R ++ d) k s hinv1 (hsz1 hsz) h
          simpa [List.append_assoc] using this
    | threw e => simp [hpr] at h
    | outOfFuel => simp [hpr] at h

/-- When the script of reads has a read that returns 0, the receive loop
ends at that read or before: it returns a response with `succeeded = true`,
or an exception has left it, and the reads after the one that returned 0
are not made. -/
theorem recvLoop_close : ∀ (reads : List Bytes) (rest : List RecvResult) (st : ParseState),
    ((∃ r, (recvLoop (reads.map RecvResult.bytes ++ RecvResult.bytes [] :: rest) st).1
          = Outcome.returned r ∧ r.succeeded = true) ∨
      (∃ e, (recvLoop (reads.map RecvResult.bytes ++ RecvResult.bytes [] :: rest) st).1
          = Outcome.threw e)) ∧
    rest.length
      ≤ (recvLoop (reads.map RecvResult.bytes ++ RecvResult.bytes [] :: rest) st).2.length := by
  intro reads
  induction reads with
  | nil =>
    intro rest st
    simp only [List.map_nil, List.nil_append, recvLoop, if_true]
    exact ⟨Or.inl ⟨_, rfl, rfl⟩, le_refl _⟩
  | cons d ds ih =>
    intro rest st
    simp only [List.map_cons, List.cons_append, recvLoop]
    split
    · refine ⟨Or.inl ⟨_, rfl, rfl⟩, ?_⟩
      simp only [List.append_eq, List.length_append, List.length_map, List.length_cons]
      omega
    · cases hpr : processRead st d with
      | ok p =>
        obtain ⟨s, b⟩ := p
        cases b with
        | true =>
          refine ⟨Or.inl ⟨_, rfl, rfl⟩, ?_⟩
          simp only [List.append_eq, List.length_append, List.length_map, List.length_cons]
          omega
        | false => exact ih rest s
      | threw e =>
        refine ⟨Or.inr ⟨e, rfl⟩, ?_⟩
        simp only [List.append_eq, List.length_append, List.length_map, List.length_cons]
        omega
      | outOfFuel => exact absurd hpr (processRead_ne_outOfFuel _ _)

/-- A response with a chunked `Transfer-Encoding` header that arrives in one
read, whatever follows its empty line: the read amounts to the chunked loop
on what follows the empty line. -/
theorem processRead_chunked_any (code : Nat) (reason : Bytes) (hs : List Bytes) (b : Bytes)
    (hreason : ¬ clrf <:+: reason)
    (hhs : ∀ h ∈ hs, h ≠ [] ∧ ¬ clrf <:+: h ∧
      (IsContentLength h → ∃ v, stoi (headerValue h) = .ok v))
    (hch : ∃ h ∈ hs, IsChunked h) (hcode : (code : Int) ≤ INT_MAX) :
    ∃ c0, processRead initialState (responseBytes (statusLine code reason) hs b)
      = chunkedLoop (b.length + 1) (chunkedStart code hs c0 b) := by
  rw [processRead_eq, initialState_append, responseBytes_eq]
  have hp0 : initialState.parsedHeaders = false := rfl
  simp only [hp0, Bool.false_eq_true, if_false, setData_responseData]
  have hwf : ∀ l ∈ statusLine code reason :: hs, l ≠ [] ∧ search l clrf = none := by
    intro l hl
    simp only [List.mem_cons] at hl
    rcases hl with rfl | hl
    · exact ⟨statusLine_ne_nil _ _, statusLine_no_clrf _ _ hreason⟩
    · exact ⟨(hhs l hl).1, search_clrf_absent _ (hhs l hl).2.1⟩
  rw [headerLoop_lines _ _ _ _ hwf (Nat.lt_succ_self _)]
  have hfl : initialState.firstLine = true := rfl
  simp only [foldLines, lineStep, hfl, if_true]
  rw [parseFirstLine_statusLine, if_pos hcode]
  simp only
  obtain ⟨s, h1, h2, h3, h4, h5, h6, h7⟩ := foldLines_benign hs
    { initialState with firstLine := false,
                        response := { initialState.response with code := (code : Int) } }
    rfl (fun h hh => (hhs h hh).2.2)
  rw [h1]
  simp only
  have hc : s.chunkedResponse = true := h7 (Or.inr hch)
  refine ⟨s.contentSize, ?_⟩
  have hS : (s.setData b).endHeaders = chunkedStart code hs s.contentSize b := by
    rcases s with ⟨resp, d, fl, ph, cs, ch, e, rm⟩
    simp only at h2 h3 h5 h6 hc
    subst h2 h3 h5 h6 hc
    simp [ParseState.setData, ParseState.endHeaders, chunkedStart, initialState]
  rw [hS]
  simp only [bodyPhase, chunkedStart, if_true]

/-- A response with a chunked `Transfer-Encoding` header, whatever follows
its empty line and however it is split into reads: the receive loop ends as
the chunked loop on what follows the empty line makes it end, and that for
any expected body size. -/
theorem recvLoop_chunked_any (code : Nat) (reason : Bytes) (hs : List Bytes) (b : Bytes)
    (reads : List Bytes) (tail : List RecvResult) (c : Int)
    (hreason : ¬ clrf <:+: reason)
    (hhs : ∀ h ∈ hs, h ≠ [] ∧ ¬ clrf <:+: h ∧
      (IsContentLength h → ∃ v, stoi (headerValue h) = .ok v))
    (hch : ∃ h ∈ hs, IsChunked h) (hcode : (code : Int) ≤ INT_MAX)
    (hne : ∀ r ∈ reads, r ≠ [])
    (hsplit : reads.flatten = responseBytes (statusLine code reason) hs b) :
    (recvLoop (reads.map RecvResult.bytes ++ tail) initialState).1
      = afterRead tail (chunkedLoop (b.length + 1) (chunkedStart code hs c b)) := by
  have hsne : responseBytes (statusLine code reason) hs b ≠ [] := by
    simp [responseBytes, statusLine]
  have hrne : reads ≠ [] := by
    intro h; rw [h] at hsplit; exact hsne hsplit.symm
  obtain ⟨c0, h0⟩ := processRead_chunked_any code reason hs b hreason hhs hch hcode
  rw [← hsplit] at h0
  have hset : chunkedStart code hs c b = (chunkedStart code hs c0 b).setContentSize c := rfl
  rw [hset, chunkedLoop_setContentSize]
  cases hr : chunkedLoop (b.length + 1) (chunkedStart code hs c0 b) with
  | ok p =>
    obtain ⟨s, d⟩ := p
    rw [hr] at h0
    have hsame := chunkedLoop_same _ _ _ _ hr
    simp only [ParseState.sameHeaderFields] at hsame
    have hsp : s.parsedHeaders = true := by rw [hsame.1]; rfl
    have hsc : s.chunkedResponse = true := by rw [hsame.2.1]; rfl
    cases d with
    | true =>
      rw [recvLoop_reads_done_chunked reads initialState s tail hne hrne h0 hsc]
      rfl
    | false =>
      rw [recvLoop_reads_continue reads initialState s tail hne hrne h0]
      simp only [withContentSize, afterRead]
      rw [recvLoop_setContentSize tail s c hsp hsc]
  | threw e =>
    rw [hr] at h0
    rw [recvLoop_reads_threw reads initialState e tail hne hrne h0]
    rfl
  | outOfFuel =>
    exact absurd hr (chunkedLoop_fuel _ _ _ (Nat.lt_succ_self _) (Nat.lt_succ_self _)).2

/-! ## The properties -/

/-- C1: a well-formed fixed-length response delivered in one read (a status
line `HTTP/1.1 <decimal code> <reason>`, header lines that are non-empty and
contain no CR LF, exactly one of them a `Content-Length` header, which gives
the length of the body, none of them a chunked `Transfer-Encoding` header,
an empty line, the body) makes the receive loop of `send` return a response
with `succeeded = true`, the code, the header lines in order and the body.
The response fits the buffer of one `recv`, and the code fits an `int`. -/
theorem fixed_length_single_read (code : Nat) (reason : Bytes) (pre post : List Bytes)
    (body : Bytes) (rest : List RecvResult)
    (hreason : ¬ clrf <:+: reason)
    (hpre : ∀ h ∈ pre, h ≠ [] ∧ ¬ clrf <:+: h ∧ ¬ IsContentLength h ∧ ¬ IsChunked h)
    (hpost : ∀ h ∈ post, h ≠ [] ∧ ¬ clrf <:+: h ∧ ¬ IsContentLength h ∧ ¬ IsChunked h)
    (hcode : (code : Int) ≤ INT_MAX)
    (hread : (responseBytes (statusLine code reason)
      (pre ++ contentLengthHeader body.length :: post) body).length ≤ TEMP_BUFFER_SIZE) :
    recvLoop (RecvResult.bytes (responseBytes (statusLine code reason)
        (pre ++ contentLengthHeader body.length :: post) body) :: rest) initialState
      = (Outcome.returned
          { succeeded := true
            code := code
            headers := pre ++ contentLengthHeader body.length :: post
            body := body }, rest) := by
  have hn : (body.length : Int) ≤ INT_MAX := by
    have : body.length ≤ TEMP_BUFFER_SIZE := by
      simp only [responseBytes, List.length_append] at hread
      omega
    unfold TEMP_BUFFER_SIZE at this
    unfold INT_MAX
    omega
  have hne : responseBytes (statusLine code reason)
      (pre ++ contentLengthHeader body.length :: post) body ≠ [] := by
    simp [responseBytes, statusLine]
  rw [recvLoop, if_neg hne,
    processRead_fixed code body.length reason pre post body hreason hpre hpost hcode hn]
  simp [fixedFinal]

/-- The response `HTTP/1.1 200 OK`, `Content-Length: 5`, body `hello`, in one
read: code 200, one header, body `hello`. -/
theorem fixed_length_single_read_witness :
    recvLoop [RecvResult.bytes
        "HTTP/1.1 200 OK\r\nContent-Length: 5\r\n\r\nhello".toList] initialState
      = (Outcome.returned
          { succeeded := true
            code := 200
            headers := ["Content-Length: 5".toList]
            body := "hello".toList }, []) :=
  fixed_length_single_read 200 "OK".toList [] [] "hello".toList []
    (by decide) (by simp) (by simp) (by decide) (by decide)

/-- C2: boundary invariance. For a well-formed fixed-length response whose
`Content-Length` is the length of its body, however its bytes are split into
non-empty reads, the receive loop ends as it ends when the whole response
comes in a single read; and when the code and the length fit an `int`, it
returns the response with `succeeded = true`, the code, the header lines and
the body, having consumed exactly those reads. -/
theorem fixed_length_boundary_invariance (code : Nat) (reason : Bytes)
    (pre post : List Bytes) (body : Bytes) (reads : List Bytes) (rest : List RecvResult)
    (hreason : ¬ clrf <:+: reason)
    (hpre : ∀ h ∈ pre, h ≠ [] ∧ ¬ clrf <:+: h ∧ ¬ IsContentLength h ∧ ¬ IsChunked h)
    (hpost : ∀ h ∈ post, h ≠ [] ∧ ¬ clrf <:+: h ∧ ¬ IsContentLength h ∧ ¬ IsChunked h)
    (hne : ∀ r ∈ reads, r ≠ [])
    (hsplit : reads.flatten = responseBytes (statusLine code reason)
      (pre ++ contentLengthHeader body.length :: post) body) :
    (recvLoop (reads.map RecvResult.bytes ++ rest) initialState).1
      = (recvLoop (RecvResult.bytes (responseBytes (statusLine code reason)
          (pre ++ contentLengthHeader body.length :: post) body) :: rest) initialState).1 ∧
    ((code : Int) ≤ INT_MAX → (body.length : Int) ≤ INT_MAX →
      recvLoop (reads.map RecvResult.bytes ++ rest) initialState
        = (Outcome.returned
            { succeeded := true
              code := code
              headers := pre ++ contentLengthHeader body.length :: post
              body := body }, rest)) := by
  have hsne : responseBytes (statusLine code reason)
      (pre ++ contentLengthHeader body.length :: post) body ≠ [] := by
    simp [responseBytes, statusLine]
  have hrne : reads ≠ [] := by
    intro h; rw [h] at hsplit; exact hsne hsplit.symm
  have hgood : (code : Int) ≤ INT_MAX → (body.length : Int) ≤ INT_MAX →
      recvLoop (reads.map RecvResult.bytes ++ rest) initialState
        = (Outcome.returned
            { succeeded := true
              code := code
              headers := pre ++ contentLengthHeader body.length :: post
              body := body }, rest) := by
    intro hcode hn
    have h1 := processRead_fixed code body.length reason pre post body hreason hpre hpost
      hcode hn
    rw [← hsplit] at h1
    simp only [le_refl, decide_True] at h1
    have h2 := recvLoop_reads_done_fixed reads initialState _ rest hne hrne h1 rfl
      (by simp only [fixedFinal]; omega)
      (by simp only [fixedFinal]; rw [int_size_mod _ hn])
    rw [h2]
    simp [fixedFinal]
  refine ⟨?_, hgood⟩
  by_cases hcode : (code : Int) ≤ INT_MAX
  · by_cases hn : (body.length : Int) ≤ INT_MAX
    · rw [hgood hcode hn, recvLoop, if_neg hsne,
        processRead_fixed code body.length reason pre post body hreason hpre hpost hcode hn]
      simp [fixedFinal]
    · have h1 := processRead_fixed_big code body.length reason pre post body hreason hpre hpost
        (Or.inr (not_le.mp hn))
      rw [recvLoop, if_neg hsne, h1]
      rw [← hsplit] at h1
      exact recvLoop_reads_threw reads initialState _ rest hne hrne h1
  · have h1 := processRead_fixed_big code body.length reason pre post body hreason hpre hpost
      (Or.inl (not_le.mp hcode))
    rw [recvLoop, if_neg hsne, h1]
    rw [← hsplit] at h1
    exact recvLoop_reads_threw reads initialState _ rest hne hrne h1

/-- The response `HTTP/1.1 200 OK`, `Server: x`, `Content-Length: 5`, body
`hello`, delivered one byte per read, gives what the single read gives. -/
theorem fixed_length_boundary_invariance_witness :
    (recvLoop (("HTTP/1.1 200 OK\r\nServer: x\r\nContent-Length: 5\r\n\r\nhello".toList.map
        (fun c => [c])).map RecvResult.bytes ++ []) initialState).1
      = (recvLoop [RecvResult.bytes
          "HTTP/1.1 200 OK\r\nServer: x\r\nContent-Length: 5\r\n\r\nhello".toList]
          initialState).1 ∧
    ((200 : Int) ≤ INT_MAX → (("hello".toList.length : Nat) : Int) ≤ INT_MAX →
      recvLoop (("HTTP/1.1 200 OK\r\nServer: x\r\nContent-Length: 5\r\n\r\nhello".toList.map
        (fun c => [c])).map RecvResult.bytes ++ []) initialState
        = (Outcome.returned
            { succeeded := true
              code := 200
              headers := ["Server: x".toList, "Content-Length: 5".toList]
              body := "hello".toList }, [])) :=
  fixed_length_boundary_invariance 200 "OK".toList ["Server: x".toList] [] "hello".toList
    ("HTTP/1.1 200 OK\r\nServer: x\r\nContent-Length: 5\r\n\r\nhello".toList.map (fun c => [c]))
    [] (by decide) (by decide) (by simp) (by decide) (by decide)

/-- C3: chunked decoding is correct and independent of fragmentation. For a
well-formed chunked response (a status line, header lines among which is
`Transfer-Encoding: chunked`, an empty line, non-empty chunks each sent as
its size in hexadecimal, CR LF, its data, CR LF, then `0` CR LF CR LF),
however its bytes are split into non-empty reads, the receive loop returns
a response with `succeeded = true` whose body is the data of the chunks,
concatenated in order. -/
theorem chunked_decoding (code : Nat) (reason : Bytes) (hs : List Bytes)
    (cs : List (Bytes × Bytes)) (reads : List Bytes) (rest : List RecvResult)
    (hreason : ¬ clrf <:+: reason)
    (hhs : ∀ h ∈ hs, h ≠ [] ∧ ¬ clrf <:+: h ∧
      (IsContentLength h → ∃ v, stoi (headerValue h) = Res.ok v))
    (hch : chunkedHeader ∈ hs)
    (hcs : ∀ c ∈ cs, WellFormedChunk c)
    (hcode : (code : Int) ≤ INT_MAX)
    (hne : ∀ r ∈ reads, r ≠ [])
    (hsplit : reads.flatten = responseBytes (statusLine code reason) hs (chunkedBody cs)) :
    (recvLoop (reads.map RecvResult.bytes ++ rest) initialState).1
      = Outcome.returned
          { succeeded := true
            code := code
            headers := hs
            body := chunksData cs } := by
  have hsne : responseBytes (statusLine code reason) hs (chunkedBody cs) ≠ [] := by
    simp [responseBytes, statusLine]
  have hrne : reads ≠ [] := by
    intro h; rw [h] at hsplit; exact hsne hsplit.symm
  obtain ⟨stf, h1, h2, h3⟩ := processRead_chunked code reason hs cs hreason hhs
    ⟨chunkedHeader, hch, isChunked_chunkedHeader⟩ hcs hcode
  rw [← hsplit] at h1
  rw [recvLoop_reads_done_chunked reads initialState stf rest hne hrne h1 h2, h3]

/-- The response `HTTP/1.1 200 OK`, `Transfer-Encoding: chunked`, one chunk
`hello`, delivered one byte per read, gives the body `hello`. -/
theorem chunked_decoding_witness :
    (recvLoop
      (("HTTP/1.1 200 OK\r\nTransfer-Encoding: chunked\r\n\r\n5\r\nhello\r\n0\r\n\r\n".toList.map
        (fun c => [c])).map RecvResult.bytes ++ []) initialState).1
      = Outcome.returned
          { succeeded := true
            code := 200
            headers := ["Transfer-Encoding: chunked".toList]
            body := "hello".toList } :=
  chunked_decoding 200 "OK".toList [chunkedHeader] [("5".toList, "hello".toList)]
    ("HTTP/1.1 200 OK\r\nTransfer-Encoding: chunked\r\n\r\n5\r\nhello\r\n0\r\n\r\n".toList.map
      (fun c => [c]))
    [] (by decide)
    (by
      intro h hh
      simp only [List.mem_singleton] at hh
      subst hh
      exact ⟨by decide, by decide, fun hcl => absurd hcl (by decide)⟩)
    (by simp) (by decide) (by decide) (by decide) (by decide)

/-- C4, the claim as stated fails: after `HTTP/1.1 200 OK`, `Content-Length: 5`
and only the two body bytes `he`, a read that returns 0 makes the receive
loop return a response with `succeeded = true`, not a failed one. -/
theorem truncated_body_is_reported_as_success :
    (recvLoop [RecvResult.bytes "HTTP/1.1 200 OK\r\nContent-Length: 5\r\n\r\nhe".toList,
        RecvResult.bytes []] initialState).1
      = Outcome.returned
          { succeeded := true
            code := 200
            headers := ["Content-Length: 5".toList]
            body := "he".toList } ∧
    ¬ ∃ r, (recvLoop [RecvResult.bytes "HTTP/1.1 200 OK\r\nContent-Length: 5\r\n\r\nhe".toList,
        RecvResult.bytes []] initialState).1 = Outcome.returned r ∧ r.succeeded = false := by
  have h : (recvLoop [RecvResult.bytes "HTTP/1.1 200 OK\r\nContent-Length: 5\r\n\r\nhe".toList,
        RecvResult.bytes []] initialState).1
      = Outcome.returned
          { succeeded := true
            code := 200
            headers := ["Content-Length: 5".toList]
            body := "he".toList } := by decide
  refine ⟨h, ?_⟩
  rintro ⟨r, hr, hs⟩
  rw [h] at hr
  simp only [Outcome.returned.injEq] at hr
  rw [← hr] at hs
  cases hs

/-- C4, amended: a read that returns 0 is reported as a success. For every
sequence of reads that ends with one that returns 0, from any state of the
parser, the receive loop ends at that read or before and makes no read
after it; either an integer conversion has thrown, or it returns a response
with `succeeded = true`. If the bytes received before the close, taken as
one read, leave the parser waiting for more, then however they were split
into non-empty reads the response returned at the close is what was parsed
from them, with `succeeded = true`. In particular, for a status line
`HTTP/1.1 code reason` with `code` at most `INT_MAX`, header lines of which
one is `Content-Length: n` with `n` at most `INT_MAX` and the others are
neither `Content-Length` lines nor chunked `Transfer-Encoding` lines, and
fewer than `n` body bytes before the close, the response returned has that
code, those header lines, and as body exactly the body bytes received. -/
theorem truncated_body_returns_received_bytes :
    (∀ (reads : List Bytes) (rest : List RecvResult) (st : ParseState),
      ((∃ r, (recvLoop (reads.map RecvResult.bytes ++ RecvResult.bytes [] :: rest) st).1
            = Outcome.returned r ∧ r.succeeded = true) ∨
        (∃ e, (recvLoop (reads.map RecvResult.bytes ++ RecvResult.bytes [] :: rest) st).1
            = Outcome.threw e)) ∧
      rest.length
        ≤ (recvLoop (reads.map RecvResult.bytes ++ RecvResult.bytes [] :: rest) st).2.length) ∧
    (∀ (reads : List Bytes) (rest : List RecvResult) (st s : ParseState),
      (∀ r ∈ reads, r ≠ []) → reads ≠ [] →
      processRead st reads.flatten = Res.ok (s, false) →
      recvLoop (reads.map RecvResult.bytes ++ RecvResult.bytes [] :: rest) st
        = (Outcome.returned { s.response with succeeded := true }, rest)) ∧
    (∀ (code n : Nat) (reason : Bytes) (pre post : List Bytes) (part : Bytes)
      (reads : List Bytes) (rest : List RecvResult),
      ¬ clrf <:+: reason →
      (∀ h ∈ pre, h ≠ [] ∧ ¬ clrf <:+: h ∧ ¬ IsContentLength h ∧ ¬ IsChunked h) →
      (∀ h ∈ post, h ≠ [] ∧ ¬ clrf <:+: h ∧ ¬ IsContentLength h ∧ ¬ IsChunked h) →
      (code : Int) ≤ INT_MAX → (n : Int) ≤ INT_MAX →
      part.length < n →
      (∀ r ∈ reads, r ≠ []) →
      reads.flatten = responseBytes (statusLine code reason)
        (pre ++ contentLengthHeader n :: post) part →
      recvLoop (reads.map RecvResult.bytes ++ RecvResult.bytes [] :: rest) initialState
        = (Outcome.returned
            { succeeded := true
              code := code
              headers := pre ++ contentLengthHeader n :: post
              body := part }, rest)) := by
  refine ⟨recvLoop_close, ?_, ?_⟩
  · intro reads rest st s hne hrne h1
    rw [recvLoop_reads_continue reads st s _ hne hrne h1]
    simp [recvLoop]
  · intro code n reason pre post part reads rest hreason hpre hpost hcode hn hshort hne hsplit
    have hsne : responseBytes (statusLine code reason)
        (pre ++ contentLengthHeader n :: post) part ≠ [] := by
      simp [responseBytes, statusLine]
    have hrne : reads ≠ [] := by
      intro h; rw [h] at hsplit; exact hsne hsplit.symm
    have h1 := processRead_fixed code n reason pre post part hreason hpre hpost hcode hn
    rw [← hsplit] at h1
    have hd : decide (n ≤ part.length) = false := by
      simp only [decide_eq_false_iff_not]; omega
    rw [hd] at h1
    rw [recvLoop_reads_continue reads initialState _ _ hne hrne h1]
    simp [recvLoop, fixedFinal]

/-- The response `HTTP/1.1 200 OK`, `Content-Length: 5` with only `he`
received, one byte per read, before the peer closes; and the same response
cut in the middle of its header lines, in two reads, before the peer
closes: both are returned with `succeeded = true`. -/
theorem truncated_body_returns_received_bytes_witness :
    recvLoop (("HTTP/1.1 200 OK\r\nContent-Length: 5\r\n\r\nhe".toList.map
        (fun c => [c])).map RecvResult.bytes ++ RecvResult.bytes [] :: []) initialState
      = (Outcome.returned
          { succeeded := true
            code := 200
            headers := ["Content-Length: 5".toList]
            body := "he".toList }, []) ∧
    recvLoop (["HTTP/1.1 200 OK\r\nContent-Le".toList, "ngth: 5\r\nServ".toList].map
        RecvResult.bytes ++ RecvResult.bytes [] :: [RecvResult.bytes "er: x\r\n".toList])
        initialState
      = (Outcome.returned
          { succeeded := true
            code := 200
            headers := ["Content-Length: 5".toList]
            body := [] }, [RecvResult.bytes "er: x\r\n".toList]) :=
  ⟨truncated_body_returns_received_bytes.2.2 200 5 "OK".toList [] [] "he".toList
    ("HTTP/1.1 200 OK\r\nContent-Length: 5\r\n\r\nhe".toList.map (fun c => [c])) []
    (by decide) (by simp) (by simp) (by decide) (by decide) (by decide) (by decide) (by decide),
   truncated_body_returns_received_bytes.2.1
    ["HTTP/1.1 200 OK\r\nContent-Le".toList, "ngth: 5\r\nServ".toList]
    [RecvResult.bytes "er: x\r\n".toList] initialState
    { response := { succeeded := false, code := 200
                    headers := ["Content-Length: 5".toList], body := [] }
      responseData := "Serv".toList
      firstLine := false
      parsedHeaders := false
      contentSize := 5
      chunkedResponse := false
      expectedChunkSize := 0
      removeCLRFAfterChunk := false }
    (by decide) (by decide) (by decide)⟩

/-- C5: URL decomposition. For a scheme that does not contain `://`, a host
with neither `/` nor `:`, a port without `/` and a path that is empty or
starts with `/`, the constructor applied to scheme `://` host `:` port path
gives the scheme in lower case, the host, the port and the path; applied to
scheme `://` host path (no port) it gives the same protocol, domain and path
with the port `80`. -/
theorem url_decomposition (scheme host port path : Bytes)
    (hs : ¬ "://".toList <:+: scheme) (hh1 : '/' ∉ host) (hh2 : ':' ∉ host)
    (hp : '/' ∉ port) (hpath : path = [] ∨ ∃ p, path = '/' :: p) :
    Request.ctor (scheme ++ "://".toList ++ host ++ ":".toList ++ port ++ path)
      = { protocol := scheme.map tolower
          domain := host
          port := port
          path := path
          socketFd := INVALID_SOCKET } ∧
    Request.ctor (scheme ++ "://".toList ++ host ++ path)
      = { protocol := scheme.map tolower
          domain := host
          port := "80".toList
          path := path
          socketFd := INVALID_SOCKET } := by
  constructor
  · have ha : '/' ∉ host ++ ':' :: port := by
      simp only [List.mem_append, List.mem_cons, not_or]
      exact ⟨hh1, by decide, hp⟩
    have e : scheme ++ "://".toList ++ host ++ ":".toList ++ port ++ path
        = scheme ++ "://".toList ++ (host ++ ':' :: port) ++ path := by simp
    rw [e, ctor_parts scheme (host ++ ':' :: port) path hs ha hpath,
      search_char_append host port ':' hh2]
    simp
  · rw [ctor_parts scheme host path hs hh1 hpath, (search_char_none host ':').mpr hh2]

/-- The URLs `HTTP://example.com:8080/a/b` and `HTTP://example.com/a/b`. -/
theorem url_decomposition_witness :
    Request.ctor "HTTP://example.com:8080/a/b".toList
      = { protocol := "http".toList
          domain := "example.com".toList
          port := "8080".toList
          path := "/a/b".toList
          socketFd := INVALID_SOCKET } ∧
    Request.ctor "HTTP://example.com/a/b".toList
      = { protocol := "http".toList
          domain := "example.com".toList
          port := "80".toList
          path := "/a/b".toList
          socketFd := INVALID_SOCKET } :=
  url_decomposition "HTTP".toList "example.com".toList "8080".toList "/a/b".toList
    (by decide) (by decide) (by decide) (by decide) (Or.inr ⟨"a/b".toList, rfl⟩)

/-- C6, the claim as stated fails: the URL `example.com` contains no `://`,
and the constructor leaves the port at its default `80`, not empty. -/
theorem ctor_without_separator_port_not_empty :
    ¬ "://".toList <:+: "example.com".toList ∧
    (Request.ctor "example.com".toList).port = "80".toList ∧
    ¬ ((Request.ctor "example.com".toList).protocol = [] ∧
       (Request.ctor "example.com".toList).domain = [] ∧
       (Request.ctor "example.com".toList).port = [] ∧
       (Request.ctor "example.com".toList).path = []) := by
  decide

/-- C6, amended: for a URL that does not contain `://` the constructor leaves
the protocol, the domain and the path empty, and the port at its default
`80`. -/
theorem ctor_without_separator (url : Bytes) (h : ¬ "://".toList <:+: url) :
    Request.ctor url
      = { protocol := []
          domain := []
          port := "80".toList
          path := []
          socketFd := INVALID_SOCKET } := by
  unfold Request.ctor
  rw [find_zero, (search_none_iff _ _).mpr h]

/-- The URL `example.com`. -/
theorem ctor_without_separator_witness :
    Request.ctor "example.com".toList
      = { protocol := []
          domain := []
          port := "80".toList
          path := []
          socketFd := INVALID_SOCKET } :=
  ctor_without_separator "example.com".toList (by decide)

/-- C7: request serialisation. The bytes `send` builds for transmission are
the method, a space, the path, ` HTTP/1.1` CR LF, every additional header
followed by CR LF in the given order, `Host: ` domain CR LF,
`Content-Length: ` and the decimal length of the body CR LF, an empty line,
and the body. -/
theorem request_serialization (r : Request) (method body : Bytes) (headers : List Bytes) :
    requestData r method body headers
      = method ++ " ".toList ++ r.path ++ " HTTP/1.1\r\n".toList
        ++ (headers.map (fun h => h ++ "\r\n".toList)).flatten
        ++ "Host: ".toList ++ r.domain ++ "\r\n".toList
        ++ "Content-Length: ".toList ++ Nat.toDigits 10 body.length ++ "\r\n".toList
        ++ "\r\n".toList ++ body := by
  unfold requestData to_string
  have key : ∀ (hs : List Bytes) (acc : Bytes),
      hs.foldl (fun acc header => acc ++ (header ++ "\r\n".toList)) acc
        = acc ++ (hs.map (fun h => h ++ "\r\n".toList)).flatten := by
    intro hs
    induction hs with
    | nil => intro acc; simp
    | cons h t ih =>
      intro acc
      simp only [List.foldl_cons, List.map_cons, List.flatten_cons, ih, List.append_assoc]
  simp only [key, List.append_assoc]

/-- C8: unsupported protocol. When the protocol of the request is not exactly
`http`, `send` returns the default failed response and makes no socket call;
when it is `http`, `send` goes on to make socket calls; and a scheme that
becomes `http` in lower case gives the protocol `http`. -/
theorem send_protocol_check (r : Request) (env : Env) (method body : Bytes)
    (headers : List Bytes) (scheme rest : Bytes) :
    (r.protocol ≠ "http".toList →
      r.send env method body headers
        = { outcome := Outcome.returned
              { succeeded := false, code := 0, headers := [], body := [] }
            trace := []
            socketFd := r.socketFd }) ∧
    (r.protocol = "http".toList → (r.send env method body headers).trace ≠ []) ∧
    (¬ "://".toList <:+: scheme → scheme.map tolower = "http".toList →
      (Request.ctor (scheme ++ "://".toList ++ rest)).protocol = "http".toList) := by
  refine ⟨?_, ?_, ?_⟩
  · intro h
    unfold Request.send
    simp only [h, ne_eq, not_false_eq_true, if_true]
  · intro h
    unfold Request.send
    simp only [h, ne_eq, not_true_eq_false, if_false]
    split
    · rename_i hc
      simp only [hc.1, not_false_eq_true, if_true]
      simp
    · split
      · simp
      · split
        · simp
        · split
          · simp
          · have hne := sendLoop_trace_ne_nil env.socketResult (requestData r method body headers)
              env.sendResults ((requestData r method body headers).length : Int) 0
              ((if ¬ r.socketFd = INVALID_SOCKET then [SockOp.close r.socketFd] else [])
                ++ [SockOp.socket]
                ++ [SockOp.getaddrinfo r.domain (if r.port = [] then none else some r.port)]
                ++ [SockOp.connect env.socketResult])
            split
            · rename_i tr heq
              simp only [ne_eq] at heq hne
              rw [heq] at hne
              exact hne
            · rename_i tr heq
              simp only [ne_eq] at heq hne
              rw [heq] at hne
              exact hne
            · rename_i tr heq
              simp only [ne_eq] at heq hne
              rw [heq] at hne
              simp only [List.append_eq_nil, not_and]
              intro h0
              exact absurd h0 hne
  · intro hs hl
    rw [ctor_protocol scheme rest hs, hl]

/-- The URL `https://example.com/` is refused without a socket call; the URL
`HTTP://example.com/` gives the protocol `http` and `send` makes socket
calls. -/
theorem send_protocol_check_witness :
    ((Request.ctor "https://example.com/".toList).protocol ≠ "http".toList ∧
      (Request.ctor "https://example.com/".toList).send
          { closeResult := 0, socketResult := 3, getaddrinfoResult := 0, connectResult := 0
            sendResults := [100], recvResults := [RecvResult.bytes []] }
          "GET".toList [] []
        = { outcome := Outcome.returned
              { succeeded := false, code := 0, headers := [], body := [] }
            trace := []
            socketFd := INVALID_SOCKET }) ∧
    ((Request.ctor "HTTP://example.com/".toList).protocol = "http".toList ∧
      ((Request.ctor "HTTP://example.com/".toList).send
          { closeResult := 0, socketResult := 3, getaddrinfoResult := 0, connectResult := 0
            sendResults := [100], recvResults := [RecvResult.bytes []] }
          "GET".toList [] []).trace ≠ []) :=
  ⟨⟨by decide,
    (send_protocol_check (Request.ctor "https://example.com/".toList)
      { closeResult := 0, socketResult := 3, getaddrinfoResult := 0, connectResult := 0
        sendResults := [100], recvResults := [RecvResult.bytes []] }
      "GET".toList [] [] [] []).1 (by decide)⟩,
   ⟨(send_protocol_check (Request.ctor "HTTP://example.com/".toList)
      { closeResult := 0, socketResult := 3, getaddrinfoResult := 0, connectResult := 0
        sendResults := [100], recvResults := [RecvResult.bytes []] }
      "GET".toList [] [] "HTTP".toList "example.com/".toList).2.2 (by decide) (by decide),
    (send_protocol_check (Request.ctor "HTTP://example.com/".toList)
      { closeResult := 0, socketResult := 3, getaddrinfoResult := 0, connectResult := 0
        sendResults := [100], recvResults := [RecvResult.bytes []] }
      "GET".toList [] [] [] []).2.1 (by decide)⟩⟩

/-- C9: white-space trimming. For `n` that an `int` holds and strings `w1`,
`w2` of ASCII white space, the header line `Content-Length:` `w1` decimal(n)
`w2` sets the expected body size to `n`; and the value compared with
`chunked` is what follows the first colon with the white space at both ends
removed: `Transfer-Encoding:` `w1` `v` `w2`, for a value `v` without white
space at its ends, turns chunked mode on exactly when `v` is `chunked`. In
both cases the line is recorded as received. -/
theorem header_value_whitespace_trim (n : Nat) (w1 w2 : Bytes) (st : ParseState)
    (hn : (n : Int) ≤ INT_MAX)
    (hw1 : ∀ c ∈ w1, isspace c = true) (hw2 : ∀ c ∈ w2, isspace c = true) :
    parseHeaderLine ("Content-Length:".toList ++ w1 ++ Nat.toDigits 10 n ++ w2) st
      = Res.ok { st with
          response := { st.response with
            headers := st.response.headers
              ++ ["Content-Length:".toList ++ w1 ++ Nat.toDigits 10 n ++ w2] }
          contentSize := (n : Int) } ∧
    ∀ v : Bytes, (∀ c, v.head? = some c → isspace c = false) →
      (∀ c, v.getLast? = some c → isspace c = false) →
      parseHeaderLine ("Transfer-Encoding:".toList ++ w1 ++ v ++ w2) st
        = Res.ok { st with
            response := { st.response with
              headers := st.response.headers ++ ["Transfer-Encoding:".toList ++ w1 ++ v ++ w2] }
            chunkedResponse := if v = "chunked".toList then true else st.chunkedResponse } := by
  constructor
  · have hk := contentLength_padded n w1 w2 hw1 hw2
    unfold to_string at hk
    rw [parseHeaderLine_spec]
    simp only [IsContentLength, hk.1, if_true, hk.2]
    have := stoi_to_string n hn
    unfold to_string at this
    rw [this]
    rfl
  · intro v hv1 hv2
    have hk := transferEncoding_padded v w1 w2 hw1 hw2 hv1 hv2
    rw [parseHeaderLine_spec]
    have hncl : ¬ IsContentLength ("Transfer-Encoding:".toList ++ w1 ++ v ++ w2) := by
      simp only [IsContentLength, hk.1]
      decide
    rw [if_neg hncl]
    by_cases hv : v = "chunked".toList
    · have hc : IsChunked ("Transfer-Encoding:".toList ++ w1 ++ v ++ w2) := ⟨hk.1, by rw [hk.2, hv]⟩
      rw [if_pos hc, if_pos hv]
      rfl
    · have hc : ¬ IsChunked ("Transfer-Encoding:".toList ++ w1 ++ v ++ w2) := by
        intro h
        exact hv (by rw [← hk.2]; exact h.2)
      rw [if_neg hc, if_neg hv]
      rfl

/-- The header line `Content-Length:   5  ` gives the size 5, and
`Transfer-Encoding:   chunked  ` turns chunked mode on. -/
theorem header_value_whitespace_trim_witness :
    parseHeaderLine "Content-Length:   5  ".toList initialState
      = Res.ok { initialState with
          response := { initialState.response with
            headers := ["Content-Length:   5  ".toList] }
          contentSize := 5 } ∧
    parseHeaderLine "Transfer-Encoding:   chunked  ".toList initialState
      = Res.ok { initialState with
          response := { initialState.response with
            headers := ["Transfer-Encoding:   chunked  ".toList] }
          chunkedResponse := true } :=
  ⟨(header_value_whitespace_trim 5 "   ".toList "  ".toList initialState
      (by decide) (by decide) (by decide)).1,
   (header_value_whitespace_trim 5 "   ".toList "  ".toList initialState
      (by decide) (by decide) (by decide)).2 "chunked".toList (by decide) (by decide)⟩

/-- C10: headers are preserved verbatim. Whenever the receive loop returns a
response, whatever the reads were, its `headers` are exactly the CR LF
terminated lines of the bytes received that lie strictly between the first
line and the first empty line, in order and unmodified; lines without a
colon and lines with any name are among them, the first line never is. -/
theorem headers_preserved_verbatim (script : List RecvResult) (r : Response)
    (rest : List RecvResult)
    (h : recvLoop script initialState = (Outcome.returned r, rest)) :
    r.headers = headerLinesOf (receivedBytes (script.take (script.length - rest.length))) := by
  have := recvLoop_headers script initialState [] r rest headerInv_initial h
  simpa using this

/-- A response received in two reads, with a header line that has no colon
and one with white space at its end. -/
theorem headers_preserved_verbatim_witness :
    recvLoop [RecvResult.bytes "HTTP/1.1 200 OK\r\nno colon here\r\nServer:  a b ".toList,
        RecvResult.bytes " \r\nContent-Length: 2\r\n\r\nhi".toList] initialState
      = (Outcome.returned
          { succeeded := true
            code := 200
            headers := ["no colon here".toList, "Server:  a b  ".toList,
              "Content-Length: 2".toList]
            body := "hi".toList }, []) ∧
    ["no colon here".toList, "Server:  a b  ".toList, "Content-Length: 2".toList]
      = headerLinesOf (receivedBytes
          ([RecvResult.bytes "HTTP/1.1 200 OK\r\nno colon here\r\nServer:  a b ".toList,
            RecvResult.bytes " \r\nContent-Length: 2\r\n\r\nhi".toList].take (2 - 0))) :=
  ⟨by decide,
   headers_preserved_verbatim
    [RecvResult.bytes "HTTP/1.1 200 OK\r\nno colon here\r\nServer:  a b ".toList,
      RecvResult.bytes " \r\nContent-Length: 2\r\n\r\nhi".toList]
    { succeeded := true
      code := 200
      headers := ["no colon here".toList, "Server:  a b  ".toList, "Content-Length: 2".toList]
      body := "hi".toList }
    [] (by decide)⟩

/-- C12: stop at the first flush without `Content-Length`. For a response
with a status line and header lines none of which is a `Content-Length` or a
chunked `Transfer-Encoding` header, delivered in non-empty reads of which
the last is the one that brings the end of the empty line, the receive loop
returns at that read with `succeeded = true`; the body is exactly the bytes
`b` that came after the empty line with that read (possibly none), and no
further read is made: the rest of the script is left as it was. -/
theorem stop_at_first_flush_without_content_length (code : Nat) (reason : Bytes)
    (hs : List Bytes) (b : Bytes) (earlier : List Bytes) (last : Bytes)
    (rest : List RecvResult)
    (hreason : ¬ clrf <:+: reason)
    (hhs : ∀ h ∈ hs, h ≠ [] ∧ ¬ clrf <:+: h ∧ ¬ IsContentLength h ∧ ¬ IsChunked h)
    (hcode : (code : Int) ≤ INT_MAX)
    (hne : ∀ r ∈ earlier, r ≠ []) (hl : last ≠ [])
    (hsplit : earlier.flatten ++ last = responseBytes (statusLine code reason) hs b)
    (hlast : earlier.flatten.length < (responseBytes (statusLine code reason) hs []).length) :
    recvLoop ((earlier ++ [last]).map RecvResult.bytes ++ rest) initialState
      = (Outcome.returned
          { succeeded := true
            code := code
            headers := hs
            body := b }, rest) := by
  have h1 := processRead_plain code reason hs b hreason hhs hcode
  rw [← hsplit] at h1
  have hlen := congrArg List.length hsplit
  rw [responseBytes_length, List.length_append] at hlen
  rw [recvLoop_reads_done_at_last earlier last initialState _ rest hne hl h1 rfl
    (Or.inl (by simp only [fixedFinal]; omega))]
  simp [fixedFinal]

/-- The response `HTTP/1.1 200 OK`, `Server: x`, empty line, of which `hel`
comes with the read that brings the end of the empty line and `lo` comes
later: the body is `hel` and the read of `lo` is never made. -/
theorem stop_at_first_flush_without_content_length_witness :
    recvLoop (([ "HTTP/1.1 200 OK\r\nSer".toList ] ++ [ "ver: x\r\n\r\nhel".toList ]).map
        RecvResult.bytes ++ [RecvResult.bytes "lo".toList]) initialState
      = (Outcome.returned
          { succeeded := true
            code := 200
            headers := ["Server: x".toList]
            body := "hel".toList }, [RecvResult.bytes "lo".toList]) :=
  stop_at_first_flush_without_content_length 200 "OK".toList ["Server: x".toList] "hel".toList
    ["HTTP/1.1 200 OK\r\nSer".toList] "ver: x\r\n\r\nhel".toList [RecvResult.bytes "lo".toList]
    (by decide) (by decide) (by decide) (by decide) (by decide) (by decide) (by decide)

/-- C14: every byte after the headers goes to the body, without truncation.
For a response with `Content-Length: n` and no chunked `Transfer-Encoding`,
delivered in non-empty reads of which the last is the first to bring the
body received to `n` bytes or more, the receive loop returns at that read
and the body is all the bytes `b` received after the empty line: its length
is at least `n`, and it is more than `n` whenever more than `n` such bytes
had come. -/
theorem body_takes_every_byte_after_headers (code n : Nat) (reason : Bytes)
    (pre post : List Bytes) (b : Bytes) (earlier : List Bytes) (last : Bytes)
    (rest : List RecvResult)
    (hreason : ¬ clrf <:+: reason)
    (hpre : ∀ h ∈ pre, h ≠ [] ∧ ¬ clrf <:+: h ∧ ¬ IsContentLength h ∧ ¬ IsChunked h)
    (hpost : ∀ h ∈ post, h ≠ [] ∧ ¬ clrf <:+: h ∧ ¬ IsContentLength h ∧ ¬ IsChunked h)
    (hcode : (code : Int) ≤ INT_MAX) (hn : (n : Int) ≤ INT_MAX)
    (hne : ∀ r ∈ earlier, r ≠ []) (hl : last ≠ [])
    (hsplit : earlier.flatten ++ last
      = responseBytes (statusLine code reason) (pre ++ contentLengthHeader n :: post) b)
    (henough : n ≤ b.length)
    (hlast : earlier.flatten.length
      < (responseBytes (statusLine code reason)
          (pre ++ contentLengthHeader n :: post) []).length + n) :
    ∃ r, recvLoop ((earlier ++ [last]).map RecvResult.bytes ++ rest) initialState
        = (Outcome.returned r, rest) ∧
      r.succeeded = true ∧ r.body = b ∧ n ≤ r.body.length ∧
      (n < b.length → n < r.body.length) := by
  have h1 := processRead_fixed code n reason pre post b hreason hpre hpost hcode hn
  rw [← hsplit] at h1
  have hd : decide (n ≤ b.length) = true := by simpa using henough
  rw [hd] at h1
  have hlen := congrArg List.length hsplit
  rw [responseBytes_length, List.length_append] at hlen
  have h2 := recvLoop_reads_done_at_last earlier last initialState _ rest hne hl h1 rfl
    (Or.inr ⟨by simp only [fixedFinal]; omega,
      by simp only [fixedFinal]; rw [int_size_mod n hn]; omega⟩)
  refine ⟨_, h2, rfl, rfl, ?_, ?_⟩
  · simpa [fixedFinal] using henough
  · intro h; simpa [fixedFinal] using h

/-- The response `HTTP/1.1 200 OK`, `Content-Length: 3`, of which the last
read brings `lo!!` after `hel` was yet to come in full: the body is the six
bytes `hello!`, not cut to three. -/
theorem body_takes_every_byte_after_headers_witness :
    ∃ r, recvLoop (([ "HTTP/1.1 200 OK\r\nContent-Length: 3\r\n\r\nhe".toList ]
          ++ [ "llo!".toList ]).map RecvResult.bytes ++ []) initialState
        = (Outcome.returned r, []) ∧
      r.succeeded = true ∧ r.body = "hello!".toList ∧ 3 ≤ r.body.length ∧
      (3 < "hello!".toList.length → 3 < r.body.length) :=
  body_takes_every_byte_after_headers 200 3 "OK".toList [] [] "hello!".toList
    ["HTTP/1.1 200 OK\r\nContent-Length: 3\r\n\r\nhe".toList] "llo!".toList []
    (by decide) (by simp) (by simp) (by decide) (by decide) (by decide) (by decide)
    (by decide) (by decide) (by decide)

/-- C11, the claim as stated fails: with a `Content-Length` header of value
2147483648 next to `Transfer-Encoding: chunked`, before it or after it, the
conversion of the declared length throws `std::out_of_range` and no body is
decoded, whereas with `Content-Length: 9` the same chunked body is decoded:
the declared length does play a part. -/
theorem chunked_with_content_length_out_of_range :
    (recvLoop [RecvResult.bytes
        "HTTP/1.1 200 OK\r\nContent-Length: 2147483648\r\nTransfer-Encoding: chunked\r\n\r\n5\r\nhello\r\n0\r\n\r\n".toList]
        initialState).1 = Outcome.threw ParseError.out_of_range ∧
    (recvLoop [RecvResult.bytes
        "HTTP/1.1 200 OK\r\nTransfer-Encoding: chunked\r\nContent-Length: 2147483648\r\n\r\n5\r\nhello\r\n0\r\n\r\n".toList]
        initialState).1 = Outcome.threw ParseError.out_of_range ∧
    (recvLoop [RecvResult.bytes
        "HTTP/1.1 200 OK\r\nContent-Length: 9\r\nTransfer-Encoding: chunked\r\n\r\n5\r\nhello\r\n0\r\n\r\n".toList]
        initialState).1
      = Outcome.returned
          { succeeded := true
            code := 200
            headers := ["Content-Length: 9".toList, "Transfer-Encoding: chunked".toList]
            body := "hello".toList } := by
  decide

/-- C11, amended: chunked takes precedence when the declared length
converts. Take a response made of a status line `HTTP/1.1 code reason` with
`code` at most `INT_MAX`, header lines that contain both a `Content-Length`
line and a `Transfer-Encoding` line with value `chunked`, in either order,
and in which every `Content-Length` value is one that `std::stoi` converts,
an empty line, and any bytes `b` after it, split into non-empty reads in any
way. The receive loop ends as the chunked loop makes it end on `b`, and
that for every value of the expected body size; when `b` is well-formed
chunks and the terminal chunk, the response returned has as body the data
of the chunks; and from any state with the headers parsed and chunked mode
on, the receive loop behaves the same whatever the expected body size is. -/
theorem chunked_takes_precedence (code : Nat) (reason : Bytes) (hs : List Bytes)
    (b : Bytes) (reads : List Bytes) (tail : List RecvResult)
    (hreason : ¬ clrf <:+: reason)
    (hhs : ∀ h ∈ hs, h ≠ [] ∧ ¬ clrf <:+: h ∧
      (IsContentLength h → ∃ v, stoi (headerValue h) = Res.ok v))
    (_hcl : ∃ h ∈ hs, IsContentLength h) (hch : ∃ h ∈ hs, IsChunked h)
    (hcode : (code : Int) ≤ INT_MAX)
    (hne : ∀ r ∈ reads, r ≠ [])
    (hsplit : reads.flatten = responseBytes (statusLine code reason) hs b) :
    (∀ c : Int,
      (recvLoop (reads.map RecvResult.bytes ++ tail) initialState).1
        = afterRead tail (chunkedLoop (b.length + 1) (chunkedStart code hs c b))) ∧
    (∀ cs : List (Bytes × Bytes), (∀ c ∈ cs, WellFormedChunk c) → b = chunkedBody cs →
      (recvLoop (reads.map RecvResult.bytes ++ tail) initialState).1
        = Outcome.returned
            { succeeded := true
              code := code
              headers := hs
              body := chunksData cs }) ∧
    (∀ (st : ParseState) (c : Int) (script : List RecvResult),
      st.parsedHeaders = true → st.chunkedResponse = true →
      recvLoop script { st with contentSize := c } = recvLoop script st) := by
  refine ⟨?_, ?_, ?_⟩
  · intro c
    exact recvLoop_chunked_any code reason hs b reads tail c hreason hhs hch hcode hne hsplit
  · intro cs hcs hb
    subst hb
    have hsne : responseBytes (statusLine code reason) hs (chunkedBody cs) ≠ [] := by
      simp [responseBytes, statusLine]
    have hrne : reads ≠ [] := by
      intro h; rw [h] at hsplit; exact hsne hsplit.symm
    obtain ⟨stf, h1, h2, h3⟩ := processRead_chunked code reason hs cs hreason hhs hch hcs hcode
    rw [← hsplit] at h1
    rw [recvLoop_reads_done_chunked reads initialState stf tail hne hrne h1 h2, h3]
  · intro st c script hp hc
    exact recvLoop_setContentSize script st c hp hc

/-- The chunked body `hello` after the headers `Content-Length: 99`,
`Transfer-Encoding: chunked`, and after the same headers in the other order,
one byte per read: the body is `hello` both times. -/
theorem chunked_takes_precedence_witness :
    (recvLoop (("HTTP/1.1 200 OK\r\nContent-Length: 99\r\nTransfer-Encoding: chunked\r\n\r\n5\r\nhello\r\n0\r\n\r\n".toList.map
        (fun c => [c])).map RecvResult.bytes ++ []) initialState).1
      = Outcome.returned
          { succeeded := true
            code := 200
            headers := ["Content-Length: 99".toList, "Transfer-Encoding: chunked".toList]
            body := "hello".toList } ∧
    (recvLoop (("HTTP/1.1 200 OK\r\nTransfer-Encoding: chunked\r\nContent-Length: 99\r\n\r\n5\r\nhello\r\n0\r\n\r\n".toList.map
        (fun c => [c])).map RecvResult.bytes ++ []) initialState).1
      = Outcome.returned
          { succeeded := true
            code := 200
            headers := ["Transfer-Encoding: chunked".toList, "Content-Length: 99".toList]
            body := "hello".toList } :=
  ⟨(chunked_takes_precedence 200 "OK".toList
      [contentLengthHeader 99, chunkedHeader] "5\r\nhello\r\n0\r\n\r\n".toList
      ("HTTP/1.1 200 OK\r\nContent-Length: 99\r\nTransfer-Encoding: chunked\r\n\r\n5\r\nhello\r\n0\r\n\r\n".toList.map
        (fun c => [c]))
      [] (by decide)
      (by
        intro h hh
        simp only [List.mem_cons, List.mem_singleton, List.not_mem_nil, or_false] at hh
        rcases hh with rfl | rfl
        · exact ⟨by decide, by decide, fun _ => ⟨99, by decide⟩⟩
        · exact ⟨by decide, by decide, fun hcl => absurd hcl (by decide)⟩)
      (by decide) (by decide) (by decide) (by decide) (by decide)).2.1
      [("5".toList, "hello".toList)] (by decide) (by decide),
   (chunked_takes_precedence 200 "OK".toList
      [chunkedHeader, contentLengthHeader 99] "5\r\nhello\r\n0\r\n\r\n".toList
      ("HTTP/1.1 200 OK\r\nTransfer-Encoding: chunked\r\nContent-Length: 99\r\n\r\n5\r\nhello\r\n0\r\n\r\n".toList.map
        (fun c => [c]))
      [] (by decide)
      (by
        intro h hh
        simp only [List.mem_cons, List.mem_singleton, List.not_mem_nil, or_false] at hh
        rcases hh with rfl | rfl
        · exact ⟨by decide, by decide, fun hcl => absurd hcl (by decide)⟩
        · exact ⟨by decide, by decide, fun _ => ⟨99, by decide⟩⟩)
      (by decide) (by decide) (by decide) (by decide) (by decide)).2.1
      [("5".toList, "hello".toList)] (by decide) (by decide)⟩

/-- C13: status-line tokenization. The tokenizer loop, with its budget, gives
the pieces of the line between spaces with the empty pieces dropped. With
fewer than two tokens the first-line branch leaves the code as it is (0 at
that point of a response); with at least two it sets the code to what
`std::stoi` makes of the second token, which is `n` when the token is the
decimal digits of an `n` that an `int` holds. -/
theorem status_line_tokenization (line : Bytes) (st : ParseState) :
    tokenizeLoop line (line.length + 2) 0 []
      = Res.ok ((line.splitOn ' ').filter (fun t => decide (t ≠ []))) ∧
    (((line.splitOn ' ').filter (fun t => decide (t ≠ []))).length < 2 →
      parseFirstLine line st = Res.ok { st with firstLine := false }) ∧
    (∀ (t0 t1 : Bytes) (more : List Bytes),
      (line.splitOn ' ').filter (fun t => decide (t ≠ [])) = t0 :: t1 :: more →
      (∀ v, stoi t1 = Res.ok v →
        parseFirstLine line st
          = Res.ok { st with firstLine := false, response := { st.response with code := v } }) ∧
      (∀ n : Nat, t1 = Nat.toDigits 10 n → (n : Int) ≤ INT_MAX →
        parseFirstLine line st
          = Res.ok { st with
              firstLine := false, response := { st.response with code := (n : Int) } })) := by
  have htok := tokenizeLoop_line line
  rw [tokens_eq_split] at htok
  refine ⟨htok, ?_, ?_⟩
  · intro hlt
    unfold parseFirstLine
    rw [htok]
    simp only
    rw [if_neg (by omega)]
  · intro t0 t1 more hsplit
    have hv : ∀ v, stoi t1 = Res.ok v →
        parseFirstLine line st
          = Res.ok { st with
              firstLine := false, response := { st.response with code := v } } := by
      intro v hst
      unfold parseFirstLine
      rw [htok, hsplit]
      simp only [List.length_cons, Nat.le_add_left, if_true, List.getD_cons_succ,
        List.getD_cons_zero, hst]
    refine ⟨hv, ?_⟩
    intro n hn hle
    apply hv
    rw [hn]
    exact stoi_to_string n hle

/-- The first line `HTTP/1.1   404  Not Found` gives the code 404, and the
first line `HTTP/1.1` alone leaves the code at 0. -/
theorem status_line_tokenization_witness :
    parseFirstLine "HTTP/1.1   404  Not Found".toList initialState
      = Res.ok { initialState with
          firstLine := false, response := { initialState.response with code := 404 } } ∧
    parseFirstLine "HTTP/1.1".toList initialState
      = Res.ok { initialState with firstLine := false } :=
  ⟨((status_line_tokenization "HTTP/1.1   404  Not Found".toList initialState).2.2
      "HTTP/1.1".toList "404".toList ["Not".toList, "Found".toList] (by decide)).2 404
      (by decide) (by decide),
   (status_line_tokenization "HTTP/1.1".toList initialState).2.1 (by decide)⟩

/-- C15, the claim as stated fails: after `Content-Length: 5` has set the
expected body size to 5, a further header line `Content-Length: 7` sets it
to 7. -/
theorem content_size_changed_by_second_header :
    (readStates initialState
        ["HTTP/1.1 200 OK\r\nContent-Length: 5\r\n".toList,
         "Content-Length: 7\r\n".toList]).map (fun s => s.contentSize) = [5, 7] := by
  decide

/-- C15, amended: the expected body size follows the `Content-Length` lines.
After every read of a run that starts a response, the recorded headers are
the header lines received so far, and the expected body size is -1 when no
`Content-Length` line is among them, else what `std::stoi` makes of the value
of the last one: a later `Content-Length` line replaces an earlier one. It
changes at no other moment: a read changes it only if a `Content-Length`
line is among the header lines that the read records, and a read records
none once the headers are complete; a header line with another name and the
first line leave it as it is; and from a state with the headers complete
every later state has the same expected body size. -/
theorem content_size_set_by_content_length_lines_only :
    (∀ (reads : List Bytes) (k : Nat) (s : ParseState),
      (readStates initialState reads)[k]? = some s →
      s.response.headers = headerLinesOf (reads.take (k + 1)).flatten ∧
      declaredSize (headerLinesOf (reads.take (k + 1)).flatten) = Res.ok s.contentSize) ∧
    (∀ (st s : ParseState) (data : Bytes) (d : Bool),
      processRead st data = Res.ok (s, d) →
      ∃ new, s.response.headers = st.response.headers ++ new ∧
        ((∀ h ∈ new, ¬ IsContentLength h) → s.contentSize = st.contentSize) ∧
        (st.parsedHeaders = true → new = [])) ∧
    (∀ (h : Bytes) (st s : ParseState), parseHeaderLine h st = Res.ok s →
      (¬ IsContentLength h → s.contentSize = st.contentSize) ∧
      (IsContentLength h → stoi (headerValue h) = Res.ok s.contentSize)) ∧
    (∀ (line : Bytes) (st s : ParseState), parseFirstLine line st = Res.ok s →
      s.contentSize = st.contentSize) ∧
    (∀ (st : ParseState) (reads : List Bytes), st.parsedHeaders = true →
      ∀ t ∈ readStates st reads, t.contentSize = st.contentSize) := by
  refine ⟨?_, ?_, ?_, ?_, ?_⟩
  · intro reads k s h
    have hi := readStates_size reads initialState [] k s headerInv_initial rfl h
    simp only [List.nil_append] at hi
    have hh := headerInv_headers s _ hi.1
    refine ⟨hh, ?_⟩
    rw [← hh]
    exact hi.2
  · intro st s data d h
    obtain ⟨new, h1, h2, h3, -⟩ := processRead_size st s data d h
    exact ⟨new, h1, h2, h3⟩
  · intro h st s hok
    exact parseHeaderLine_contentSize h st s hok
  · intro line st s hok
    exact (parseFirstLine_frame line st s hok).2.2.2.2.2.1
  · intro st reads hp t ht
    exact (readStates_same reads st hp t ht).2.2.1

/-- A response whose header lines `Content-Length: 5`, `Content-Length: 7`
and `Server: x` come in two reads, followed by the body bytes `ab` and, in a
third read, by the body bytes `Content-Length: 9` CR LF: the expected body
size is 5, then 7, then still 7, which is the value of the last
`Content-Length` line among the header lines received. -/
theorem content_size_set_by_content_length_lines_only_witness :
    (readStates initialState
        ["HTTP/1.1 200 OK\r\nContent-Length: 5\r\nCont".toList,
         "ent-Length: 7\r\nServer: x\r\n\r\nab".toList,
         "Content-Length: 9\r\n".toList]).map (fun s => s.contentSize) = [5, 7, 7] ∧
    declaredSize (headerLinesOf
        (["HTTP/1.1 200 OK\r\nContent-Length: 5\r\nCont".toList,
          "ent-Length: 7\r\nServer: x\r\n\r\nab".toList,
          "Content-Length: 9\r\n".toList].take (2 + 1)).flatten) = Res.ok 7 :=
  ⟨by decide,
   (content_size_set_by_content_length_lines_only.1
      ["HTTP/1.1 200 OK\r\nContent-Length: 5\r\nCont".toList,
       "ent-Length: 7\r\nServer: x\r\n\r\nab".toList,
       "Content-Length: 9\r\n".toList] 2
      (fixedFinal 200
        ["Content-Length: 5".toList, "Content-Length: 7".toList, "Server: x".toList] 7
        "abContent-Length: 9\r\n".toList)
      (by decide)).2⟩

/-- C16: header parsing is final. Once `parsedHeaders` is true, after every
later read it is still true and the code, the headers, the chunked flag and
the expected body size are what they were; and the response the receive
loop returns has that code and those headers. Body bytes are never read as
a status line or a header line. -/
theorem header_parsing_is_final (st : ParseState) (reads : List Bytes)
    (script : List RecvResult) (hp : st.parsedHeaders = true) :
    (∀ s ∈ readStates st reads,
      s.parsedHeaders = true ∧ s.response.code = st.response.code ∧
      s.response.headers = st.response.headers ∧
      s.chunkedResponse = st.chunkedResponse ∧ s.contentSize = st.contentSize) ∧
    (∀ r rest, recvLoop script st = (Outcome.returned r, rest) →
      r.code = st.response.code ∧ r.headers = st.response.headers) := by
  constructor
  · intro s hs
    have h := readStates_same reads st hp s hs
    exact ⟨by rw [h.1]; exact hp, h.2.2.2.2.1, h.2.2.2.2.2.1, h.2.1, h.2.2.1⟩
  · intro r rest h
    exact recvLoop_parsed_response script st r rest hp h

/-- After the headers `HTTP/1.1 200 OK`, `Content-Length: 80`, the body bytes
`HTTP/1.1 404 Not Found` CR LF `Content-Length: 9` CR LF
`Transfer-Encoding: chunked` CR LF, in two reads and then a close, leave the
code at 200, the one header, and go to the body. -/
theorem header_parsing_is_final_witness :
    (fixedFinal 200 ["Content-Length: 80".toList] 80 []).parsedHeaders = true ∧
    (∀ s ∈ readStates (fixedFinal 200 ["Content-Length: 80".toList] 80 [])
        ["HTTP/1.1 404 Not Found\r\nContent-Length: 9\r\n".toList,
         "Transfer-Encoding: chunked\r\n".toList],
      s.parsedHeaders = true ∧ s.response.code = 200 ∧
      s.response.headers = ["Content-Length: 80".toList] ∧
      s.chunkedResponse = false ∧ s.contentSize = 80) ∧
    recvLoop [RecvResult.bytes "HTTP/1.1 404 Not Found\r\nContent-Length: 9\r\n".toList,
        RecvResult.bytes "Transfer-Encoding: chunked\r\n".toList, RecvResult.bytes []]
        (fixedFinal 200 ["Content-Length: 80".toList] 80 [])
      = (Outcome.returned
          { succeeded := true
            code := 200
            headers := ["Content-Length: 80".toList]
            body :=
              "HTTP/1.1 404 Not Found\r\nContent-Length: 9\r\nTransfer-Encoding: chunked\r\n".toList },
          []) :=
  ⟨rfl,
   (header_parsing_is_final (fixedFinal 200 ["Content-Length: 80".toList] 80 [])
      ["HTTP/1.1 404 Not Found\r\nContent-Length: 9\r\n".toList,
       "Transfer-Encoding: chunked\r\n".toList] [] rfl).1,
   by decide⟩

/-- C17: first in, first out. After the header loop, after the chunked loop,
and after a whole read, the pending buffer is what was pending before (with
the bytes read appended) less some bytes taken off its head; and after any
number of reads from the start, the bytes consumed so far followed by the
pending bytes are the bytes received so far. -/
theorem fifo_consumption (st : ParseState) (data : Bytes) (reads : List Bytes) :
    (∀ f s, headerLoop f st = Res.ok s →
      ∃ consumed, st.responseData = consumed ++ s.responseData) ∧
    (∀ f s d, chunkedLoop f st = Res.ok (s, d) →
      ∃ consumed, st.responseData = consumed ++ s.responseData) ∧
    (∀ s d, processRead st data = Res.ok (s, d) →
      ∃ consumed, st.responseData ++ data = consumed ++ s.responseData) ∧
    (∀ k s, (readStates initialState reads)[k]? = some s →
      ∃ consumed, (reads.take (k + 1)).flatten = consumed ++ s.responseData) := by
  refine ⟨?_, ?_, ?_, ?_⟩
  · intro f s h
    obtain ⟨t, ht⟩ := headerLoop_suffix f st s h
    exact ⟨t, ht.symm⟩
  · intro f s d h
    obtain ⟨t, ht⟩ := chunkedLoop_suffix f st s d h
    exact ⟨t, ht.symm⟩
  · intro s d h
    obtain ⟨t, ht⟩ := processRead_suffix st s data d h
    exact ⟨t, ht.symm⟩
  · intro k s h
    obtain ⟨t, ht⟩ := readStates_suffix reads initialState k s h
    refine ⟨t, ?_⟩
    rw [ht]
    simp [initialState]

/-- A chunked response cut in the middle of a chunk-size line: after the two
reads the pending bytes `1` are the tail of the bytes received. -/
theorem fifo_consumption_witness :
    (readStates initialState
        ["HTTP/1.1 200 OK\r\nTransfer-Enc".toList,
         "oding: chunked\r\n\r\n3\r\nabc\r\n1".toList])[1]?
      = some
          { response := { succeeded := false, code := 200
                          headers := ["Transfer-Encoding: chunked".toList]
                          body := "abc".toList }
            responseData := "1".toList
            firstLine := false
            parsedHeaders := true
            contentSize := -1
            chunkedResponse := true
            expectedChunkSize := 0
            removeCLRFAfterChunk := false } ∧
    ∃ consumed,
      (["HTTP/1.1 200 OK\r\nTransfer-Enc".toList,
        "oding: chunked\r\n\r\n3\r\nabc\r\n1".toList].take (1 + 1)).flatten
        = consumed ++ "1".toList :=
  ⟨by decide,
   (fifo_consumption initialState []
      ["HTTP/1.1 200 OK\r\nTransfer-Enc".toList,
       "oding: chunked\r\n\r\n3\r\nabc\r\n1".toList]).2.2.2 1
      { response := { succeeded := false, code := 200
                      headers := ["Transfer-Encoding: chunked".toList]
                      body := "abc".toList }
        responseData := "1".toList
        firstLine := false
        parsedHeaders := true
        contentSize := -1
        chunkedResponse := true
        expectedChunkSize := 0
        removeCLRFAfterChunk := false }
      (by decide)⟩

/-- C18: malformed integers are a hard parse failure. Take a call of `send`
that gets as far as its receive loop (protocol `http`, the socket calls
succeed, the request is sent in full) and then receives non-empty reads.
If the bytes received start with a first line whose second token holds no
leading decimal number, or are a chunked response in which, after
well-formed chunks, a chunk-size line holds no leading hexadecimal number
(an empty line or `zz`, say), then `send` ends with the exception
`std::invalid_argument` of the conversion: it returns no `Response`. -/
theorem malformed_integer_is_a_hard_failure (r : Request) (env : Env) (method body : Bytes)
    (headers : List Bytes) (reads : List Bytes) (tail : List RecvResult)
    (hp : r.protocol = "http".toList)
    (hclose : r.socketFd = INVALID_SOCKET ∨ 0 ≤ env.closeResult)
    (hsock : env.socketResult ≠ INVALID_SOCKET) (haddr : env.getaddrinfoResult = 0)
    (hconn : 0 ≤ env.connectResult)
    (hsend : (sendLoop env.socketResult (requestData r method body headers) env.sendResults
      ((requestData r method body headers).length : Int) 0 []).1 = SendLoopEnd.completed)
    (hrecv : env.recvResults = reads.map RecvResult.bytes ++ tail)
    (hne : ∀ x ∈ reads, x ≠ []) :
    (∀ (line t0 tok after : Bytes) (more : List Bytes),
      ¬ clrf <:+: line →
      (line.splitOn ' ').filter (fun t => decide (t ≠ [])) = t0 :: tok :: more →
      NoLeadingNumber 10 tok →
      reads.flatten = line ++ '\r' :: '\n' :: after →
      (r.send env method body headers).outcome = Outcome.threw ParseError.invalid_argument ∧
      ∀ resp, (r.send env method body headers).outcome ≠ Outcome.returned resp) ∧
    (∀ (code : Nat) (reason : Bytes) (hs : List Bytes) (cs : List (Bytes × Bytes))
      (bad after : Bytes),
      ¬ clrf <:+: reason →
      (∀ h ∈ hs, h ≠ [] ∧ ¬ clrf <:+: h ∧
        (IsContentLength h → ∃ v, stoi (headerValue h) = Res.ok v)) →
      chunkedHeader ∈ hs →
      (∀ c ∈ cs, WellFormedChunk c) →
      (code : Int) ≤ INT_MAX →
      ¬ clrf <:+: bad →
      NoLeadingNumber 16 bad →
      reads.flatten = responseBytes (statusLine code reason) hs
        (encodeChunks cs ++ (bad ++ '\r' :: '\n' :: after)) →
      (r.send env method body headers).outcome = Outcome.threw ParseError.invalid_argument ∧
      ∀ resp, (r.send env method body headers).outcome ≠ Outcome.returned resp) := by
  have hout := send_outcome_recv r env method body headers hp hclose hsock haddr hconn hsend
  rw [hrecv] at hout
  have key : processRead initialState reads.flatten = .threw .invalid_argument →
      (r.send env method body headers).outcome = Outcome.threw ParseError.invalid_argument ∧
      ∀ resp, (r.send env method body headers).outcome ≠ Outcome.returned resp := by
    intro hpr
    have hrne : reads ≠ [] := by
      intro h
      rw [h] at hpr
      have h0 : processRead initialState ([] : List Bytes).flatten = .ok (initialState, false) := by
        decide
      rw [h0] at hpr
      cases hpr
    have hthrow := recvLoop_reads_threw reads initialState _ tail hne hrne hpr
    rw [hout, hthrow]
    exact ⟨rfl, fun resp h => by cases h⟩
  refine ⟨?_, ?_⟩
  · intro line t0 tok after more hline htok hbad hflat
    apply key
    rw [hflat]
    exact processRead_bad_status line t0 tok after more hline
      (by rw [tokens_eq_split]; exact htok) hbad
  · intro code reason hs cs bad after hreason hhs hch hcs hcode hline hbad hflat
    apply key
    rw [hflat]
    exact processRead_bad_chunk code reason hs cs bad after hreason hhs
      ⟨chunkedHeader, hch, isChunked_chunkedHeader⟩ hcs hcode hline hbad

/-- A request to `http://example.com/` whose answer starts with the first
line `HTTP/1.1 abc OK`, in two reads, and one whose chunked answer has the
chunk-size line `zz` after the chunk `hello`: both calls end with
`std::invalid_argument`. -/
theorem malformed_integer_is_a_hard_failure_witness :
    ((Request.ctor "http://example.com/".toList).send
        { closeResult := 0, socketResult := 3, getaddrinfoResult := 0, connectResult := 0
          sendResults := [100]
          recvResults := ["HTTP/1.1 a".toList, "bc OK\r\nServer: x\r\n".toList].map
            RecvResult.bytes ++ [RecvResult.bytes []] }
        "GET".toList [] []).outcome = Outcome.threw ParseError.invalid_argument ∧
    ((Request.ctor "http://example.com/".toList).send
        { closeResult := 0, socketResult := 3, getaddrinfoResult := 0, connectResult := 0
          sendResults := [100]
          recvResults :=
            ["HTTP/1.1 200 OK\r\nTransfer-Encoding: chunked\r\n\r\n5\r\nhello\r\nzz\r\n".toList].map
              RecvResult.bytes ++ [] }
        "GET".toList [] []).outcome = Outcome.threw ParseError.invalid_argument :=
  ⟨((malformed_integer_is_a_hard_failure (Request.ctor "http://example.com/".toList)
      { closeResult := 0, socketResult := 3, getaddrinfoResult := 0, connectResult := 0
        sendResults := [100]
        recvResults := ["HTTP/1.1 a".toList, "bc OK\r\nServer: x\r\n".toList].map
          RecvResult.bytes ++ [RecvResult.bytes []] }
      "GET".toList [] [] ["HTTP/1.1 a".toList, "bc OK\r\nServer: x\r\n".toList]
      [RecvResult.bytes []]
      (by decide) (Or.inl (by decide)) (by decide) (by decide) (by decide) (by decide) rfl
      (by decide)).1
      "HTTP/1.1 abc OK".toList "HTTP/1.1".toList "abc".toList "Server: x\r\n".toList
      ["OK".toList] (by decide) (by decide) (by decide) (by decide)).1,
   ((malformed_integer_is_a_hard_failure (Request.ctor "http://example.com/".toList)
      { closeResult := 0, socketResult := 3, getaddrinfoResult := 0, connectResult := 0
        sendResults := [100]
        recvResults :=
          ["HTTP/1.1 200 OK\r\nTransfer-Encoding: chunked\r\n\r\n5\r\nhello\r\nzz\r\n".toList].map
            RecvResult.bytes ++ [] }
      "GET".toList [] []
      ["HTTP/1.1 200 OK\r\nTransfer-Encoding: chunked\r\n\r\n5\r\nhello\r\nzz\r\n".toList] []
      (by decide) (Or.inl (by decide)) (by decide) (by decide) (by decide) (by decide) rfl
      (by decide)).2
      200 "OK".toList [chunkedHeader] [("5".toList, "hello".toList)] "zz".toList []
      (by decide)
      (by
        intro h hh
        simp only [List.mem_singleton] at hh
        subst hh
        exact ⟨by decide, by decide, fun hcl => absurd hcl (by decide)⟩)
      (by simp) (by decide) (by decide) (by decide) (by decide) (by decide)).1⟩

/-- C19: the significant header names are matched exactly, with their case.
A header line that is parsed is always recorded; it changes `contentSize`
only if the text before its first colon is exactly `Content-Length`, and it
changes `chunkedResponse` only if that text is exactly `Transfer-Encoding`
and the trimmed value is exactly `chunked`. Hence a response all of whose
header lines are spelled otherwise is parsed as one without those headers:
each line is only recorded, `contentSize` stays -1 and `chunkedResponse`
stays false, and the receive loop returns, at the read that brings the end
of the empty line, the same response as for no header lines but with the
lines recorded. -/
theorem significant_headers_matched_exactly (code : Nat) (reason : Bytes)
    (hs : List Bytes) (b : Bytes) (earlier : List Bytes) (last : Bytes)
    (rest : List RecvResult)
    (hreason : ¬ clrf <:+: reason)
    (hhs : ∀ h ∈ hs, h ≠ [] ∧ ¬ clrf <:+: h ∧
      headerName h ≠ some "Content-Length".toList ∧
      ¬ (headerName h = some "Transfer-Encoding".toList ∧ headerValue h = "chunked".toList))
    (hcode : (code : Int) ≤ INT_MAX)
    (hne : ∀ r ∈ earlier, r ≠ []) (hl : last ≠ [])
    (hsplit : earlier.flatten ++ last = responseBytes (statusLine code reason) hs b)
    (hlast : earlier.flatten.length < (responseBytes (statusLine code reason) hs []).length) :
    (∀ (h : Bytes) (st s : ParseState), parseHeaderLine h st = Res.ok s →
      s.response.headers = st.response.headers ++ [h] ∧
      (s.contentSize ≠ st.contentSize → headerName h = some "Content-Length".toList) ∧
      (s.chunkedResponse ≠ st.chunkedResponse →
        headerName h = some "Transfer-Encoding".toList ∧ headerValue h = "chunked".toList)) ∧
    (∀ h ∈ hs, ∀ st : ParseState,
      parseHeaderLine h st
        = Res.ok { st with
            response := { st.response with headers := st.response.headers ++ [h] } }) ∧
    processRead initialState (responseBytes (statusLine code reason) hs b)
      = Res.ok ({ response := { succeeded := false, code := code, headers := hs, body := b }
                  responseData := []
                  firstLine := false
                  parsedHeaders := true
                  contentSize := -1
                  chunkedResponse := false
                  expectedChunkSize := 0
                  removeCLRFAfterChunk := false }, true) ∧
    recvLoop [RecvResult.bytes (responseBytes (statusLine code reason) [] b)] initialState
      = (Outcome.returned { succeeded := true, code := code, headers := [], body := b }, []) ∧
    recvLoop ((earlier ++ [last]).map RecvResult.bytes ++ rest) initialState
      = (Outcome.returned { succeeded := true, code := code, headers := hs, body := b },
          rest) := by
  refine ⟨?_, ?_, ?_, ?_, ?_⟩
  · intro h st s hok
    rw [parseHeaderLine_spec] at hok
    by_cases hcl : IsContentLength h
    · rw [if_pos hcl] at hok
      cases hst : stoi (headerValue h) with
      | ok v =>
        simp only [hst, Res.map, Res.ok.injEq] at hok
        subst hok
        exact ⟨rfl, fun _ => hcl, fun hne => absurd rfl hne⟩
      | threw e => simp [hst, Res.map] at hok
      | outOfFuel => simp [hst, Res.map] at hok
    · rw [if_neg hcl] at hok
      by_cases hch : IsChunked h
      · rw [if_pos hch] at hok
        simp only [Res.ok.injEq] at hok
        subst hok
        exact ⟨rfl, fun hne => absurd rfl hne, fun _ => hch⟩
      · rw [if_neg hch] at hok
        simp only [Res.ok.injEq] at hok
        subst hok
        exact ⟨rfl, fun hne => absurd rfl hne, fun hne => absurd rfl hne⟩
  · intro h hh st
    rw [parseHeaderLine_spec, if_neg (hhs h hh).2.2.1, if_neg (hhs h hh).2.2.2]
    rfl
  · exact processRead_plain code reason hs b hreason hhs hcode
  · have h0 := recvLoop_plain_reads code reason [] b []
      (responseBytes (statusLine code reason) [] b) [] hreason (by simp) hcode (by simp)
      (by simp [responseBytes, statusLine]) (by simp) (by simp [responseBytes, statusLine])
    simpa using h0
  · exact recvLoop_plain_reads code reason hs b earlier last rest hreason hhs hcode hne hl
      hsplit hlast

/-- The response `HTTP/1.1 200 OK` with the header lines `content-length: 5`,
`Content-Length : 5`, `transfer-encoding: chunked` and
`Transfer-Encoding: Chunked`, followed by `hi`, in two reads: the four lines
are recorded, and the body is `hi` as for a response without them. -/
theorem significant_headers_matched_exactly_witness :
    recvLoop (([ "HTTP/1.1 200 OK\r\ncontent-length: 5\r\nContent-Length : 5\r\ntransfer-enc".toList ]
        ++ [ "oding: chunked\r\nTransfer-Encoding: Chunked\r\n\r\nhi".toList ]).map
        RecvResult.bytes ++ [RecvResult.bytes "more".toList]) initialState
      = (Outcome.returned
          { succeeded := true
            code := 200
            headers := ["content-length: 5".toList, "Content-Length : 5".toList,
              "transfer-encoding: chunked".toList, "Transfer-Encoding: Chunked".toList]
            body := "hi".toList }, [RecvResult.bytes "more".toList]) :=
  (significant_headers_matched_exactly 200 "OK".toList
    ["content-length: 5".toList, "Content-Length : 5".toList,
      "transfer-encoding: chunked".toList, "Transfer-Encoding: Chunked".toList]
    "hi".toList
    ["HTTP/1.1 200 OK\r\ncontent-length: 5\r\nContent-Length : 5\r\ntransfer-enc".toList]
    "oding: chunked\r\nTransfer-Encoding: Chunked\r\n\r\nhi".toList
    [RecvResult.bytes "more".toList]
    (by decide) (by decide) (by decide) (by decide) (by decide) (by decide)
    (by decide)).2.2.2.2

/-- C20: per-read parsing terminates. With the budget that the pending
buffer gives (its length plus one; for the tokenizer the length of the line
plus two) the header loop, the tokenizer loop and the chunked loop end
without exhausting it, and a larger budget changes nothing, so that
processing one read, and the receive loop over any script, never ends for
lack of budget. This is so because an iteration that goes round again has
removed bytes from the pending buffer, or in the tokenizer has advanced the
scan position. In particular the chunked loop stops at once, waiting for
the next read, when a chunk is expected and the buffer is empty, and when
fewer than 2 bytes are there for the CRLF that follows a chunk. -/
theorem per_read_parsing_terminates (st : ParseState) (line data : Bytes)
    (script : List RecvResult) :
    (∀ f, st.responseData.length < f →
      headerLoop f st ≠ Res.outOfFuel ∧
      headerLoop f st = headerLoop (st.responseData.length + 1) st) ∧
    (∀ f, line.length + 2 ≤ f → ∃ parts, tokenizeLoop line f 0 [] = Res.ok parts) ∧
    (∀ f, st.responseData.length < f →
      chunkedLoop f st ≠ Res.outOfFuel ∧
      chunkedLoop f st = chunkedLoop (st.responseData.length + 1) st) ∧
    processRead st data ≠ Res.outOfFuel ∧
    (recvLoop script st).1 ≠ Outcome.outOfFuel ∧
    (∀ (f i : Nat) (s : ParseState), search st.responseData clrf = some i →
      st.responseData.take i ≠ [] →
      lineStep (st.responseData.take i) (st.setData (st.responseData.drop (i + 2))) = Res.ok s →
      headerLoop (f + 1) st = headerLoop f s ∧
      s.responseData.length < st.responseData.length) ∧
    (∀ (f lastPos : Nat) (parts : List Bytes), lastPos < line.length + 1 →
      tokenizeLoop line (f + 1) lastPos parts
        = tokenizeLoop line f ((find line [' '] lastPos).getD line.length + 1)
            (if (find line [' '] lastPos).getD line.length ≠ lastPos then
              parts ++ [substr line lastPos
                ((find line [' '] lastPos).getD line.length - lastPos)]
             else parts) ∧
      lastPos < (find line [' '] lastPos).getD line.length + 1) ∧
    (∀ f, 0 < st.expectedChunkSize → (chunkWrite st).responseData ≠ [] →
      chunkedLoop (f + 1) st = chunkedLoop f (chunkWrite st) ∧
      (chunkWrite st).responseData.length < st.responseData.length) ∧
    (∀ (f i n : Nat), st.expectedChunkSize = 0 →
      ¬ (st.removeCLRFAfterChunk = true ∧ st.responseData.length < 2) →
      search (chunkSkip st).responseData clrf = some i →
      stoul16 ((chunkSkip st).responseData.take i) = Res.ok n → n ≠ 0 →
      chunkedLoop (f + 1) st
        = chunkedLoop f
            (((chunkSkip st).setData ((chunkSkip st).responseData.drop (i + 2))).setChunk n) ∧
      (((chunkSkip st).setData
          ((chunkSkip st).responseData.drop (i + 2))).setChunk n).responseData.length
        < st.responseData.length) ∧
    (∀ f, 0 < st.expectedChunkSize → st.responseData = [] →
      chunkedLoop (f + 1) st = Res.ok (st, false)) ∧
    (∀ f, st.expectedChunkSize = 0 → st.removeCLRFAfterChunk = true →
      st.responseData.length < 2 → chunkedLoop (f + 1) st = Res.ok (st, false)) := by
  refine ⟨?_, ?_, ?_, processRead_ne_outOfFuel st data, recvLoop_ne_outOfFuel script st,
    ?_, ?_, ?_, ?_, ?_, ?_⟩
  · intro f hf
    have h := headerLoop_fuel f (st.responseData.length + 1) st hf (Nat.lt_succ_self _)
    exact ⟨h.2, h.1⟩
  · intro f hf
    exact ⟨_, tokenizeLoop_eq line line.length 0 f [] rfl (Nat.zero_le _) (by omega)⟩
  · intro f hf
    have h := chunkedLoop_fuel f (st.responseData.length + 1) st hf (Nat.lt_succ_self _)
    exact ⟨h.2, h.1⟩
  · intro f i s hs hne hl
    have h := headerLoop_step f st s i hs hne hl
    exact ⟨h.1, by omega⟩
  · intro f lastPos parts h
    exact tokenizeLoop_step line f lastPos parts h
  · intro f he hd
    exact chunkedLoop_step_write f st he hd
  · intro f i n he hw hs hn hn0
    have h := chunkedLoop_step_line f st i n he hw hs hn hn0
    exact ⟨h.1, by omega⟩
  · intro f he hd
    rcases st with ⟨⟨su, c, hdrs, bo⟩, buf, fl, ph, csz, ch, e, rm⟩
    simp only at he hd
    subst hd
    rw [chunkedLoop_succ, if_pos he]
    have he0 : e ≠ 0 := by omega
    simp [chunkWrite, he0]
  · intro f he hr hlen
    rw [chunkedLoop_succ, if_neg (by omega), if_pos ⟨hr, hlen⟩]

end http
